import Mathlib

/-!
# Snake 3D: the fixed-size matrix library (`Utilities/Matrix.h`, `Utilities/TMath.h`)

A shallow embedding of the linear-algebra core of the game, with the element
type `T` idealised from `float`/`double` to an arbitrary linearly ordered field
(exact arithmetic).

* `Matrix<N, M, T>` with `M > 1` is `Matrix (Fin N) (Fin M) T`; the accessor
  `m(iRow, iColumn)` (storage cell `pData[iRow*M+iColumn]`) is `m iRow iColumn`.
* `Matrix<N, 1, T>` (a vector) is `Vec N T`, that is `Fin N → T`; `v[i]` is `v i`.
* Operators that walk the backing array by linear index (comparisons,
  componentwise arithmetic) are stated on `Storage N M T`, the array
  `pData[N*M]`; `flatten` gives the array of a matrix, cell `(r, c)` at `r*M+c`.
* Output parameters (`vOut`, `mOut`) become return values; the `bool` result of
  `MatrixInvert` is returned next to the final content of `mOut`.
* Builders whose index arithmetic can leave the bounds asserted by
  `operator[]` and `operator()` return an `Option`: `none` is a failed assertion.
* Accumulating loops are folds over `List.finRange`, in the source's order.
* A definition whose comment opens with "Modelled from the spec" follows the
  specification's wording; the theorems compare it with the source's function.
* Where a floating-point `T` departs from a field, the departure is modelled
  on its own: `Scalar T` adds the unordered value NaN for the ordering
  comparisons, `Binary32` is `float` with its rounding, in which the rotation
  builders (stated for any element type `E`) can be evaluated, and the
  `Checked` form of `Normalize` makes the division by a zero magnitude explicit.
* `TMath::Sin`, `TMath::Cos` and `TMath::Sqrt` wrap the C library; the builders
  that use them take the function as an argument, and the theorems instantiate
  it with `Real.sin`, `Real.cos`, `Real.sqrt`.
-/

set_option autoImplicit false
set_option linter.unusedSectionVars false

namespace Snake3D

variable {T : Type} [LinearOrderedField T]

/-! ## TMath -/

namespace TMath

/-- Absolute value, `TMath::Abs`: `if (t < 0) return -t; return t;`. -/
def Abs (t : T) : T := if t < 0 then -t else t

/-- Square, `TMath::Sqr`: `t*t`. -/
def Sqr {E : Type} [Mul E] (t : E) : E := t * t

end TMath

/-! ## Data model -/

/-- Vector type `Matrix<N, 1, T>`: `N` components, `v[i]` is `v i`. -/
abbrev Vec (N : Nat) (T : Type) := Fin N → T

/-- Assignment `m(i, j) = t` to one cell of a matrix. -/
def setElem {E : Type} {N M : Nat} (m : Matrix (Fin N) (Fin M) E) (i : Fin N) (j : Fin M)
    (t : E) : Matrix (Fin N) (Fin M) E :=
  fun r c => if r = i ∧ c = j then t else m r c

/-- Three-component vector constructor `Matrix(x, y, z)`. -/
def vec3 {E : Type} (x y z : E) : Vec 3 E := ![x, y, z]

/-- Component accessor `x()`: `pData[0]`. -/
def Vec.x {E : Type} {N : Nat} (v : Vec (N + 1) E) : E := v 0

/-- Component accessor `y()`: `pData[1]`. -/
def Vec.y {E : Type} {N : Nat} (v : Vec (N + 2) E) : E := v 1

/-- Component accessor `z()`: `pData[2]`. -/
def Vec.z {E : Type} {N : Nat} (v : Vec (N + 3) E) : E := v 2

/-! ## Row and column transfer -/

/-- Member `GetRowRef(iRow)`: the row `iRow` of a square matrix seen as a vector. -/
def GetRowRef {N : Nat} (m : Matrix (Fin N) (Fin N) T) (iRow : Fin N) : Vec N T :=
  fun i => m iRow i

/-- Member `GetColumn(iColumn, vOut)`: `vOut[i] = Data(i, iColumn)`. -/
def GetColumn {N : Nat} (m : Matrix (Fin N) (Fin N) T) (iColumn : Fin N) : Vec N T :=
  fun i => m i iColumn

/-- Member `SetRow(iRow, v)`: `Data(iRow, i) = v[i]` for every `i`. -/
def SetRow {N : Nat} (m : Matrix (Fin N) (Fin N) T) (iRow : Fin N) (v : Vec N T) :
    Matrix (Fin N) (Fin N) T :=
  fun r c => if r = iRow then v c else m r c

/-! ## Elementary row operations -/

/-- Member `SwapRows(iRow1, iRow2)`: copy row `iRow1`, overwrite it with row
`iRow2`, then write the copy into row `iRow2`. -/
def SwapRows {N : Nat} (m : Matrix (Fin N) (Fin N) T) (iRow1 iRow2 : Fin N) :
    Matrix (Fin N) (Fin N) T :=
  let vTemp := GetRowRef m iRow1
  let m1 := SetRow m iRow1 (GetRowRef m iRow2)
  SetRow m1 iRow2 vTemp

/-- Member `ScaleRow(iRow, tScalar)`: the row times `tScalar`, written back. -/
def ScaleRow {N : Nat} (m : Matrix (Fin N) (Fin N) T) (iRow : Fin N) (tScalar : T) :
    Matrix (Fin N) (Fin N) T :=
  let vTemp : Vec N T := fun i => GetRowRef m iRow i * tScalar
  SetRow m iRow vTemp

/-- Member `AddScaledRow(iScaledRow, tScalar, iResultRow)`: row `iScaledRow`
times `tScalar`, plus row `iResultRow`, written into row `iResultRow`. -/
def AddScaledRow {N : Nat} (m : Matrix (Fin N) (Fin N) T) (iScaledRow : Fin N) (tScalar : T)
    (iResultRow : Fin N) : Matrix (Fin N) (Fin N) T :=
  let vTemp : Vec N T := fun i => GetRowRef m iScaledRow i * tScalar
  let vTemp : Vec N T := fun i => vTemp i + GetRowRef m iResultRow i
  SetRow m iResultRow vTemp

/-- Member `SetIdentity()`: ones on the diagonal, zeros elsewhere. -/
def SetIdentity {E : Type} [Zero E] [One E] {N : Nat} : Matrix (Fin N) (Fin N) E :=
  fun i j => if i = j then 1 else 0

/-! ## Matrix product and inversion -/

/-- Function `MatrixMultiply(m1, m2, mOut)`: `mTemp` starts at zero and the
triple loop runs `mTemp(i, j) += m1(i, k)*m2(k, j)`. -/
def MatrixMultiply {N M P : Nat} (m1 : Matrix (Fin N) (Fin M) T) (m2 : Matrix (Fin M) (Fin P) T) :
    Matrix (Fin N) (Fin P) T :=
  (List.finRange N).foldl (fun mTemp i =>
    (List.finRange P).foldl (fun mTemp j =>
      (List.finRange M).foldl (fun mTemp k =>
        setElem mTemp i j (mTemp i j + m1 i k * m2 k j)) mTemp) mTemp) (fun _ _ => 0)

/-- One pass of the pivot search of `MatrixInvert`: `tTemp = Abs(column[iRow])`,
and when `tTemp > tMax` the pair `(tMax, i)` becomes `(tTemp, iRow)`. -/
def pivotStep {N : Nat} (mCurrentColumn : Vec N T) (st : T × Fin N) (iRow : Fin N) : T × Fin N :=
  let tTemp := TMath.Abs (mCurrentColumn iRow)
  if tTemp > st.1 then (tTemp, iRow) else st

/-- The pivot search of `MatrixInvert` in column `j`: it starts from
`i = j`, `tMax = column[j]` and visits the rows `iRow = j, ..., N-1`. -/
def findPivot {N : Nat} (mCurrentColumn : Vec N T) (j : Fin N) : T × Fin N :=
  ((List.finRange N).filter (fun iRow => j ≤ iRow)).foldl (pivotStep mCurrentColumn)
    (mCurrentColumn j, j)

/-- One pass of the elimination loop of `MatrixInvert` on the pair
`(mResult, mIdent)`: row `r = j` is skipped, and otherwise
`tScalar = -mResult(r, j)` times row `j` is added to row `r` of both matrices
when `tScalar != 0`. -/
def eliminateStep {N : Nat} (j : Fin N)
    (st : Matrix (Fin N) (Fin N) T × Matrix (Fin N) (Fin N) T) (r : Fin N) :
    Matrix (Fin N) (Fin N) T × Matrix (Fin N) (Fin N) T :=
  if r = j then st
  else
    let tScalar := -st.1 r j
    if tScalar ≠ 0 then (AddScaledRow st.1 j tScalar r, AddScaledRow st.2 j tScalar r)
    else st

/-- The body of the column loop of `MatrixInvert` for column `j`, on the pair
`(mResult, mIdent)`; `none` is the early `return false`. -/
def invertColumn {N : Nat} (st : Matrix (Fin N) (Fin N) T × Matrix (Fin N) (Fin N) T)
    (j : Fin N) : Option (Matrix (Fin N) (Fin N) T × Matrix (Fin N) (Fin N) T) :=
  let mCurrentColumn := GetColumn st.1 j
  let p := findPivot mCurrentColumn j
  if p.1 = 0 then none
  else
    let st1 := if p.2 ≠ j then (SwapRows st.1 p.2 j, SwapRows st.2 p.2 j) else st
    let tScalar := 1 / st1.1 j j
    let st2 := if tScalar ≠ 1 then (ScaleRow st1.1 j tScalar, ScaleRow st1.2 j tScalar) else st1
    some ((List.finRange N).foldl (eliminateStep j) st2)

/-- The column loop of `MatrixInvert` on `mResult = m`, `mIdent = identity`;
`none` when some column pass exits with `return false`. -/
def invertLoop {N : Nat} (m : Matrix (Fin N) (Fin N) T) :
    Option (Matrix (Fin N) (Fin N) T × Matrix (Fin N) (Fin N) T) :=
  (List.finRange N).foldlM invertColumn (m, SetIdentity)

/-- Function `MatrixInvert(m, mOut)`: Gauss-Jordan elimination with partial
pivoting on `mResult = m` next to `mIdent = identity`. The result is the
returned flag together with the final content of the output parameter:
`mOut` as it was passed on `return false`, and `mIdent` on `return true`. -/
def MatrixInvert {N : Nat} (m mOut : Matrix (Fin N) (Fin N) T) :
    Bool × Matrix (Fin N) (Fin N) T :=
  match invertLoop m with
  | none => (false, mOut)
  | some st => (true, st.2)

/-- Member `Transpose()`: for `i < j` the cells `(i, j)` and `(j, i)` are
exchanged through `temp`. -/
def Transpose {N : Nat} (m : Matrix (Fin N) (Fin N) T) : Matrix (Fin N) (Fin N) T :=
  (List.finRange N).foldl (fun m i =>
    ((List.finRange N).filter (fun j => i < j)).foldl (fun m j =>
      let temp := m i j
      let m1 := setElem m i j (m j i)
      setElem m1 j i temp) m) m

/-! ## Vector functions -/

/-- Member `GetMagnitudeSqr()`: `tMagnitude += Sqr(pData[i])` from zero. -/
def GetMagnitudeSqr {N : Nat} (v : Vec N T) : T :=
  (List.finRange N).foldl (fun tMagnitude i => tMagnitude + TMath.Sqr (v i)) 0

/-- Member `GetMagnitude()`: `Sqrt(GetMagnitudeSqr())`, for the square root
function `Sqrt` of `TMath`. -/
def GetMagnitude {N : Nat} (Sqrt : T → T) (v : Vec N T) : T :=
  Sqrt (GetMagnitudeSqr v)

/-- Function `VectorDot(v1, v2)`: `tDot += v1[i]*v2[i]` from zero. -/
def VectorDot {N : Nat} (v1 v2 : Vec N T) : T :=
  (List.finRange N).foldl (fun tDot i => tDot + v1 i * v2 i) 0

/-- Member `VectorAddDimention(vOut)`: the `N` components copied, then
`vOut[N] = 1`. -/
def VectorAddDimention {N : Nat} (v : Vec N T) : Vec (N + 1) T :=
  fun i => if h : i.val < N then v ⟨i.val, h⟩ else 1

/-- The accumulation shared by both forms of `VectorMultiply`: `vResult`
starts at zero and the double loop runs `vResult[i] += m(j, i)*v[j]`. -/
def multiplyLoop {N : Nat} (v : Vec N T) (m : Matrix (Fin N) (Fin N) T) : Vec N T :=
  (List.finRange N).foldl (fun vResult i =>
    (List.finRange N).foldl (fun vResult j =>
      Function.update vResult i (vResult i + m j i * v j)) vResult) (fun _ => 0)

/-- Function `VectorMultiply(v, m, vOut)` for an `N`-vector and an `N x N`
matrix: the accumulated `vResult` is copied to `vOut`. -/
def VectorMultiply {N : Nat} (v : Vec N T) (m : Matrix (Fin N) (Fin N) T) : Vec N T :=
  multiplyLoop v m

/-- Function `VectorMultiply(v, m, vOut)` for an `N`-vector and an
`(N+1) x (N+1)` matrix: `v` gets a trailing one, the loop runs over `N+1`
components, and the first `N` are copied when `vResult[N] == 1` and
multiplied by `1/vResult[N]` otherwise. -/
def VectorMultiplyHomogeneous {N : Nat} (v : Vec N T)
    (m : Matrix (Fin (N + 1)) (Fin (N + 1)) T) : Vec N T :=
  let vTemp := VectorAddDimention v
  let vResult := multiplyLoop vTemp m
  if vResult (Fin.last N) = 1 then fun i => vResult i.castSucc
  else
    let tTemp := 1 / vResult (Fin.last N)
    fun i => vResult i.castSucc * tTemp

/-! ## Creation functions -/

/-- Function `CreateTranslationMatrix<N>(vTranslation, mOut)` with `N = n + 1`
(`hN` is the static check `N > 2`): identity, then row `N-1` set to the
translation with a trailing one. -/
def CreateTranslationMatrix {n : Nat} (_hN : 2 < n + 1) (vTranslation : Vec n T) :
    Matrix (Fin (n + 1)) (Fin (n + 1)) T :=
  let mOut : Matrix (Fin (n + 1)) (Fin (n + 1)) T := SetIdentity
  let vTemp := VectorAddDimention vTranslation
  SetRow mOut (Fin.last n) vTemp

/-- Function `CreateRotationMatrixX<N>(tAngle, mOut)` (`hN` is the static
check `N > 2`; `Sin`, `Cos` are the functions of `TMath`), for an element type
`E` with its own arithmetic. -/
def CreateRotationMatrixX {E : Type} [Zero E] [One E] [Neg E] (N : Nat) (hN : 2 < N)
    (Sin Cos : E → E) (tAngle : E) : Matrix (Fin N) (Fin N) E :=
  let i1 : Fin N := ⟨1, by omega⟩
  let i2 : Fin N := ⟨2, hN⟩
  let mOut : Matrix (Fin N) (Fin N) E := SetIdentity
  let tSin := Sin tAngle
  let tCos := Cos tAngle
  let mOut := setElem mOut i1 i1 tCos
  let mOut := setElem mOut i2 i1 tSin
  let mOut := setElem mOut i1 i2 (-tSin)
  setElem mOut i2 i2 tCos

/-- Function `CreateRotationMatrixY<N>(tAngle, mOut)` (`hN` is the static
check `N > 2`; `Sin`, `Cos` are the functions of `TMath`), for an element type
`E` with its own arithmetic. -/
def CreateRotationMatrixY {E : Type} [Zero E] [One E] [Neg E] (N : Nat) (hN : 2 < N)
    (Sin Cos : E → E) (tAngle : E) : Matrix (Fin N) (Fin N) E :=
  let i0 : Fin N := ⟨0, by omega⟩
  let i2 : Fin N := ⟨2, hN⟩
  let mOut : Matrix (Fin N) (Fin N) E := SetIdentity
  let tSin := Sin tAngle
  let tCos := Cos tAngle
  let mOut := setElem mOut i0 i0 tCos
  let mOut := setElem mOut i0 i2 tSin
  let mOut := setElem mOut i2 i0 (-tSin)
  setElem mOut i2 i2 tCos

/-- Function `CreateRotationMatrixZ<N>(tAngle, mOut)` (`hN` is the static
check `N > 2`; `Sin`, `Cos` are the functions of `TMath`), for an element type
`E` with its own arithmetic. -/
def CreateRotationMatrixZ {E : Type} [Zero E] [One E] [Neg E] (N : Nat) (hN : 2 < N)
    (Sin Cos : E → E) (tAngle : E) : Matrix (Fin N) (Fin N) E :=
  let i0 : Fin N := ⟨0, by omega⟩
  let i1 : Fin N := ⟨1, by omega⟩
  let mOut : Matrix (Fin N) (Fin N) E := SetIdentity
  let tSin := Sin tAngle
  let tCos := Cos tAngle
  let mOut := setElem mOut i0 i0 tCos
  let mOut := setElem mOut i1 i0 tSin
  let mOut := setElem mOut i0 i1 (-tSin)
  setElem mOut i1 i1 tCos

/-- Function `CreateRotationMatrixAxis<N>(vAxis, tAngle, mOut)` (`hN` is the
static check `N > 2`; `Sin`, `Cos` are the functions of `TMath`), for an
element type `E` with its own arithmetic: the sine and cosine are taken of
`-tAngle`. -/
def CreateRotationMatrixAxis {E : Type} [Zero E] [One E] [Add E] [Sub E] [Mul E] [Neg E]
    (N : Nat) (hN : 2 < N) (Sin Cos : E → E) (vAxis : Vec 3 E) (tAngle : E) :
    Matrix (Fin N) (Fin N) E :=
  let i0 : Fin N := ⟨0, by omega⟩
  let i1 : Fin N := ⟨1, by omega⟩
  let i2 : Fin N := ⟨2, hN⟩
  let mOut : Matrix (Fin N) (Fin N) E := SetIdentity
  let tSin := Sin (-tAngle)
  let tCos := Cos (-tAngle)
  let tOneMinusCos := 1 - tCos
  let mOut := setElem mOut i0 i0 (tCos + tOneMinusCos * TMath.Sqr vAxis.x)
  let mOut := setElem mOut i0 i1 (tOneMinusCos * vAxis.x * vAxis.y + tSin * vAxis.z)
  let mOut := setElem mOut i0 i2 (tOneMinusCos * vAxis.x * vAxis.z - tSin * vAxis.y)
  let mOut := setElem mOut i1 i0 (tOneMinusCos * vAxis.x * vAxis.y - tSin * vAxis.z)
  let mOut := setElem mOut i1 i1 (tCos + tOneMinusCos * TMath.Sqr vAxis.y)
  let mOut := setElem mOut i1 i2 (tOneMinusCos * vAxis.y * vAxis.z + tSin * vAxis.x)
  let mOut := setElem mOut i2 i0 (tOneMinusCos * vAxis.x * vAxis.z + tSin * vAxis.y)
  let mOut := setElem mOut i2 i1 (tOneMinusCos * vAxis.y * vAxis.z - tSin * vAxis.x)
  setElem mOut i2 i2 (tCos + tOneMinusCos * TMath.Sqr vAxis.z)

/-- Function `CreateRotationMatrixXYZ<N>(v, mOut)` (`hN` is the static check
`N > 2`; `Sin`, `Cos` are the functions of `TMath`): the closed form, with the
sines and cosines taken of the negated Euler angles. -/
def CreateRotationMatrixXYZ (N : Nat) (hN : 2 < N) (Sin Cos : T → T) (v : Vec 3 T) :
    Matrix (Fin N) (Fin N) T :=
  let i0 : Fin N := ⟨0, by omega⟩
  let i1 : Fin N := ⟨1, by omega⟩
  let i2 : Fin N := ⟨2, hN⟩
  let mOut : Matrix (Fin N) (Fin N) T := SetIdentity
  let tCosZ := Cos (-v.z)
  let tSinZ := Sin (-v.z)
  let tCosX := Cos (-v.x)
  let tSinX := Sin (-v.x)
  let tCosY := Cos (-v.y)
  let tSinY := Sin (-v.y)
  let mOut := setElem mOut i0 i0 (tCosZ * tCosY + tSinZ * tSinX * tSinY)
  let mOut := setElem mOut i0 i1 (tSinZ * tCosX)
  let mOut := setElem mOut i0 i2 (tCosZ * -tSinY + tSinZ * tSinX * tCosY)
  let mOut := setElem mOut i1 i0 (-tSinZ * tCosY + tCosZ * tSinX * tSinY)
  let mOut := setElem mOut i1 i1 (tCosZ * tCosX)
  let mOut := setElem mOut i1 i2 (tSinZ * tSinY + tCosZ * tSinX * tCosY)
  let mOut := setElem mOut i2 i0 (tCosX * tSinY)
  let mOut := setElem mOut i2 i1 (-tSinX)
  setElem mOut i2 i2 (tCosX * tCosY)

/-! ## Cross product, magnitudes and orthonormalisation -/

/-- Function `VectorCross(v1, v2, vOut)`: the three components are computed
into `vTemp`, which is then copied to `vOut`. -/
def VectorCross (v1 v2 : Vec 3 T) : Vec 3 T :=
  let vTemp : Vec 3 T := vec3 (v1.y * v2.z - v1.z * v2.y) (v1.z * v2.x - v1.x * v2.z)
    (v1.x * v2.y - v1.y * v2.x)
  vTemp

/-- Member `SetMagnitude(tMagnitude)`: `tTemp = tMagnitude/GetMagnitude()`,
then every component is multiplied by `tTemp`. -/
def SetMagnitude {N : Nat} (Sqrt : T → T) (v : Vec N T) (tMagnitude : T) : Vec N T :=
  let tTemp := tMagnitude / GetMagnitude Sqrt v
  fun i => v i * tTemp

/-- Member `Normalize()`: `SetMagnitude(1)`. -/
def Normalize {N : Nat} (Sqrt : T → T) (v : Vec N T) : Vec N T :=
  SetMagnitude Sqrt v 1

/-- Member `SetColumn(iColumn, v)`: `Data(i, iColumn) = v[i]` for every `i`. -/
def SetColumn {N : Nat} (m : Matrix (Fin N) (Fin N) T) (iColumn : Fin N) (v : Vec N T) :
    Matrix (Fin N) (Fin N) T :=
  fun r c => if c = iColumn then v r else m r c

/-- Member `GetXVector(vOut)`: `vOut[i] = Data(i, 0)`. -/
def GetXVector {N : Nat} (m : Matrix (Fin N) (Fin N) T) (h : 0 < N) : Vec N T :=
  fun i => m i ⟨0, h⟩

/-- Member `GetYVector(vOut)`: `vOut[i] = Data(i, 1)` (`h` is the static
check `M > 1`). -/
def GetYVector {N : Nat} (m : Matrix (Fin N) (Fin N) T) (h : 1 < N) : Vec N T :=
  fun i => m i ⟨1, h⟩

/-- Member `SetXVector(v)`: `SetColumn(0, v)`. -/
def SetXVector {N : Nat} (m : Matrix (Fin N) (Fin N) T) (h : 0 < N) (v : Vec N T) :
    Matrix (Fin N) (Fin N) T :=
  SetColumn m ⟨0, h⟩ v

/-- Member `SetYVector(v)`: `SetColumn(1, v)` (`h` is the static check
`M > 1`). -/
def SetYVector {N : Nat} (m : Matrix (Fin N) (Fin N) T) (h : 1 < N) (v : Vec N T) :
    Matrix (Fin N) (Fin N) T :=
  SetColumn m ⟨1, h⟩ v

/-- Member `SetZVector(v)`: `SetColumn(2, v)` (`h` is the static check
`M > 2`). -/
def SetZVector {N : Nat} (m : Matrix (Fin N) (Fin N) T) (h : 2 < N) (v : Vec N T) :
    Matrix (Fin N) (Fin N) T :=
  SetColumn m ⟨2, h⟩ v

/-- Modelled from the spec: the member `Cross(v1, v2)` that `Orthonormalize`
calls as `vZ.Cross(vX, vY)` is declared nowhere in `Matrix.h`. The spec reads
these calls as "compute Z = X×Y; recompute Y = Z×X" with the "standard
right-hand-rule formula", which is the formula of `VectorCross`; the result
replaces the receiver. -/
def Cross (v1 v2 : Vec 3 T) : Vec 3 T :=
  VectorCross v1 v2

/-- Member `Orthonormalize()` of a 3 x 3 matrix: columns 0 and 1 are read,
`vX` is normalised, `vZ = Cross(vX, vY)`, `vY = Cross(vZ, vX)`, `vY` and `vZ`
are normalised, and the three vectors are written back as columns 0, 1, 2. -/
def Orthonormalize (Sqrt : T → T) (m : Matrix (Fin 3) (Fin 3) T) : Matrix (Fin 3) (Fin 3) T :=
  let vX := GetXVector m (by decide)
  let vY := GetYVector m (by decide)
  let vX := Normalize Sqrt vX
  let vZ := Cross vX vY
  let vY := Cross vZ vX
  let vY := Normalize Sqrt vY
  let vZ := Normalize Sqrt vZ
  let m := SetXVector m (by decide) vX
  let m := SetYVector m (by decide) vY
  SetZVector m (by decide) vZ

/-! ## Builders with run-time checked accesses -/

/-- Index operator `operator[](i)` of a vector with its assertion
`i < N*M`: `none` when the assertion fails. -/
def Vec.index {N : Nat} (v : Vec N T) (i : Nat) : Option T :=
  if h : i < N then some (v ⟨i, h⟩) else none

/-- Assignment `m(iRow, iColumn) = t` through the access operator with its
assertion `iRow < N && iColumn < M`: `none` when the assertion fails. -/
def setChecked {N M : Nat} (m : Matrix (Fin N) (Fin M) T) (iRow iColumn : Nat) (t : T) :
    Option (Matrix (Fin N) (Fin M) T) :=
  if h : iRow < N ∧ iColumn < M then some (setElem m ⟨iRow, h.1⟩ ⟨iColumn, h.2⟩ t) else none

/-- Function `CreateScalingMatrix<N>(vScale, mOut)` with `N = n + 1` (`hN` is
the static check `N > 2`): identity, then `mOut(i, i) = vScale[i]` for
`i = 0, ..., N-1`, where `vScale` has `N-1` components; `none` when the
assertion of `operator[]` fails. -/
def CreateScalingMatrix {n : Nat} (_hN : 2 < n + 1) (vScale : Vec n T) :
    Option (Matrix (Fin (n + 1)) (Fin (n + 1)) T) :=
  (List.finRange (n + 1)).foldlM (fun mOut i =>
    match Vec.index vScale i.val with
    | none => none
    | some t => some (setElem mOut i i t)) SetIdentity

/-- A run of assignments `m(iRow, iColumn) = t` in the listed order, each
through the access operator with its assertion; `none` as soon as one
assertion fails. -/
def assignAll {N M : Nat} (mOut : Matrix (Fin N) (Fin M) T) (l : List (Nat × Nat × T)) :
    Option (Matrix (Fin N) (Fin M) T) :=
  l.foldlM (fun m a => setChecked m a.1 a.2.1 a.2.2) mOut

/-- Function `CreateViewMatrix<N>(vPosition, vLook, vUp, mOut)` (`hN` is the
static check `N > 2`; `Sqrt` is the function of `TMath`): the sixteen
assignments in the source's order; `none` when an assertion of the access
operator fails. -/
def CreateViewMatrix (N : Nat) (_hN : 2 < N) (Sqrt : T → T) (mOut : Matrix (Fin N) (Fin N) T)
    (vPosition vLook vUp : Vec 3 T) : Option (Matrix (Fin N) (Fin N) T) :=
  let vXAxis := VectorCross vUp vLook
  let vXAxis := Normalize Sqrt vXAxis
  let vYAxis := VectorCross vLook vXAxis
  assignAll mOut
    [(0, 0, vXAxis.x), (0, 1, vYAxis.x), (0, 2, vLook.x), (0, 3, 0),
     (1, 0, vXAxis.y), (1, 1, vYAxis.y), (1, 2, vLook.y), (1, 3, 0),
     (2, 0, vXAxis.z), (2, 1, vYAxis.z), (2, 2, vLook.z), (2, 3, 0),
     (3, 0, -VectorDot vPosition vXAxis), (3, 1, -VectorDot vPosition vYAxis),
     (3, 2, -VectorDot vPosition vLook), (3, 3, 1)]

/-- Member `SetMagnitude(tMagnitude)` with its division made explicit: the
quotient `tMagnitude/GetMagnitude()` exists only for a non-zero magnitude.
`none` is the division by zero, which has no value in exact arithmetic; the
floating-point code gets an infinity there, and NaN components from a zero
vector. -/
def Checked.SetMagnitude {N : Nat} (Sqrt : T → T) (v : Vec N T) (tMagnitude : T) :
    Option (Vec N T) :=
  if GetMagnitude Sqrt v = 0 then none else some (Snake3D.SetMagnitude Sqrt v tMagnitude)

/-- Member `Normalize()` with the division made explicit: `SetMagnitude(1)`. -/
def Checked.Normalize {N : Nat} (Sqrt : T → T) (v : Vec N T) : Option (Vec N T) :=
  Checked.SetMagnitude Sqrt v 1

/-- Function `CreateViewMatrix<N>(vPosition, vLook, vUp, mOut)` with the
division of `vXAxis.Normalize()` made explicit: `none` when that division is
by zero or when an assertion of the access operator fails. -/
def Checked.CreateViewMatrix (N : Nat) (_hN : 2 < N) (Sqrt : T → T)
    (mOut : Matrix (Fin N) (Fin N) T) (vPosition vLook vUp : Vec 3 T) :
    Option (Matrix (Fin N) (Fin N) T) :=
  let vXAxis := VectorCross vUp vLook
  match Checked.Normalize Sqrt vXAxis with
  | none => none
  | some vXAxis =>
    let vYAxis := VectorCross vLook vXAxis
    assignAll mOut
      [(0, 0, vXAxis.x), (0, 1, vYAxis.x), (0, 2, vLook.x), (0, 3, 0),
       (1, 0, vXAxis.y), (1, 1, vYAxis.y), (1, 2, vLook.y), (1, 3, 0),
       (2, 0, vXAxis.z), (2, 1, vYAxis.z), (2, 2, vLook.z), (2, 3, 0),
       (3, 0, -VectorDot vPosition vXAxis), (3, 1, -VectorDot vPosition vYAxis),
       (3, 2, -VectorDot vPosition vLook), (3, 3, 1)]

/-- Function `CreatePerspectiveMatrix<N>(fFOVY, fAspectRatio, fNearClip,
fFarClip, mOut)` (`Tan` is the function of `TMath`): the sixteen assignments
in the source's order; `none` when an assertion of the access operator
fails. -/
def CreatePerspectiveMatrix (N : Nat) (Tan : T → T) (mOut : Matrix (Fin N) (Fin N) T)
    (fFOVY fAspectRatio fNearClip fFarClip : T) : Option (Matrix (Fin N) (Fin N) T) :=
  let fYScale := 1 / Tan (fFOVY * (1 / 2))
  let fInvClipRange := 1 / (fFarClip - fNearClip)
  assignAll mOut
    [(0, 0, 1 / fAspectRatio * fYScale), (0, 1, 0), (0, 2, 0), (0, 3, 0),
     (1, 0, 0), (1, 1, fYScale), (1, 2, 0), (1, 3, 0),
     (2, 0, 0), (2, 1, 0), (2, 2, fFarClip * fInvClipRange), (2, 3, 1),
     (3, 0, 0), (3, 1, 0), (3, 2, -fNearClip * (fFarClip * fInvClipRange)), (3, 3, 0)]

/-! ## Linear storage, comparisons and componentwise arithmetic -/

/-- Backing storage `T pData[N*M]` of a `Matrix<N, M, T>` of any shape, in
row-major order: `p i` is `pData[i]`. The `unsigned int` index arithmetic of
the source is done in `Nat`: the element count `N*M` of a declared matrix is
taken to be representable. -/
abbrev Storage (N M : Nat) (T : Type) := Fin (N * M) → T

/-- Index operator `operator[](i)` on the storage, with its assertion
`i < N*M`: `none` when the assertion fails. -/
def Storage.index {N M : Nat} (p : Storage N M T) (i : Nat) : Option T :=
  if h : i < N * M then some (p ⟨i, h⟩) else none

/-- The linear index `iRow*M+iColumn` that the access operator `operator()`
computes. -/
def accessIndex (M iRow iColumn : Nat) : Nat :=
  iRow * M + iColumn

/-- Access operator `operator()(iRow, iColumn)` on the storage:
`assert(iRow < N && iColumn < M)`, then `pData[iRow*M+iColumn]`; `none` when
the assertion fails or the array is read outside its `N*M` elements. -/
def Storage.access {N M : Nat} (p : Storage N M T) (iRow iColumn : Nat) : Option T :=
  if iRow < N ∧ iColumn < M then
    if h : accessIndex M iRow iColumn < N * M then some (p ⟨accessIndex M iRow iColumn, h⟩)
    else none
  else none

/-- The storage of a matrix given by its cells: `pData[k]` holds the cell
`(k / M, k % M)`, so that the cell `(r, c)` is `pData[r*M+c]`. -/
def flatten {N M : Nat} (m : Matrix (Fin N) (Fin M) T) : Storage N M T :=
  fun k =>
    m ⟨k.val / M, Nat.div_lt_of_lt_mul (lt_of_lt_of_eq k.isLt (Nat.mul_comm N M))⟩
      ⟨k.val % M, Nat.mod_lt _ (Nat.pos_of_ne_zero (fun h =>
        Nat.not_lt_zero k.val (lt_of_lt_of_eq k.isLt (by rw [h, Nat.mul_zero]))))⟩

/-- Index operator `operator[](i)` of a matrix given by its cells, with its
assertion `i < N*M`. -/
def linearGet {N M : Nat} (m : Matrix (Fin N) (Fin M) T) (i : Nat) : Option T :=
  Storage.index (flatten m) i

/-- A loop `for i: if (bad i) return false;` followed by `return true`. -/
def checkAll {ι : Type} (bad : ι → Bool) : List ι → Bool
  | [] => true
  | i :: l => if bad i then false else checkAll bad l

/-- Member `operator ==`: `false` at the first `pData[i] != rhs[i]`. -/
def operatorEq {N M : Nat} (A B : Storage N M T) : Bool :=
  checkAll (fun i => decide (A i ≠ B i)) (List.finRange (N * M))

/-- Member `operator !=`: `false` at the first `pData[i] == rhs[i]`. -/
def operatorNe {N M : Nat} (A B : Storage N M T) : Bool :=
  checkAll (fun i => decide (A i = B i)) (List.finRange (N * M))

/-- A value of the element type as the comparison operators meet it: a number
of `T`, or NaN, the unordered value of a floating-point `T`. Infinities are
ordered like numbers and are not set apart. -/
inductive Scalar (T : Type) where
  | num : T → Scalar T
  | nan : Scalar T

/-- The scalar test `a <= b` of the element type: false when a side is NaN. -/
def Scalar.le : Scalar T → Scalar T → Bool
  | Scalar.num a, Scalar.num b => decide (a ≤ b)
  | _, _ => false

/-- The scalar test `a >= b` of the element type: false when a side is NaN. -/
def Scalar.ge : Scalar T → Scalar T → Bool
  | Scalar.num a, Scalar.num b => decide (a ≥ b)
  | _, _ => false

/-- The scalar test `a < b` of the element type: false when a side is NaN. -/
def Scalar.lt : Scalar T → Scalar T → Bool
  | Scalar.num a, Scalar.num b => decide (a < b)
  | _, _ => false

/-- The scalar test `a > b` of the element type: false when a side is NaN. -/
def Scalar.gt : Scalar T → Scalar T → Bool
  | Scalar.num a, Scalar.num b => decide (a > b)
  | _, _ => false

/-- Member `operator >`: `false` at the first `pData[i] <= rhs[i]`. -/
def operatorGt {N M : Nat} (A B : Storage N M (Scalar T)) : Bool :=
  checkAll (fun i => Scalar.le (A i) (B i)) (List.finRange (N * M))

/-- Member `operator <`: `false` at the first `pData[i] >= rhs[i]`. -/
def operatorLt {N M : Nat} (A B : Storage N M (Scalar T)) : Bool :=
  checkAll (fun i => Scalar.ge (A i) (B i)) (List.finRange (N * M))

/-- Member `operator >=`: `false` at the first `pData[i] < rhs[i]`. -/
def operatorGe {N M : Nat} (A B : Storage N M (Scalar T)) : Bool :=
  checkAll (fun i => Scalar.lt (A i) (B i)) (List.finRange (N * M))

/-- Member `operator <=`: `false` at the first `pData[i] > rhs[i]`. -/
def operatorLe {N M : Nat} (A B : Storage N M (Scalar T)) : Bool :=
  checkAll (fun i => Scalar.gt (A i) (B i)) (List.finRange (N * M))

/-- A loop `for i: mTemp[i] = f i` over all linear indices, started from the
uninitialised local `mTemp`. -/
def fillLoop {n : Nat} (f : Fin n → T) (mTemp : Fin n → T) : Fin n → T :=
  (List.finRange n).foldl (fun mTemp i => Function.update mTemp i (f i)) mTemp

/-- Member unary `operator -`: `mTemp[i] = -pData[i]`. -/
def operatorNeg {N M : Nat} (A mTemp : Storage N M T) : Storage N M T :=
  fillLoop (fun i => -A i) mTemp

/-- Member `operator +` on two matrices: `mTemp[i] = pData[i]+rhs[i]`. -/
def operatorAdd {N M : Nat} (A B mTemp : Storage N M T) : Storage N M T :=
  fillLoop (fun i => A i + B i) mTemp

/-- Member `operator -` on two matrices: `mTemp[i] = pData[i]-rhs[i]`. -/
def operatorSub {N M : Nat} (A B mTemp : Storage N M T) : Storage N M T :=
  fillLoop (fun i => A i - B i) mTemp

/-- Member `operator *` on two matrices: `mTemp[i] = pData[i]*rhs[i]`. -/
def operatorMul {N M : Nat} (A B mTemp : Storage N M T) : Storage N M T :=
  fillLoop (fun i => A i * B i) mTemp

/-- Member `operator /` on two matrices: `mTemp[i] = pData[i]/rhs[i]`. -/
def operatorDiv {N M : Nat} (A B mTemp : Storage N M T) : Storage N M T :=
  fillLoop (fun i => A i / B i) mTemp

/-- The inner loop of `MatrixIsIdentity` for row `i` over the listed columns:
`some false` is `return false`, `some true` is falling out of the loop, and
`none` is a failed assertion of `operator[]`. The name `M` is not declared in
the source function; it is a parameter here. -/
def identityRow {N : Nat} (M : Nat) (m : Matrix (Fin N) (Fin N) T) (i : Fin N) :
    List (Fin N) → Option Bool
  | [] => some true
  | j :: l =>
    match linearGet m (i.val * M + j.val) with
    | none => none
    | some t =>
      if i = j then
        if t ≠ 1 then some false else identityRow M m i l
      else
        if t ≠ 0 then some false else identityRow M m i l

/-- The outer loop of `MatrixIsIdentity` over the listed rows. -/
def identityRows {N : Nat} (M : Nat) (m : Matrix (Fin N) (Fin N) T) :
    List (Fin N) → Option Bool
  | [] => some true
  | i :: l =>
    match identityRow M m i (List.finRange N) with
    | some true => identityRows M m l
    | r => r

/-- Function `MatrixIsIdentity(m)`: every cell is read as `m[i*M+j]` and
compared with one on the diagonal and zero elsewhere. The name `M` is not
declared in the source function and is a parameter; `none` is a failed
assertion of `operator[]`. -/
def MatrixIsIdentity {N : Nat} (M : Nat) (m : Matrix (Fin N) (Fin N) T) : Option Bool :=
  identityRows M m (List.finRange N)

/-- Function `VectorReflect(vIncident, vNormal, vOut)`:
`tDot = VectorDot(vIncident, vNormal)*2`, then
`vOut[i] = vIncident[i]-vNormal[i]*tDot`. -/
def VectorReflect {N : Nat} (vIncident vNormal : Vec N T) : Vec N T :=
  let tDot := VectorDot vIncident vNormal * 2
  fun i => vIncident i - vNormal i * tDot

/-! ## Row and column transfer for any shape, with checked accesses -/

/-- Read `Data(iRow, iColumn)` through the access operator with its assertion
`iRow < N && iColumn < M`: `none` when the assertion fails. -/
def getChecked {N M : Nat} (m : Matrix (Fin N) (Fin M) T) (iRow iColumn : Nat) : Option T :=
  if h : iRow < N ∧ iColumn < M then some (m ⟨iRow, h.1⟩ ⟨iColumn, h.2⟩) else none

/-- Assignment `v[i] = t` through `operator[]` with its assertion `i < N`. -/
def Vec.assign {N : Nat} (v : Vec N T) (i : Nat) (t : T) : Option (Vec N T) :=
  if h : i < N then some (Function.update v ⟨i, h⟩ t) else none

/-- Member `GetRow(iRow, vOut)` of an `N x M` matrix, `vOut` being a
`Matrix<N, 1, T>`: `assert(iRow < N)`, then `vOut[i] = Data(iRow, i)` for
`i = 0, ..., N-1`. -/
def Checked.GetRow {N M : Nat} (m : Matrix (Fin N) (Fin M) T) (iRow : Nat) (vOut : Vec N T) :
    Option (Vec N T) :=
  if iRow < N then
    (List.range N).foldlM (fun vOut i =>
      (getChecked m iRow i).bind fun t => Vec.assign vOut i t) vOut
  else none

/-- Member `GetColumn(iColumn, vOut)` of an `N x M` matrix, `vOut` being a
`Matrix<N, 1, T>`: `assert(iColumn < M)`, then `vOut[i] = Data(i, iColumn)`
for `i = 0, ..., M-1`. -/
def Checked.GetColumn {N M : Nat} (m : Matrix (Fin N) (Fin M) T) (iColumn : Nat)
    (vOut : Vec N T) : Option (Vec N T) :=
  if iColumn < M then
    (List.range M).foldlM (fun vOut i =>
      (getChecked m i iColumn).bind fun t => Vec.assign vOut i t) vOut
  else none

/-- Member `SetRow(iRow, v)` of an `N x M` matrix, `v` being a
`Matrix<N, 1, T>`: `assert(iRow < N)`, then `Data(iRow, i) = v[i]` for
`i = 0, ..., N-1`. -/
def Checked.SetRow {N M : Nat} (m : Matrix (Fin N) (Fin M) T) (iRow : Nat) (v : Vec N T) :
    Option (Matrix (Fin N) (Fin M) T) :=
  if iRow < N then
    (List.range N).foldlM (fun m i =>
      (Vec.index v i).bind fun t => setChecked m iRow i t) m
  else none

/-- Member `SetColumn(iColumn, v)` of an `N x M` matrix, `v` being a
`Matrix<M, 1, T>`: `assert(iColumn < M)`, then `Data(i, iColumn) = v[i]` for
`i = 0, ..., M-1`. -/
def Checked.SetColumn {N M : Nat} (m : Matrix (Fin N) (Fin M) T) (iColumn : Nat)
    (v : Vec M T) : Option (Matrix (Fin N) (Fin M) T) :=
  if iColumn < M then
    (List.range M).foldlM (fun m i =>
      (Vec.index v i).bind fun t => setChecked m i iColumn t) m
  else none

/-! ## Caller-side view of `MatrixInvert` and the always-dividing transform -/

/-- The call `MatrixInvert(m, mOut)` as a step on the caller's two objects, the
pair `(m, mOut)` of distinct matrices: `m` is received as a `const` reference
that the body only copies into `mResult`, and `mOut` is assigned once, by
`mOut = mIdent` right before `return true`. The result is the returned flag
with the pair after the call. -/
def MatrixInvertCall {N : Nat} (s : Matrix (Fin N) (Fin N) T × Matrix (Fin N) (Fin N) T) :
    Bool × (Matrix (Fin N) (Fin N) T × Matrix (Fin N) (Fin N) T) :=
  match invertLoop s.1 with
  | none => (false, s)
  | some st => (true, (s.1, st.2))

/-- Modelled from the spec: the `(N+1)`-result of the homogeneous transform,
`r[i] = Σ_j m(j, i)*v'[j]` where `v'` is `v` with a one appended. -/
def homogeneousResult {N : Nat} (v : Vec N T) (m : Matrix (Fin (N + 1)) (Fin (N + 1)) T) :
    Vec (N + 1) T :=
  fun i => ∑ j, m j i * (Fin.snoc v 1 : Fin (N + 1) → T) j

/-- Modelled from the spec: the perspective divide, the first `N` components
of `r` each divided by the last component, with no fast path. -/
def perspectiveDivide {N : Nat} (r : Vec (N + 1) T) : Vec N T :=
  fun i => r i.castSucc / r (Fin.last N)

/-! ## The loops of `SetIdentity` -/

/-- The loops of member `SetIdentity()` run on a matrix of any content: for
`i < N` and `j < M`, with `M = N` on a square matrix, the cell `pData[i*M+j]`
becomes one when `i == j` and zero otherwise. -/
def SetIdentity.loop {N : Nat} (m : Matrix (Fin N) (Fin N) T) : Matrix (Fin N) (Fin N) T :=
  (List.finRange N).foldl (fun m i =>
    (List.finRange N).foldl (fun m j =>
      if i = j then setElem m i j 1 else setElem m i j 0) m) m

/-! ## The element type `float` -/

/-- A finite value of the element type `float` (IEEE-754 binary32), held as
its integer count of units of `2^-149`: every finite binary32 value is such a
multiple. -/
structure Binary32 where
  units : Int
deriving DecidableEq

/-- The number of binary digits of `a`, counted by halving; the first
argument bounds the number of steps. -/
def Binary32.digits : Nat → Nat → Nat
  | 0, _ => 0
  | fuel + 1, a => if a = 0 then 0 else Binary32.digits fuel (a / 2) + 1

/-- Rounding to binary32, to nearest with ties to even: the exact value is
`n` units of `2^-(149+k)`, the result is in units of `2^-149`. The magnitude
keeps its 24 leading binary digits and never goes below the unit `2^-149`;
results beyond the largest finite value are outside this model. -/
def Binary32.round (n : Int) (k : Nat) : Int :=
  let a := n.natAbs
  let s := max (Binary32.digits a a - 24) k
  let q := a / 2 ^ s
  let r := a % 2 ^ s
  let q1 := if 2 ^ s < 2 * r ∨ (2 * r = 2 ^ s ∧ q % 2 = 1) then q + 1 else q
  let u : Int := (q1 * 2 ^ (s - k) : Nat)
  if n < 0 then -u else u

/-- Zero of `float`. -/
instance : Zero Binary32 := ⟨⟨0⟩⟩

/-- One of `float`: `2^149` units. -/
instance : One Binary32 := ⟨⟨2 ^ 149⟩⟩

/-- Negation of `float`, exact. -/
instance : Neg Binary32 := ⟨fun a => ⟨-a.units⟩⟩

/-- Sum of `float`: the exact sum, rounded. -/
instance : Add Binary32 := ⟨fun a b => ⟨Binary32.round (a.units + b.units) 0⟩⟩

/-- Difference of `float`: the exact difference, rounded. -/
instance : Sub Binary32 := ⟨fun a b => ⟨Binary32.round (a.units - b.units) 0⟩⟩

/-- Product of `float`: the exact product, in units of `2^-298`, rounded. -/
instance : Mul Binary32 := ⟨fun a b => ⟨Binary32.round (a.units * b.units) 149⟩⟩

/-! ## Predicates and closed forms used in the proofs -/

/-- The pair `(mResult, mIdent)` is related to the input `m`: `mResult` is
`mIdent * m`, and every vector that `mResult` sends to zero is sent to zero
by `m`. -/
def Related {N : Nat} (m : Matrix (Fin N) (Fin N) T)
    (st : Matrix (Fin N) (Fin N) T × Matrix (Fin N) (Fin N) T) : Prop :=
  st.1 = st.2 * m ∧ ∀ v : Fin N → T, st.1.mulVec v = 0 → m.mulVec v = 0

/-- Every column listed in `pre` of the matrix is the matching column of the
identity matrix. -/
def UnitCols {N : Nat} (pre : List (Fin N)) (A : Matrix (Fin N) (Fin N) T) : Prop :=
  ∀ c ∈ pre, ∀ r, A r c = if r = c then 1 else 0

/-- The vector that a stalled elimination sends to zero: minus the entries of
column `j` above the diagonal, a one at `j`, zeros below. -/
def stallVector {N : Nat} (A : Matrix (Fin N) (Fin N) T) (j : Fin N) : Fin N → T :=
  fun c => if c < j then -A c j else if c = j then 1 else 0

/-- The matrix of the arbitrary-axis builder for sine `s`, cosine `c` and
axis `(x, y, z)`. -/
def axisMatrix (s c x y z : T) : Matrix (Fin 3) (Fin 3) T :=
  !![c + (1 - c) * (x * x), (1 - c) * x * y + s * z, (1 - c) * x * z - s * y;
     (1 - c) * x * y - s * z, c + (1 - c) * (y * y), (1 - c) * y * z + s * x;
     (1 - c) * x * z + s * y, (1 - c) * y * z - s * x, c + (1 - c) * (z * z)]

/-- The exchange of the cells `(i, j)` and `(j, i)` through `temp` in the
inner loop of `Transpose`. -/
def swapCells {N : Nat} (m : Matrix (Fin N) (Fin N) T) (i j : Fin N) :
    Matrix (Fin N) (Fin N) T :=
  let temp := m i j
  let m1 := setElem m i j (m j i)
  setElem m1 j i temp

/-! ## Loop invariants for folds -/

/-- An invariant `P processed state` that every pass of a loop carries from
the rows already visited to one more row holds after the whole loop. -/
theorem foldl_invariant {σ α : Type} (f : σ → α → σ) (P : List α → σ → Prop)
    (hstep : ∀ pre x s, P pre s → P (pre ++ [x]) (f s x)) :
    ∀ (l pre : List α) (s : σ), P pre s → P (pre ++ l) (l.foldl f s)
  | [], pre, s, h => by simpa using h
  | x :: l, pre, s, h => by
    have key := foldl_invariant f P hstep l (pre ++ [x]) (f s x) (hstep pre x s h)
    simpa using key

/-- Soundness form of the invariant rule for a loop over `L` with an early
exit: when the loop runs to its end, the invariant holds of the final state. -/
theorem foldlM_sound {σ α : Type} (f : σ → α → Option σ) (L : List α)
    (P : List α → σ → Prop)
    (hstep : ∀ pre x rest s s', pre ++ x :: rest = L → P pre s → f s x = some s' →
      P (pre ++ [x]) s') :
    ∀ (l pre : List α) (s s' : σ), pre ++ l = L → P pre s → l.foldlM f s = some s' → P L s'
  | [], pre, s, s', hL, h, hr => by
    simp only [List.foldlM_nil, pure, Option.some.injEq] at hr
    subst hr
    rw [← hL]
    simpa using h
  | x :: l, pre, s, s', hL, h, hr => by
    rw [List.foldlM_cons] at hr
    cases hx : f s x with
    | none => rw [hx] at hr; simp at hr
    | some s1 =>
      rw [hx] at hr
      exact foldlM_sound f L P hstep l (pre ++ [x]) s1 s' (by simpa using hL)
        (hstep pre x l s s1 hL h hx) (by simpa using hr)

/-- Progress form of the invariant rule for a loop over `L` with an early
exit: when no pass started from a state satisfying the invariant exits, the
loop runs to its end. -/
theorem foldlM_progress {σ α : Type} (f : σ → α → Option σ) (L : List α)
    (P : List α → σ → Prop)
    (hstep : ∀ pre x rest s, pre ++ x :: rest = L → P pre s →
      ∃ s', f s x = some s' ∧ P (pre ++ [x]) s') :
    ∀ (l pre : List α) (s : σ), pre ++ l = L → P pre s →
      ∃ s', l.foldlM f s = some s' ∧ P L s'
  | [], pre, s, hL, h => ⟨s, by simp, by rw [← hL]; simpa using h⟩
  | x :: l, pre, s, hL, h => by
    obtain ⟨s1, hx, h1⟩ := hstep pre x l s hL h
    obtain ⟨s2, hr, h2⟩ := foldlM_progress f L P hstep l (pre ++ [x]) s1 (by simpa using hL) h1
    refine ⟨s2, ?_, h2⟩
    rw [List.foldlM_cons, hx]
    simpa using hr

/-- The elements before `j` in `finRange N` are exactly the indices below `j`. -/
theorem mem_before_finRange {N : Nat} {pre rest : List (Fin N)} {j : Fin N}
    (h : pre ++ j :: rest = List.finRange N) (c : Fin N) : c ∈ pre ↔ c < j := by
  have hp := List.pairwise_lt_finRange N
  rw [← h, List.pairwise_append] at hp
  obtain ⟨-, hjr, hcross⟩ := hp
  constructor
  · intro hc
    exact hcross c hc j (List.mem_cons_self _ _)
  · intro hc
    have hmem : c ∈ pre ++ j :: rest := h ▸ List.mem_finRange c
    rcases List.mem_append.mp hmem with h1 | h1
    · exact h1
    · rcases List.mem_cons.mp h1 with h2 | h2
      · exact absurd hc (by rw [h2]; exact lt_irrefl _)
      · exact absurd hc (not_lt.mpr (le_of_lt ((List.pairwise_cons.mp hjr).1 c h2)))

/-! ## The pivot search -/

theorem TMath.Abs_eq (t : T) : TMath.Abs t = |t| := by
  unfold TMath.Abs
  split_ifs with h
  · exact (abs_of_neg h).symm
  · exact (abs_of_nonneg (not_lt.mp h)).symm

/-- The pivot search returns a row `i ≥ j` and a value `tMax` with
`tMax ≤ |column[i]|` that bounds `|column[r]|` for every row `r ≥ j`. -/
theorem findPivot_spec {N : Nat} (col : Vec N T) (j : Fin N) :
    j ≤ (findPivot col j).2 ∧ (findPivot col j).1 ≤ |col (findPivot col j).2| ∧
      ∀ r, j ≤ r → |col r| ≤ (findPivot col j).1 := by
  have key := foldl_invariant (pivotStep col)
    (fun pre st => (st.2 = j ∨ st.2 ∈ pre) ∧ st.1 ≤ |col st.2| ∧ ∀ r ∈ pre, |col r| ≤ st.1) ?_
    ((List.finRange N).filter (fun iRow => j ≤ iRow)) [] (col j, j)
    ⟨Or.inl rfl, le_abs_self _, by simp⟩
  · simp only [List.nil_append] at key
    obtain ⟨h1, h2, h3⟩ := key
    refine ⟨?_, h2, fun r hr => h3 r ?_⟩
    · rcases h1 with h1 | h1
      · exact le_of_eq h1.symm
      · simpa using (List.mem_filter.mp h1).2
    · simp [List.mem_filter, List.mem_finRange, hr]
  · rintro pre x s ⟨h1, h2, h3⟩
    simp only [pivotStep, TMath.Abs_eq]
    split_ifs with hgt
    · refine ⟨Or.inr (by simp), le_refl _, fun r hr => ?_⟩
      rcases List.mem_append.mp hr with h | h
      · exact le_trans (h3 r h) (le_of_lt hgt)
      · simp only [List.mem_singleton] at h
        rw [h]
    · refine ⟨?_, h2, fun r hr => ?_⟩
      · rcases h1 with h1 | h1
        · exact Or.inl h1
        · exact Or.inr (List.mem_append_left _ h1)
      · rcases List.mem_append.mp hr with h | h
        · exact h3 r h
        · simp only [List.mem_singleton] at h
          rw [h]
          exact not_lt.mp hgt

/-! ## Elementary row operations: unfolded forms and degenerate cases -/

theorem SwapRows_apply {N : Nat} (m : Matrix (Fin N) (Fin N) T) (i j r c : Fin N) :
    SwapRows m i j r c = if r = j then m i c else if r = i then m j c else m r c := rfl

theorem ScaleRow_apply {N : Nat} (m : Matrix (Fin N) (Fin N) T) (j : Fin N) (s : T)
    (r c : Fin N) : ScaleRow m j s r c = if r = j then m j c * s else m r c := rfl

theorem AddScaledRow_apply {N : Nat} (m : Matrix (Fin N) (Fin N) T) (j : Fin N) (t : T)
    (k r c : Fin N) :
    AddScaledRow m j t k r c = if r = k then m j c * t + m k c else m r c := rfl

/-- Swapping a row with itself changes nothing, so the guard `i != j` of
`MatrixInvert` only saves work. -/
theorem SwapRows_self {N : Nat} (m : Matrix (Fin N) (Fin N) T) (j : Fin N) :
    SwapRows m j j = m := by
  funext r c
  rw [SwapRows_apply]
  split_ifs with h
  · rw [h]
  · rfl

/-- Scaling a row by one changes nothing, so the guard `tScalar != 1` of
`MatrixInvert` only saves work. -/
theorem ScaleRow_one {N : Nat} (m : Matrix (Fin N) (Fin N) T) (j : Fin N) :
    ScaleRow m j 1 = m := by
  funext r c
  rw [ScaleRow_apply]
  split_ifs with h
  · rw [h, mul_one]
  · rfl

/-- Adding zero times a row changes nothing, so the guard `tScalar != 0` of
`MatrixInvert` only saves work. -/
theorem AddScaledRow_zero {N : Nat} (m : Matrix (Fin N) (Fin N) T) (j k : Fin N) :
    AddScaledRow m j 0 k = m := by
  funext r c
  rw [AddScaledRow_apply]
  split_ifs with h
  · rw [h, mul_zero, zero_add]
  · rfl

/-! ## The relation between `mResult` and `mIdent` kept by the row operations -/

theorem mulVec_row {N : Nat} (A : Matrix (Fin N) (Fin N) T) (v : Fin N → T) (r : Fin N) :
    A.mulVec v r = ∑ c, A r c * v c := rfl

theorem Related_swap {N : Nat} {m A B : Matrix (Fin N) (Fin N) T} (i j : Fin N)
    (h : Related m (A, B)) : Related m (SwapRows A i j, SwapRows B i j) := by
  obtain ⟨hA, hker⟩ := h
  simp only at hA hker
  refine ⟨?_, fun v hv => hker v ?_⟩
  · funext r c
    simp only [SwapRows_apply, Matrix.mul_apply, hA]
    split_ifs <;> rfl
  · funext r
    have hj := congrFun hv j
    have hi := congrFun hv i
    have hr := congrFun hv r
    simp only [mulVec_row, SwapRows_apply, Pi.zero_apply, if_true] at hj hi hr ⊢
    by_cases h1 : r = i
    · rw [h1]; exact hj
    · by_cases h2 : r = j
      · rw [h2]
        by_cases h3 : i = j
        · rw [← h3]; exact hj
        · simpa [h3] using hi
      · simpa [h1, h2] using hr

theorem Related_scale {N : Nat} {m A B : Matrix (Fin N) (Fin N) T} (j : Fin N) {s : T}
    (hs : s ≠ 0) (h : Related m (A, B)) : Related m (ScaleRow A j s, ScaleRow B j s) := by
  obtain ⟨hA, hker⟩ := h
  simp only at hA hker
  refine ⟨?_, fun v hv => hker v ?_⟩
  · funext r c
    simp only [ScaleRow_apply, Matrix.mul_apply, hA]
    split_ifs
    · rw [Finset.sum_mul]
      exact Finset.sum_congr rfl fun k _ => by ring
    · rfl
  · funext r
    have hr := congrFun hv r
    simp only [mulVec_row, ScaleRow_apply, Pi.zero_apply] at hr ⊢
    by_cases h1 : r = j
    · rw [h1] at hr ⊢
      simp only [if_true] at hr
      have h2 : (∑ c, A j c * v c) * s = 0 := by
        rw [Finset.sum_mul, ← hr]
        exact Finset.sum_congr rfl fun k _ => by ring
      exact (mul_eq_zero.mp h2).resolve_right hs
    · simpa [h1] using hr

theorem Related_add {N : Nat} {m A B : Matrix (Fin N) (Fin N) T} {j k : Fin N} (t : T)
    (hkj : k ≠ j) (h : Related m (A, B)) :
    Related m (AddScaledRow A j t k, AddScaledRow B j t k) := by
  obtain ⟨hA, hker⟩ := h
  simp only at hA hker
  refine ⟨?_, fun v hv => hker v ?_⟩
  · funext r c
    simp only [AddScaledRow_apply, Matrix.mul_apply, hA]
    split_ifs
    · rw [Finset.sum_mul, ← Finset.sum_add_distrib]
      exact Finset.sum_congr rfl fun k _ => by ring
    · rfl
  · funext r
    have hr := congrFun hv r
    have hj := congrFun hv j
    simp only [mulVec_row, AddScaledRow_apply, Pi.zero_apply] at hr hj ⊢
    simp only [if_neg (Ne.symm hkj)] at hj
    by_cases h1 : r = k
    · rw [h1] at hr ⊢
      simp only [if_true] at hr
      have h2 : (∑ c, A j c * v c) * t + ∑ c, A k c * v c = 0 := by
        rw [Finset.sum_mul, ← Finset.sum_add_distrib, ← hr]
        exact Finset.sum_congr rfl fun k _ => by ring
      rw [hj, zero_mul, zero_add] at h2
      exact h2
    · simpa [h1] using hr

/-! ## One column of the Gauss-Jordan elimination -/

/-- The elimination pass with its guard `tScalar != 0` removed. -/
theorem eliminateStep_eq {N : Nat} (j : Fin N)
    (st : Matrix (Fin N) (Fin N) T × Matrix (Fin N) (Fin N) T) (r : Fin N) :
    eliminateStep j st r =
      if r = j then st
      else (AddScaledRow st.1 j (-st.1 r j) r, AddScaledRow st.2 j (-st.1 r j) r) := by
  unfold eliminateStep
  by_cases h1 : r = j
  · simp [h1]
  · by_cases h2 : -st.1 r j = 0
    · simp [h1, h2, AddScaledRow_zero]
    · simp [h1, h2]

/-- The elimination loop for column `j`, started with a one at `(j, j)` and
unit columns `pre`, keeps the relation and the unit columns and makes column
`j` a unit column. -/
theorem eliminate_spec {N : Nat} (m : Matrix (Fin N) (Fin N) T) (pre : List (Fin N))
    (j : Fin N) (hpre : ∀ c ∈ pre, c ≠ j)
    (st : Matrix (Fin N) (Fin N) T × Matrix (Fin N) (Fin N) T)
    (hrel : Related m st) (hunit : UnitCols pre st.1) (hjj : st.1 j j = 1) :
    Related m ((List.finRange N).foldl (eliminateStep j) st) ∧
      UnitCols (pre ++ [j]) ((List.finRange N).foldl (eliminateStep j) st).1 := by
  have key := foldl_invariant (eliminateStep j)
    (fun done s => Related m s ∧ UnitCols pre s.1 ∧ s.1 j j = 1 ∧
      ∀ r ∈ done, r ≠ j → s.1 r j = 0) ?_
    (List.finRange N) [] st ⟨hrel, hunit, hjj, by simp⟩
  · simp only [List.nil_append] at key
    obtain ⟨h1, h2, h3, h4⟩ := key
    refine ⟨h1, fun c hc r => ?_⟩
    rcases List.mem_append.mp hc with hc | hc
    · exact h2 c hc r
    · simp only [List.mem_singleton] at hc
      rw [hc]
      by_cases hr : r = j
      · rw [hr, h3, if_pos rfl]
      · rw [h4 r (List.mem_finRange r) hr, if_neg hr]
  · rintro done r ⟨A, B⟩ ⟨h1, h2, h3, h4⟩
    rw [eliminateStep_eq]
    by_cases hr : r = j
    · rw [if_pos hr]
      refine ⟨h1, h2, h3, fun r0 hr0 hne => ?_⟩
      rcases List.mem_append.mp hr0 with h | h
      · exact h4 r0 h hne
      · simp only [List.mem_singleton] at h
        exact absurd (h.trans hr) hne
    · rw [if_neg hr]
      simp only at h2 h3 h4 ⊢
      refine ⟨Related_add _ hr h1, fun c hc r0 => ?_, ?_, fun r0 hr0 hne => ?_⟩
      · rw [AddScaledRow_apply]
        have hjc : A j c = 0 := by rw [h2 c hc j, if_neg (Ne.symm (hpre c hc))]
        split_ifs with h5 h6 h6
        · rw [hjc, zero_mul, zero_add, h2 c hc r, ← h5, if_pos h6]
        · rw [hjc, zero_mul, zero_add, h2 c hc r, ← h5, if_neg h6]
        · rw [h2 c hc r0, if_pos h6]
        · rw [h2 c hc r0, if_neg h6]
      · rw [AddScaledRow_apply, if_neg (Ne.symm hr), h3]
      · rw [AddScaledRow_apply]
        split_ifs with h5
        · rw [h3]; ring
        · rcases List.mem_append.mp hr0 with h | h
          · exact h4 r0 h hne
          · simp only [List.mem_singleton] at h
            exact absurd h h5

/-- The column pass with its guards `i != j` and `tScalar != 1` removed. -/
theorem invertColumn_eq {N : Nat} (st : Matrix (Fin N) (Fin N) T × Matrix (Fin N) (Fin N) T)
    (j : Fin N) :
    invertColumn st j =
      if (findPivot (GetColumn st.1 j) j).1 = 0 then none
      else
        some ((List.finRange N).foldl (eliminateStep j)
          (ScaleRow (SwapRows st.1 (findPivot (GetColumn st.1 j) j).2 j) j
              (1 / SwapRows st.1 (findPivot (GetColumn st.1 j) j).2 j j j),
            ScaleRow (SwapRows st.2 (findPivot (GetColumn st.1 j) j).2 j) j
              (1 / SwapRows st.1 (findPivot (GetColumn st.1 j) j).2 j j j))) := by
  unfold invertColumn
  simp only
  by_cases h0 : (findPivot (GetColumn st.1 j) j).1 = 0
  · simp [h0]
  · simp only [h0, if_false]
    by_cases h1 : (findPivot (GetColumn st.1 j) j).2 = j
    · simp only [h1, ne_eq, not_true_eq_false, if_false, SwapRows_self]
      by_cases h2 : 1 / st.1 j j = 1
      · simp only [h2, not_true_eq_false, if_false, ScaleRow_one]
      · simp only [h2, not_false_eq_true, if_true]
    · simp only [h1, ne_eq, not_false_eq_true, if_true]
      by_cases h2 : 1 / SwapRows st.1 (findPivot (GetColumn st.1 j) j).2 j j j = 1
      · simp only [h2, not_true_eq_false, if_false, ScaleRow_one]
      · simp only [h2, not_false_eq_true, if_true]

/-- A column pass that does not exit keeps the relation to the input and
adds column `j` to the unit columns. -/
theorem invertColumn_sound {N : Nat} (m : Matrix (Fin N) (Fin N) T) (pre : List (Fin N))
    (j : Fin N) (hpre : ∀ c, c ∈ pre ↔ c < j)
    (st st' : Matrix (Fin N) (Fin N) T × Matrix (Fin N) (Fin N) T)
    (hrel : Related m st) (hunit : UnitCols pre st.1) (h : invertColumn st j = some st') :
    Related m st' ∧ UnitCols (pre ++ [j]) st'.1 := by
  obtain ⟨A, B⟩ := st
  rw [invertColumn_eq] at h
  simp only at h hunit
  obtain ⟨hle, hmax, hall⟩ := findPivot_spec (GetColumn A j) j
  generalize findPivot (GetColumn A j) j = p at h hle hmax hall
  obtain ⟨tMax, i⟩ := p
  simp only at h hle hmax hall
  by_cases h0 : tMax = 0
  · simp [h0] at h
  · rw [if_neg h0, Option.some.injEq] at h
    have hpos : 0 < tMax :=
      lt_of_le_of_ne (le_trans (abs_nonneg _) (hall j (le_refl j))) (Ne.symm h0)
    have hij : A i j ≠ 0 := by
      intro hz
      have h1 : tMax ≤ |A i j| := hmax
      rw [hz, abs_zero] at h1
      exact absurd hpos (not_lt.mpr h1)
    have hzero : ∀ c ∈ pre, ∀ r, j ≤ r → A r c = 0 := by
      intro c hc r hr
      rw [hunit c hc r, if_neg]
      exact fun hrc => absurd ((hpre c).mp hc) (by rw [← hrc]; exact not_lt.mpr hr)
    have hs : 1 / SwapRows A i j j j ≠ 0 := by
      rw [SwapRows_apply, if_pos rfl]
      exact one_div_ne_zero hij
    have hrel2 := Related_scale j hs (Related_swap i j hrel)
    have hunit1 : UnitCols pre (SwapRows A i j) := by
      intro c hc r
      have hcj : c < j := (hpre c).mp hc
      rw [SwapRows_apply]
      split_ifs with h1 h2 h3 h4 h5
      · exact absurd hcj (by rw [← h1, h2]; exact lt_irrefl _)
      · exact hzero c hc i hle
      · exact absurd (lt_of_lt_of_le hcj hle) (by rw [← h3, h4]; exact lt_irrefl _)
      · exact hzero c hc j (le_refl j)
      · rw [hunit c hc r, if_pos h5]
      · rw [hunit c hc r, if_neg h5]
    have hunit2 : UnitCols pre
        (ScaleRow (SwapRows A i j) j (1 / SwapRows A i j j j)) := by
      intro c hc r
      have hcj : c < j := (hpre c).mp hc
      rw [ScaleRow_apply]
      split_ifs with h1 h2 h3
      · exact absurd hcj (by rw [← h1, h2]; exact lt_irrefl _)
      · rw [hunit1 c hc j, if_neg (ne_of_gt hcj), zero_mul]
      · rw [hunit1 c hc r, if_pos h3]
      · rw [hunit1 c hc r, if_neg h3]
    have hjj : ScaleRow (SwapRows A i j) j (1 / SwapRows A i j j j) j j = 1 := by
      rw [ScaleRow_apply, if_pos rfl]
      rw [SwapRows_apply, if_pos rfl]
      field_simp
    have key := eliminate_spec m pre j (fun c hc => ne_of_lt ((hpre c).mp hc)) _ hrel2
      hunit2 hjj
    rw [h] at key
    exact key

/-- When the columns before `j` are unit columns and column `j` vanishes
from row `j` down, the matrix sends the stall vector to zero. -/
theorem mulVec_stallVector {N : Nat} (A : Matrix (Fin N) (Fin N) T) (pre : List (Fin N))
    (j : Fin N) (hpre : ∀ c, c ∈ pre ↔ c < j) (hunit : UnitCols pre A)
    (hcol : ∀ r, j ≤ r → A r j = 0) : A.mulVec (stallVector A j) = 0 := by
  funext r
  rw [mulVec_row, Pi.zero_apply]
  have hterm : ∀ c, A r c * stallVector A j c =
      (if c = r then (if r < j then -A r j else 0) else 0) + (if c = j then A r j else 0) := by
    intro c
    unfold stallVector
    by_cases hcj : c < j
    · rw [if_pos hcj, if_neg (ne_of_lt hcj), add_zero, hunit c ((hpre c).mpr hcj) r]
      by_cases hrc : r = c
      · rw [if_pos hrc, if_pos hrc.symm, hrc, if_pos hcj, one_mul]
      · rw [if_neg hrc, if_neg (Ne.symm hrc), zero_mul]
    · rw [if_neg hcj]
      by_cases hc : c = j
      · rw [if_pos hc, if_pos hc, mul_one, hc]
        by_cases hrj : j = r
        · rw [if_pos hrj, ← hrj, if_neg (lt_irrefl j), zero_add]
        · rw [if_neg hrj, zero_add]
      · rw [if_neg hc, if_neg hc, mul_zero, add_zero]
        by_cases hcr : c = r
        · rw [if_pos hcr, ← hcr, if_neg hcj]
        · rw [if_neg hcr]
  rw [Finset.sum_congr rfl fun c _ => hterm c, Finset.sum_add_distrib,
    Finset.sum_ite_eq' Finset.univ r, Finset.sum_ite_eq' Finset.univ j]
  simp only [Finset.mem_univ, if_true]
  by_cases hrj : r < j
  · rw [if_pos hrj]; ring
  · rw [if_neg hrj, zero_add]
    exact hcol r (not_lt.mp hrj)

/-- On an input with non-zero determinant the column pass never exits: the
pivot search finds a non-zero entry. -/
theorem invertColumn_progress {N : Nat} (m : Matrix (Fin N) (Fin N) T) (hdet : m.det ≠ 0)
    (pre : List (Fin N)) (j : Fin N) (hpre : ∀ c, c ∈ pre ↔ c < j)
    (st : Matrix (Fin N) (Fin N) T × Matrix (Fin N) (Fin N) T)
    (hrel : Related m st) (hunit : UnitCols pre st.1) :
    ∃ st', invertColumn st j = some st' := by
  rw [invertColumn_eq]
  by_cases h0 : (findPivot (GetColumn st.1 j) j).1 = 0
  · exfalso
    obtain ⟨-, -, hall⟩ := findPivot_spec (GetColumn st.1 j) j
    rw [h0] at hall
    have hcol : ∀ r, j ≤ r → st.1 r j = 0 := fun r hr =>
      abs_eq_zero.mp (le_antisymm (hall r hr) (abs_nonneg _))
    have hker := hrel.2 _ (mulVec_stallVector st.1 pre j hpre hunit hcol)
    have hne : stallVector st.1 j ≠ 0 := by
      intro hz
      have h1 := congrFun hz j
      simp [stallVector] at h1
    exact hdet (Matrix.exists_mulVec_eq_zero_iff.mp ⟨_, hne, hker⟩)
  · rw [if_neg h0]
    exact ⟨_, rfl⟩

/-! ## The whole inversion -/

theorem Related_init {N : Nat} (m : Matrix (Fin N) (Fin N) T) :
    Related m (m, SetIdentity) := by
  have h1 : (SetIdentity : Matrix (Fin N) (Fin N) T) = 1 := by
    funext i j
    simp [SetIdentity, Matrix.one_apply]
  refine ⟨?_, fun v hv => hv⟩
  simp only [h1, one_mul]

theorem SetIdentity_eq_one {N : Nat} : (SetIdentity : Matrix (Fin N) (Fin N) T) = 1 := by
  funext i j
  simp [SetIdentity, Matrix.one_apply]

/-- Soundness of the column loop: when it runs to its end, `mResult` is the
identity and `mIdent` is a left inverse of the input. -/
theorem invertLoop_sound {N : Nat} (m : Matrix (Fin N) (Fin N) T)
    (st : Matrix (Fin N) (Fin N) T × Matrix (Fin N) (Fin N) T)
    (h : invertLoop m = some st) : st.2 * m = 1 := by
  have key := foldlM_sound invertColumn (List.finRange N)
    (fun pre s => Related m s ∧ UnitCols pre s.1)
    ?_ (List.finRange N) [] (m, SetIdentity) st rfl
    ⟨Related_init m, fun c hc => absurd hc (List.not_mem_nil c)⟩ h
  · obtain ⟨hrel, hunit⟩ := key
    have hA : st.1 = 1 := by
      funext r c
      rw [hunit c (List.mem_finRange c) r, Matrix.one_apply]
    rw [← hA]
    exact hrel.1.symm
  · intro pre j rest s s' hrest hP hs
    exact invertColumn_sound m pre j (mem_before_finRange hrest) s s' hP.1 hP.2 hs

/-- Progress of the column loop: on an input with non-zero determinant it
runs to its end. -/
theorem invertLoop_progress {N : Nat} (m : Matrix (Fin N) (Fin N) T) (hdet : m.det ≠ 0) :
    ∃ st, invertLoop m = some st := by
  have key := foldlM_progress invertColumn (List.finRange N)
    (fun pre s => Related m s ∧ UnitCols pre s.1)
    ?_ (List.finRange N) [] (m, SetIdentity) rfl
    ⟨Related_init m, fun c hc => absurd hc (List.not_mem_nil c)⟩
  · obtain ⟨st, hst, -⟩ := key
    exact ⟨st, hst⟩
  · intro pre j rest s hrest hP
    obtain ⟨s', hs'⟩ := invertColumn_progress m hdet pre j (mem_before_finRange hrest) s
      hP.1 hP.2
    exact ⟨s', hs', invertColumn_sound m pre j (mem_before_finRange hrest) s s' hP.1 hP.2 hs'⟩

/-- On an input with non-zero determinant `MatrixInvert` returns `true` and
writes the inverse of the input to the output parameter. -/
theorem MatrixInvert_of_det_ne_zero {N : Nat} (m mOut : Matrix (Fin N) (Fin N) T)
    (hdet : m.det ≠ 0) : MatrixInvert m mOut = (true, m⁻¹) := by
  obtain ⟨st, hst⟩ := invertLoop_progress m hdet
  have hinv := invertLoop_sound m st hst
  unfold MatrixInvert
  rw [hst]
  simp only [Prod.mk.injEq, true_and]
  exact (Matrix.inv_eq_left_inv hinv).symm

/-- On an input with zero determinant `MatrixInvert` returns `false` and
leaves the output parameter as it was. -/
theorem MatrixInvert_of_det_eq_zero {N : Nat} (m mOut : Matrix (Fin N) (Fin N) T)
    (hdet : m.det = 0) : MatrixInvert m mOut = (false, mOut) := by
  unfold MatrixInvert
  cases hst : invertLoop m with
  | none => rfl
  | some st =>
    exfalso
    have hinv := invertLoop_sound m st hst
    have h1 : st.2.det * m.det = 1 := by rw [← Matrix.det_mul, hinv, Matrix.det_one]
    rw [hdet, mul_zero] at h1
    exact zero_ne_one h1

/-! ## Accumulating loops as sums -/

/-- A loop `acc += g i` over a list adds the sum of the `g i` to `acc`. -/
theorem foldl_add_eq_sum {α : Type} (g : α → T) (l : List α) (a : T) :
    l.foldl (fun acc i => acc + g i) a = a + (l.map g).sum := by
  induction l generalizing a with
  | nil => simp
  | cons x l ih => rw [List.foldl_cons, ih, List.map_cons, List.sum_cons, add_assoc]

theorem sum_map_finRange {N : Nat} (g : Fin N → T) :
    ((List.finRange N).map g).sum = ∑ i, g i := (Fin.sum_univ_def g).symm

/-- A loop `s[i] += g j` over `j` adds the sum of the `g j` to the cell `i`
and leaves the other cells alone. -/
theorem foldl_update_add {ι α : Type} [DecidableEq ι] (g : α → T) (i : ι) (l : List α)
    (s : ι → T) :
    l.foldl (fun s j => Function.update s i (s i + g j)) s =
      Function.update s i (s i + (l.map g).sum) := by
  induction l generalizing s with
  | nil => simp
  | cons x l ih =>
    rw [List.foldl_cons, ih, List.map_cons, List.sum_cons]
    simp only [Function.update_same, Function.update_idem, add_assoc]

/-- A loop over distinct cells `i` that adds `G i` to the cell `i` adds
`G k` to every visited cell `k`. -/
theorem foldl_update_each {ι : Type} [DecidableEq ι] (G : ι → T) (l : List ι)
    (hl : l.Nodup) (s : ι → T) (k : ι) :
    l.foldl (fun s i => Function.update s i (s i + G i)) s k =
      if k ∈ l then s k + G k else s k := by
  induction l generalizing s with
  | nil => simp
  | cons x l ih =>
    rw [List.foldl_cons, ih (List.nodup_cons.mp hl).2]
    have hx : x ∉ l := (List.nodup_cons.mp hl).1
    by_cases hk : k = x
    · subst hk
      simp [hx]
    · by_cases hkl : k ∈ l
      · simp [hk, hkl, Function.update_noteq hk]
      · simp [hk, hkl, Function.update_noteq hk]

/-- The double loop of `VectorMultiply` computes `Σ_j m(j, i)*v[j]` in every
component `i`. -/
theorem multiplyLoop_apply {N : Nat} (v : Vec N T) (m : Matrix (Fin N) (Fin N) T) (i : Fin N) :
    multiplyLoop v m i = ∑ j, m j i * v j := by
  unfold multiplyLoop
  have hinner : (fun (vResult : Vec N T) (i : Fin N) =>
      (List.finRange N).foldl (fun vResult j =>
        Function.update vResult i (vResult i + m j i * v j)) vResult) =
      fun vResult i => Function.update vResult i (vResult i + ∑ j, m j i * v j) := by
    funext vResult i
    rw [foldl_update_add (fun j => m j i * v j) i, sum_map_finRange]
  rw [hinner, foldl_update_each (fun i => ∑ j, m j i * v j) _ (List.nodup_finRange N),
    if_pos (List.mem_finRange i), zero_add]

theorem GetMagnitudeSqr_eq_sum {N : Nat} (v : Vec N T) :
    GetMagnitudeSqr v = ∑ i, v i * v i := by
  unfold GetMagnitudeSqr
  rw [foldl_add_eq_sum (fun i => TMath.Sqr (v i)), sum_map_finRange, zero_add]
  rfl

theorem VectorDot_eq_sum {N : Nat} (v1 v2 : Vec N T) :
    VectorDot v1 v2 = ∑ i, v1 i * v2 i := by
  unfold VectorDot
  rw [foldl_add_eq_sum (fun i => v1 i * v2 i), sum_map_finRange, zero_add]

/-! ## The matrix product loop -/

theorem setElem_apply {N M : Nat} (m : Matrix (Fin N) (Fin M) T) (i : Fin N) (j : Fin M)
    (t : T) (r : Fin N) (c : Fin M) :
    setElem m i j t r c = if r = i ∧ c = j then t else m r c := rfl

/-- The innermost loop of `MatrixMultiply` adds the sum over `k` to the cell
`(i, j)`. -/
theorem foldl_setElem_add {N M : Nat} {α : Type} (g : α → T) (i : Fin N) (j : Fin M)
    (l : List α) (s : Matrix (Fin N) (Fin M) T) :
    l.foldl (fun s k => setElem s i j (s i j + g k)) s =
      setElem s i j (s i j + (l.map g).sum) := by
  induction l generalizing s with
  | nil =>
    funext r c
    simp only [List.foldl_nil, List.map_nil, List.sum_nil, add_zero, setElem_apply]
    split_ifs with h
    · rw [h.1, h.2]
    · rfl
  | cons x l ih =>
    rw [List.foldl_cons, ih, List.map_cons, List.sum_cons]
    funext r c
    simp only [setElem_apply, and_self, if_true]
    split_ifs
    · rw [add_assoc]
    · rfl

/-- The loop over the columns `j` of row `i` adds `G j` to each visited cell
`(i, j)`. -/
theorem foldl_setElem_row {N M : Nat} (G : Fin M → T) (i : Fin N) (l : List (Fin M))
    (hl : l.Nodup) (s : Matrix (Fin N) (Fin M) T) (r : Fin N) (c : Fin M) :
    l.foldl (fun s j => setElem s i j (s i j + G j)) s r c =
      if r = i ∧ c ∈ l then s r c + G c else s r c := by
  induction l generalizing s with
  | nil => simp
  | cons x l ih =>
    rw [List.foldl_cons, ih (List.nodup_cons.mp hl).2]
    have hx : x ∉ l := (List.nodup_cons.mp hl).1
    simp only [setElem_apply, List.mem_cons]
    by_cases hr : r = i
    · subst hr
      by_cases hc : c = x
      · subst hc
        simp [hx]
      · by_cases hcl : c ∈ l
        · simp [hc, hcl]
        · simp [hc, hcl]
    · simp [hr]

/-- The loop over the rows `i` replaces each visited row `i` by `F i`
applied to the matrix, when `F i` only changes row `i` and reads row `i`. -/
theorem foldl_rows {N M : Nat} (G : Fin N → Fin M → T) (l : List (Fin N)) (hl : l.Nodup)
    (s : Matrix (Fin N) (Fin M) T) (r : Fin N) (c : Fin M) :
    l.foldl (fun s i => fun r c => if r = i then s r c + G i c else s r c) s r c =
      if r ∈ l then s r c + G r c else s r c := by
  induction l generalizing s with
  | nil => simp
  | cons x l ih =>
    rw [List.foldl_cons, ih (List.nodup_cons.mp hl).2]
    have hx : x ∉ l := (List.nodup_cons.mp hl).1
    simp only [List.mem_cons]
    by_cases hr : r = x
    · subst hr
      simp [hx]
    · by_cases hrl : r ∈ l
      · simp [hr, hrl]
      · simp [hr, hrl]

/-- Function `MatrixMultiply` computes the matrix product: cell `(i, j)` is
`Σ_k m1(i, k)*m2(k, j)`. -/
theorem MatrixMultiply_eq_mul {N M P : Nat} (m1 : Matrix (Fin N) (Fin M) T)
    (m2 : Matrix (Fin M) (Fin P) T) : MatrixMultiply m1 m2 = m1 * m2 := by
  unfold MatrixMultiply
  have hrow : (fun (mTemp : Matrix (Fin N) (Fin P) T) (i : Fin N) =>
      (List.finRange P).foldl (fun mTemp j =>
        (List.finRange M).foldl (fun mTemp k =>
          setElem mTemp i j (mTemp i j + m1 i k * m2 k j)) mTemp) mTemp) =
      fun mTemp i => fun r c => if r = i then mTemp r c + (m1 * m2) i c else mTemp r c := by
    funext mTemp i r c
    have hinner : (fun (mTemp : Matrix (Fin N) (Fin P) T) (j : Fin P) =>
        (List.finRange M).foldl (fun mTemp k =>
          setElem mTemp i j (mTemp i j + m1 i k * m2 k j)) mTemp) =
        fun mTemp j => setElem mTemp i j (mTemp i j + (m1 * m2) i j) := by
      funext mTemp j
      rw [foldl_setElem_add (fun k => m1 i k * m2 k j) i j, sum_map_finRange,
        Matrix.mul_apply]
    rw [hinner, foldl_setElem_row (fun j => (m1 * m2) i j) i _ (List.nodup_finRange P)]
    simp [List.mem_finRange]
  rw [hrow]
  funext r c
  refine (foldl_rows (m1 * m2) (List.finRange N) (List.nodup_finRange N)
    (fun _ _ => 0) r c).trans ?_
  rw [if_pos (List.mem_finRange r), zero_add]

/-! ## Claims on `MatrixInvert` -/

/-- C1: for every `N ≥ 2` and every `N x N` matrix `m` with non-zero
determinant, over an exact field, `MatrixInvert(m, mOut)` returns `true` and
the matrix it leaves in `mOut` satisfies `MatrixMultiply(m, mOut) = identity`. -/
theorem MatrixInvert_correct (N : Nat) (_hN : 2 ≤ N) (m mOut : Matrix (Fin N) (Fin N) T)
    (hdet : m.det ≠ 0) :
    (MatrixInvert m mOut).1 = true ∧
      MatrixMultiply m (MatrixInvert m mOut).2 = SetIdentity := by
  rw [MatrixInvert_of_det_ne_zero m mOut hdet, MatrixMultiply_eq_mul, SetIdentity_eq_one]
  exact ⟨rfl, Matrix.mul_nonsing_inv m (isUnit_iff_ne_zero.mpr hdet)⟩

/-- Witness for C1 at the rational matrix `[[2,1],[1,1]]` of determinant one. -/
theorem MatrixInvert_correct_witness :
    (2 ≤ 2 ∧ (!![2, 1; 1, 1] : Matrix (Fin 2) (Fin 2) ℚ).det ≠ 0) ∧
      ((MatrixInvert (!![2, 1; 1, 1] : Matrix (Fin 2) (Fin 2) ℚ) 0).1 = true ∧
        MatrixMultiply (!![2, 1; 1, 1] : Matrix (Fin 2) (Fin 2) ℚ)
          (MatrixInvert (!![2, 1; 1, 1] : Matrix (Fin 2) (Fin 2) ℚ) 0).2 = SetIdentity) :=
  ⟨⟨le_refl 2, by norm_num [Matrix.det_fin_two]⟩,
    MatrixInvert_correct 2 (le_refl 2) _ _ (by norm_num [Matrix.det_fin_two])⟩

/-- C2: for every `N ≥ 2` and every singular `N x N` matrix `m` (zero
determinant), over an exact field, `MatrixInvert(m, mOut)` returns `false`. -/
theorem MatrixInvert_singular (N : Nat) (_hN : 2 ≤ N) (m mOut : Matrix (Fin N) (Fin N) T)
    (hdet : m.det = 0) : (MatrixInvert m mOut).1 = false := by
  rw [MatrixInvert_of_det_eq_zero m mOut hdet]

/-- Witness for C2 at the singular rational matrix `[[1,2],[2,4]]` and at the
all-zero matrix. -/
theorem MatrixInvert_singular_witness :
    ((2 ≤ 2 ∧ (!![1, 2; 2, 4] : Matrix (Fin 2) (Fin 2) ℚ).det = 0) ∧
      (MatrixInvert (!![1, 2; 2, 4] : Matrix (Fin 2) (Fin 2) ℚ) 0).1 = false) ∧
    ((2 ≤ 2 ∧ (0 : Matrix (Fin 2) (Fin 2) ℚ).det = 0) ∧
      (MatrixInvert (0 : Matrix (Fin 2) (Fin 2) ℚ) 0).1 = false) :=
  ⟨⟨⟨le_refl 2, by norm_num [Matrix.det_fin_two]⟩,
      MatrixInvert_singular 2 (le_refl 2) _ _ (by norm_num [Matrix.det_fin_two])⟩,
    ⟨⟨le_refl 2, by simp [Matrix.det_fin_two]⟩,
      MatrixInvert_singular 2 (le_refl 2) _ _ (by simp [Matrix.det_fin_two])⟩⟩

/-- The inverse that `MatrixInvert` writes for a diagonal matrix with
non-zero diagonal. -/
theorem MatrixInvert_diagonal_aux {N : Nat} (d : Fin N → T) (hd : ∀ i, d i ≠ 0)
    (mOut : Matrix (Fin N) (Fin N) T) :
    MatrixInvert (fun i j => if i = j then d i else 0) mOut =
      (true, fun i j => if i = j then 1 / d i else 0) := by
  have h1 : (fun i j => if i = j then d i else 0 : Matrix (Fin N) (Fin N) T) =
      Matrix.diagonal d := by
    funext i j
    by_cases h : i = j
    · subst h; simp
    · simp [h]
  have h2 : (fun i j => if i = j then 1 / d i else 0 : Matrix (Fin N) (Fin N) T) =
      Matrix.diagonal (fun i => 1 / d i) := by
    funext i j
    by_cases h : i = j
    · subst h; simp
    · simp [h]
  have hdet : (Matrix.diagonal d).det ≠ 0 := by
    rw [Matrix.det_diagonal]
    exact Finset.prod_ne_zero_iff.mpr fun i _ => hd i
  rw [h1, h2, MatrixInvert_of_det_ne_zero _ mOut hdet]
  congr 1
  apply Matrix.inv_eq_right_inv
  rw [Matrix.diagonal_mul_diagonal]
  have h3 : (fun i => d i * (1 / d i)) = fun _ => (1 : T) := by
    funext i
    exact mul_one_div_cancel (hd i)
  rw [h3, Matrix.diagonal_one]

/-- C3: for every diagonal `N x N` matrix with non-zero diagonal entries
`d_i`, `MatrixInvert` returns `true` and writes the diagonal matrix with
entries `1/d_i` (off-diagonal entries exactly zero); in particular on
`[[2,0],[0,4]]` it writes `[[1/2,0],[0,1/4]]`. -/
theorem MatrixInvert_diagonal (N : Nat) (_hN : 2 ≤ N) (d : Fin N → T) (hd : ∀ i, d i ≠ 0)
    (mOut : Matrix (Fin N) (Fin N) T) (mOut2 : Matrix (Fin 2) (Fin 2) T) :
    MatrixInvert (fun i j => if i = j then d i else 0) mOut =
        (true, fun i j => if i = j then 1 / d i else 0) ∧
      MatrixInvert (!![2, 0; 0, 4] : Matrix (Fin 2) (Fin 2) T) mOut2 =
        (true, !![1 / 2, 0; 0, 1 / 4]) := by
  refine ⟨MatrixInvert_diagonal_aux d hd mOut, ?_⟩
  have key := MatrixInvert_diagonal_aux (![2, 4] : Fin 2 → T)
    (fun i => by fin_cases i <;> simp) mOut2
  have h1 : (fun i j => if i = j then (![2, 4] : Fin 2 → T) i else 0 :
      Matrix (Fin 2) (Fin 2) T) = !![2, 0; 0, 4] := by
    funext i j
    fin_cases i <;> fin_cases j <;> simp
  have h2 : (fun i j => if i = j then 1 / (![2, 4] : Fin 2 → T) i else 0 :
      Matrix (Fin 2) (Fin 2) T) = !![1 / 2, 0; 0, 1 / 4] := by
    funext i j
    fin_cases i <;> fin_cases j <;> simp
  rw [h1, h2] at key
  exact key

/-- Witness for C3 at the rational diagonal `(2, 4)`. -/
theorem MatrixInvert_diagonal_witness :
    (2 ≤ 2 ∧ ∀ i, (![2, 4] : Fin 2 → ℚ) i ≠ 0) ∧
      (MatrixInvert (fun i j => if i = j then (![2, 4] : Fin 2 → ℚ) i else 0) 0 =
          (true, fun i j => if i = j then 1 / (![2, 4] : Fin 2 → ℚ) i else 0) ∧
        MatrixInvert (!![2, 0; 0, 4] : Matrix (Fin 2) (Fin 2) ℚ) 0 =
          (true, !![1 / 2, 0; 0, 1 / 4])) :=
  ⟨⟨le_refl 2, fun i => by fin_cases i <;> simp⟩,
    MatrixInvert_diagonal 2 (le_refl 2) _ (fun i => by fin_cases i <;> simp) 0 0⟩

/-! ## Claims on `VectorMultiply` -/

/-- C4: for every `N`-vector `v` and `N x N` matrix `m`, the `N x N` form of
`VectorMultiply` returns `out` with `out[i] = Σ_j m(j, i)*v[j]` for every
`i` (row-vector convention). -/
theorem VectorMultiply_apply (N : Nat) (v : Vec N T) (m : Matrix (Fin N) (Fin N) T)
    (i : Fin N) : VectorMultiply v m i = ∑ j, m j i * v j :=
  multiplyLoop_apply v m i

/-- Member `VectorAddDimention` appends a one to the vector. -/
theorem VectorAddDimention_eq_snoc {N : Nat} (v : Vec N T) :
    VectorAddDimention v = (Fin.snoc v 1 : Fin (N + 1) → T) := by
  funext j
  refine Fin.lastCases ?_ (fun k => ?_) j
  · simp [VectorAddDimention]
  · simp [VectorAddDimention]

/-- C5: for every `N`-vector `v` and `(N+1) x (N+1)` matrix `m`, with
`r[i] = Σ_{j ≤ N} m(j, i)*v'[j]` where `v'` is `v` with a trailing one, the
homogeneous `VectorMultiply` returns the first `N` components of `r`
unchanged when `r[N]` is exactly one, and `out[i] = r[i]*(1/r[N])`
otherwise. -/
theorem VectorMultiplyHomogeneous_apply (N : Nat) (v : Vec N T)
    (m : Matrix (Fin (N + 1)) (Fin (N + 1)) T) (i : Fin N) :
    VectorMultiplyHomogeneous v m i =
      if (∑ j, m j (Fin.last N) * (Fin.snoc v 1 : Fin (N + 1) → T) j) = 1 then
        ∑ j, m j i.castSucc * (Fin.snoc v 1 : Fin (N + 1) → T) j
      else
        (∑ j, m j i.castSucc * (Fin.snoc v 1 : Fin (N + 1) → T) j) *
          (1 / ∑ j, m j (Fin.last N) * (Fin.snoc v 1 : Fin (N + 1) → T) j) := by
  unfold VectorMultiplyHomogeneous
  simp only [multiplyLoop_apply, VectorAddDimention_eq_snoc]
  split_ifs <;> rfl

/-- The 4 x 4 translation matrix, cell by cell: the identity with the
translation in the last row. -/
theorem CreateTranslationMatrix_apply {n : Nat} (hN : 2 < n + 1) (t : Vec n T)
    (r c : Fin (n + 1)) :
    CreateTranslationMatrix hN t r c =
      if r = Fin.last n then (Fin.snoc t 1 : Fin (n + 1) → T) c
      else if r = c then 1 else 0 := by
  unfold CreateTranslationMatrix
  simp only [SetRow, VectorAddDimention_eq_snoc, SetIdentity]

/-- Translation matrices of any size act as `v + t` under the homogeneous
`VectorMultiply`: the last component of the product is exactly one. -/
theorem translation_apply {n : Nat} (hN : 2 < n + 1) (t v : Vec n T) (i : Fin n) :
    VectorMultiplyHomogeneous v (CreateTranslationMatrix hN t) i = v i + t i := by
  rw [VectorMultiplyHomogeneous_apply]
  have hne : ∀ j : Fin n, ¬ (j.castSucc = Fin.last n) := fun j =>
    ne_of_lt (Fin.castSucc_lt_last j)
  have hlast : (∑ j, CreateTranslationMatrix hN t j (Fin.last n) *
      (Fin.snoc v 1 : Fin (n + 1) → T) j) = 1 := by
    rw [Fin.sum_univ_castSucc]
    simp [CreateTranslationMatrix_apply, hne]
  rw [if_pos hlast, Fin.sum_univ_castSucc]
  simp [CreateTranslationMatrix_apply, hne]

/-- C6: for all 3-vectors `t` and `v`, applying the 4 x 4 matrix
`CreateTranslationMatrix(t)` to `v` with the homogeneous `VectorMultiply`
yields exactly `v + t` componentwise; in particular `t = (5,0,0)` applied to
`(1,2,3)` yields exactly `(6,2,3)`. -/
theorem VectorMultiplyHomogeneous_translation (t v : Vec 3 T) :
    (∀ i, VectorMultiplyHomogeneous v (CreateTranslationMatrix (by decide) t) i = v i + t i) ∧
      VectorMultiplyHomogeneous (vec3 1 2 3)
        (CreateTranslationMatrix (by decide) (vec3 (5 : T) 0 0)) = vec3 6 2 3 := by
  refine ⟨fun i => translation_apply _ t v i, ?_⟩
  funext i
  rw [translation_apply]
  fin_cases i <;> norm_num [vec3]

/-! ## Rotation matrices in 3 x 3 form -/

theorem Transpose_three (m : Matrix (Fin 3) (Fin 3) T) : Transpose m = m.transpose := by
  have h3 : List.finRange 3 = [0, 1, 2] := rfl
  funext i j
  fin_cases i <;> fin_cases j <;>
    simp [Transpose, h3, List.filter, setElem_apply, Matrix.transpose_apply]

theorem CreateRotationMatrixX_three (h : 2 < 3) (Sin Cos : T → T) (a : T) :
    CreateRotationMatrixX 3 h Sin Cos a =
      !![1, 0, 0; 0, Cos a, -Sin a; 0, Sin a, Cos a] := by
  funext i j
  fin_cases i <;> fin_cases j <;>
    simp [CreateRotationMatrixX, setElem_apply, SetIdentity, Fin.ext_iff, Matrix.vecHead,
      Matrix.vecTail]

theorem CreateRotationMatrixY_three (h : 2 < 3) (Sin Cos : T → T) (a : T) :
    CreateRotationMatrixY 3 h Sin Cos a =
      !![Cos a, 0, Sin a; 0, 1, 0; -Sin a, 0, Cos a] := by
  funext i j
  fin_cases i <;> fin_cases j <;>
    simp [CreateRotationMatrixY, setElem_apply, SetIdentity, Fin.ext_iff, Matrix.vecHead,
      Matrix.vecTail]

theorem CreateRotationMatrixZ_three (h : 2 < 3) (Sin Cos : T → T) (a : T) :
    CreateRotationMatrixZ 3 h Sin Cos a =
      !![Cos a, -Sin a, 0; Sin a, Cos a, 0; 0, 0, 1] := by
  funext i j
  fin_cases i <;> fin_cases j <;>
    simp [CreateRotationMatrixZ, setElem_apply, SetIdentity, Fin.ext_iff, Matrix.vecHead,
      Matrix.vecTail]

theorem CreateRotationMatrixAxis_three (h : 2 < 3) (Sin Cos : T → T) (u : Vec 3 T) (a : T) :
    CreateRotationMatrixAxis 3 h Sin Cos u a =
      axisMatrix (Sin (-a)) (Cos (-a)) (u 0) (u 1) (u 2) := by
  funext i j
  fin_cases i <;> fin_cases j <;>
    simp [CreateRotationMatrixAxis, axisMatrix, setElem_apply, SetIdentity, Fin.ext_iff,
      TMath.Sqr, Vec.x, Vec.y, Vec.z]

/-- The arbitrary-axis matrix times its transpose is the identity when the
axis has unit length and `s² + c² = 1`. -/
theorem axisMatrix_mul_transpose (s c x y z : T) (hu : x * x + y * y + z * z = 1)
    (hsc : s * s + c * c = 1) :
    axisMatrix s c x y z * (axisMatrix s c x y z).transpose = 1 := by
  funext i j
  fin_cases i <;> fin_cases j <;>
    simp [axisMatrix, Matrix.mul_apply, Fin.sum_univ_three, Matrix.transpose_apply,
      Matrix.one_apply, Matrix.vecHead, Matrix.vecTail]
  · linear_combination (s * s + (1 - c) * (1 - c) * (x * x)) * hu + (1 - x * x) * hsc
  · linear_combination ((1 - c) * (1 - c) * (x * y)) * hu + (-(x * y)) * hsc
  · linear_combination ((1 - c) * (1 - c) * (x * z)) * hu + (-(x * z)) * hsc
  · linear_combination ((1 - c) * (1 - c) * (y * x)) * hu + (-(y * x)) * hsc
  · linear_combination (s * s + (1 - c) * (1 - c) * (y * y)) * hu + (1 - y * y) * hsc
  · linear_combination ((1 - c) * (1 - c) * (y * z)) * hu + (-(y * z)) * hsc
  · linear_combination ((1 - c) * (1 - c) * (z * x)) * hu + (-(z * x)) * hsc
  · linear_combination ((1 - c) * (1 - c) * (z * y)) * hu + (-(z * y)) * hsc
  · linear_combination (s * s + (1 - c) * (1 - c) * (z * z)) * hu + (1 - z * z) * hsc

/-- Negating the sine transposes the arbitrary-axis matrix. -/
theorem axisMatrix_neg (s c x y z : T) :
    axisMatrix (-s) c x y z = (axisMatrix s c x y z).transpose := by
  funext i j
  fin_cases i <;> fin_cases j <;>
    simp [axisMatrix, Matrix.transpose_apply, Matrix.vecHead, Matrix.vecTail] <;> ring

theorem rotationX_mul_transpose (s c : T) (hsc : s * s + c * c = 1) :
    (!![1, 0, 0; 0, c, -s; 0, s, c] : Matrix (Fin 3) (Fin 3) T) *
      (!![1, 0, 0; 0, c, -s; 0, s, c] : Matrix (Fin 3) (Fin 3) T).transpose = 1 := by
  funext i j
  fin_cases i <;> fin_cases j <;>
    simp [Matrix.mul_apply, Fin.sum_univ_three, Matrix.transpose_apply,
      Matrix.one_apply, Matrix.vecHead, Matrix.vecTail] <;>
    first
      | linear_combination hsc
      | ring

theorem rotationY_mul_transpose (s c : T) (hsc : s * s + c * c = 1) :
    (!![c, 0, s; 0, 1, 0; -s, 0, c] : Matrix (Fin 3) (Fin 3) T) *
      (!![c, 0, s; 0, 1, 0; -s, 0, c] : Matrix (Fin 3) (Fin 3) T).transpose = 1 := by
  funext i j
  fin_cases i <;> fin_cases j <;>
    simp [Matrix.mul_apply, Fin.sum_univ_three, Matrix.transpose_apply,
      Matrix.one_apply, Matrix.vecHead, Matrix.vecTail] <;>
    first
      | linear_combination hsc
      | ring

theorem rotationZ_mul_transpose (s c : T) (hsc : s * s + c * c = 1) :
    (!![c, -s, 0; s, c, 0; 0, 0, 1] : Matrix (Fin 3) (Fin 3) T) *
      (!![c, -s, 0; s, c, 0; 0, 0, 1] : Matrix (Fin 3) (Fin 3) T).transpose = 1 := by
  funext i j
  fin_cases i <;> fin_cases j <;>
    simp [Matrix.mul_apply, Fin.sum_univ_three, Matrix.transpose_apply,
      Matrix.one_apply, Matrix.vecHead, Matrix.vecTail] <;>
    first
      | linear_combination hsc
      | ring

/-! ## `VectorMultiply` and magnitudes in matrix terms -/

theorem VectorMultiply_eq_vecMul {N : Nat} (v : Vec N T) (m : Matrix (Fin N) (Fin N) T) :
    VectorMultiply v m = Matrix.vecMul v m := by
  funext i
  rw [VectorMultiply, multiplyLoop_apply]
  exact Finset.sum_congr rfl fun j _ => mul_comm _ _

theorem GetMagnitudeSqr_eq_dotProduct {N : Nat} (v : Vec N T) :
    GetMagnitudeSqr v = Matrix.dotProduct v v :=
  GetMagnitudeSqr_eq_sum v

/-- A matrix whose product with its transpose is the identity preserves the
squared magnitude under `VectorMultiply`. -/
theorem GetMagnitudeSqr_VectorMultiply {N : Nat} (v : Vec N T) (R : Matrix (Fin N) (Fin N) T)
    (hR : R * R.transpose = 1) :
    GetMagnitudeSqr (VectorMultiply v R) = GetMagnitudeSqr v := by
  rw [GetMagnitudeSqr_eq_dotProduct, GetMagnitudeSqr_eq_dotProduct, VectorMultiply_eq_vecMul,
    ← Matrix.dotProduct_mulVec]
  have h1 : Matrix.vecMul v R = R.transpose.mulVec v := (Matrix.mulVec_transpose R v).symm
  rw [h1, Matrix.mulVec_mulVec, hR, Matrix.one_mulVec]

/-- Applying a matrix whose product with its transpose is the identity, and
then its transpose, returns the vector. -/
theorem VectorMultiply_transpose_cancel {N : Nat} (v : Vec N T)
    (R : Matrix (Fin N) (Fin N) T) (hR : R * R.transpose = 1) :
    VectorMultiply (VectorMultiply v R) R.transpose = v := by
  rw [VectorMultiply_eq_vecMul, VectorMultiply_eq_vecMul, Matrix.vecMul_vecMul, hR,
    Matrix.vecMul_one]

/-! ## Claims on the rotation builders, over the reals -/

theorem sin_mul_add_cos_mul (a : ℝ) : Real.sin a * Real.sin a + Real.cos a * Real.cos a = 1 := by
  rw [← sq, ← sq]
  exact Real.sin_sq_add_cos_sq a

theorem unit_axis {u : Vec 3 T} (hu : VectorDot u u = 1) :
    u 0 * u 0 + u 1 * u 1 + u 2 * u 2 = 1 := by
  rw [VectorDot_eq_sum, Fin.sum_univ_three] at hu
  exact hu

/-- The arbitrary-axis rotation matrix about a unit axis times its transpose
is the identity. -/
theorem axis_mul_transpose (u : Vec 3 ℝ) (a : ℝ) (hu : VectorDot u u = 1) :
    CreateRotationMatrixAxis 3 (by decide) Real.sin Real.cos u a *
      (CreateRotationMatrixAxis 3 (by decide) Real.sin Real.cos u a).transpose = 1 := by
  rw [CreateRotationMatrixAxis_three]
  exact axisMatrix_mul_transpose _ _ _ _ _ (unit_axis hu) (sin_mul_add_cos_mul (-a))

/-- C7: for every angle `θ`, applying the 3 x 3 matrix
`CreateRotationMatrixY(θ)` to `(0,0,1)` with the `N x N` `VectorMultiply`
yields `(-sin θ, 0, cos θ)`; at `θ = π/2` the result is `(-1,0,0)`. -/
theorem rotationY_unit_z (θ : ℝ) :
    VectorMultiply (vec3 0 0 1) (CreateRotationMatrixY 3 (by decide) Real.sin Real.cos θ) =
        vec3 (-Real.sin θ) 0 (Real.cos θ) ∧
      VectorMultiply (vec3 0 0 1)
          (CreateRotationMatrixY 3 (by decide) Real.sin Real.cos (Real.pi / 2)) =
        vec3 (-1) 0 0 := by
  have key : ∀ a : ℝ,
      VectorMultiply (vec3 0 0 1) (CreateRotationMatrixY 3 (by decide) Real.sin Real.cos a) =
        vec3 (-Real.sin a) 0 (Real.cos a) := by
    intro a
    funext i
    rw [VectorMultiply, multiplyLoop_apply, CreateRotationMatrixY_three, Fin.sum_univ_three]
    fin_cases i <;> simp [vec3, Matrix.vecHead, Matrix.vecTail]
  refine ⟨key θ, ?_⟩
  rw [key, Real.sin_pi_div_two, Real.cos_pi_div_two]

/-- C8: every 3 x 3 rotation matrix `R` built by `CreateRotationMatrixX`,
`CreateRotationMatrixY`, `CreateRotationMatrixZ` (any angle) or by
`CreateRotationMatrixAxis` (any angle, any axis `u` with `Dot(u,u) = 1`) is
orthonormal over the reals: `MatrixMultiply(R, transpose of R)` is the
identity matrix. -/
theorem rotation_orthonormal (θ : ℝ) (u : Vec 3 ℝ) (hu : VectorDot u u = 1) :
    MatrixMultiply (CreateRotationMatrixX 3 (by decide) Real.sin Real.cos θ)
        (Transpose (CreateRotationMatrixX 3 (by decide) Real.sin Real.cos θ)) = SetIdentity ∧
      MatrixMultiply (CreateRotationMatrixY 3 (by decide) Real.sin Real.cos θ)
        (Transpose (CreateRotationMatrixY 3 (by decide) Real.sin Real.cos θ)) = SetIdentity ∧
      MatrixMultiply (CreateRotationMatrixZ 3 (by decide) Real.sin Real.cos θ)
        (Transpose (CreateRotationMatrixZ 3 (by decide) Real.sin Real.cos θ)) = SetIdentity ∧
      MatrixMultiply (CreateRotationMatrixAxis 3 (by decide) Real.sin Real.cos u θ)
        (Transpose (CreateRotationMatrixAxis 3 (by decide) Real.sin Real.cos u θ)) =
          SetIdentity := by
  simp only [MatrixMultiply_eq_mul, Transpose_three, SetIdentity_eq_one]
  refine ⟨?_, ?_, ?_, axis_mul_transpose u θ hu⟩
  · rw [CreateRotationMatrixX_three]
    exact rotationX_mul_transpose _ _ (sin_mul_add_cos_mul θ)
  · rw [CreateRotationMatrixY_three]
    exact rotationY_mul_transpose _ _ (sin_mul_add_cos_mul θ)
  · rw [CreateRotationMatrixZ_three]
    exact rotationZ_mul_transpose _ _ (sin_mul_add_cos_mul θ)

theorem unit_axis_example : VectorDot (vec3 (3 / 5 : ℝ) (4 / 5) 0) (vec3 (3 / 5) (4 / 5) 0) = 1 := by
  rw [VectorDot_eq_sum, Fin.sum_univ_three]
  norm_num [vec3]

/-- Witness for C8 at the angle `π/2` and the unit axis `(3/5, 4/5, 0)`. -/
theorem rotation_orthonormal_witness :
    VectorDot (vec3 (3 / 5 : ℝ) (4 / 5) 0) (vec3 (3 / 5) (4 / 5) 0) = 1 ∧
      MatrixMultiply
        (CreateRotationMatrixAxis 3 (by decide) Real.sin Real.cos (vec3 (3 / 5 : ℝ) (4 / 5) 0)
          (Real.pi / 2))
        (Transpose
          (CreateRotationMatrixAxis 3 (by decide) Real.sin Real.cos (vec3 (3 / 5 : ℝ) (4 / 5) 0)
            (Real.pi / 2))) = SetIdentity :=
  ⟨unit_axis_example,
    (rotation_orthonormal (Real.pi / 2) (vec3 (3 / 5 : ℝ) (4 / 5) 0) unit_axis_example).2.2.2⟩

/-- C9: for every 3-vector `v`, every angle and every unit axis `u`, the
vector rotated by `CreateRotationMatrixAxis(u, angle)` in 3 x 3 form, and
likewise by the X/Y/Z builders, has the squared magnitude of `v`, hence the
magnitude of `v`, over the reals. -/
theorem rotation_preserves_magnitude (v : Vec 3 ℝ) (θ : ℝ) (u : Vec 3 ℝ)
    (hu : VectorDot u u = 1) :
    (GetMagnitudeSqr
          (VectorMultiply v (CreateRotationMatrixAxis 3 (by decide) Real.sin Real.cos u θ)) =
        GetMagnitudeSqr v ∧
      GetMagnitude Real.sqrt
          (VectorMultiply v (CreateRotationMatrixAxis 3 (by decide) Real.sin Real.cos u θ)) =
        GetMagnitude Real.sqrt v) ∧
    (GetMagnitudeSqr
          (VectorMultiply v (CreateRotationMatrixX 3 (by decide) Real.sin Real.cos θ)) =
        GetMagnitudeSqr v ∧
      GetMagnitude Real.sqrt
          (VectorMultiply v (CreateRotationMatrixX 3 (by decide) Real.sin Real.cos θ)) =
        GetMagnitude Real.sqrt v) ∧
    (GetMagnitudeSqr
          (VectorMultiply v (CreateRotationMatrixY 3 (by decide) Real.sin Real.cos θ)) =
        GetMagnitudeSqr v ∧
      GetMagnitude Real.sqrt
          (VectorMultiply v (CreateRotationMatrixY 3 (by decide) Real.sin Real.cos θ)) =
        GetMagnitude Real.sqrt v) ∧
    (GetMagnitudeSqr
          (VectorMultiply v (CreateRotationMatrixZ 3 (by decide) Real.sin Real.cos θ)) =
        GetMagnitudeSqr v ∧
      GetMagnitude Real.sqrt
          (VectorMultiply v (CreateRotationMatrixZ 3 (by decide) Real.sin Real.cos θ)) =
        GetMagnitude Real.sqrt v) := by
  have hA := GetMagnitudeSqr_VectorMultiply v _ (axis_mul_transpose u θ hu)
  have hX := GetMagnitudeSqr_VectorMultiply v
    (CreateRotationMatrixX 3 (by decide) Real.sin Real.cos θ)
    (by rw [CreateRotationMatrixX_three]
        exact rotationX_mul_transpose _ _ (sin_mul_add_cos_mul θ))
  have hY := GetMagnitudeSqr_VectorMultiply v
    (CreateRotationMatrixY 3 (by decide) Real.sin Real.cos θ)
    (by rw [CreateRotationMatrixY_three]
        exact rotationY_mul_transpose _ _ (sin_mul_add_cos_mul θ))
  have hZ := GetMagnitudeSqr_VectorMultiply v
    (CreateRotationMatrixZ 3 (by decide) Real.sin Real.cos θ)
    (by rw [CreateRotationMatrixZ_three]
        exact rotationZ_mul_transpose _ _ (sin_mul_add_cos_mul θ))
  unfold GetMagnitude
  exact ⟨⟨hA, by rw [hA]⟩, ⟨hX, by rw [hX]⟩, ⟨hY, by rw [hY]⟩, ⟨hZ, by rw [hZ]⟩⟩

/-- Witness for C9 at the vector `(1,2,3)`, the angle `π/2` and the unit axis
`(3/5, 4/5, 0)`. -/
theorem rotation_preserves_magnitude_witness :
    VectorDot (vec3 (3 / 5 : ℝ) (4 / 5) 0) (vec3 (3 / 5) (4 / 5) 0) = 1 ∧
      GetMagnitudeSqr
          (VectorMultiply (vec3 1 2 3)
            (CreateRotationMatrixAxis 3 (by decide) Real.sin Real.cos
              (vec3 (3 / 5 : ℝ) (4 / 5) 0) (Real.pi / 2))) =
        GetMagnitudeSqr (vec3 (1 : ℝ) 2 3) :=
  ⟨unit_axis_example,
    (rotation_preserves_magnitude (vec3 1 2 3) (Real.pi / 2) (vec3 (3 / 5 : ℝ) (4 / 5) 0)
      unit_axis_example).1.1⟩

/-- C10: for every 3-vector `v`, every angle `θ` and every unit axis `u`,
rotating `v` with `CreateRotationMatrixAxis(u, θ)` and then rotating the
result with `CreateRotationMatrixAxis(u, -θ)`, both applied by the 3 x 3
`VectorMultiply`, returns `v`, over the reals. -/
theorem rotation_then_inverse (v : Vec 3 ℝ) (θ : ℝ) (u : Vec 3 ℝ) (hu : VectorDot u u = 1) :
    VectorMultiply
        (VectorMultiply v (CreateRotationMatrixAxis 3 (by decide) Real.sin Real.cos u θ))
        (CreateRotationMatrixAxis 3 (by decide) Real.sin Real.cos u (-θ)) = v := by
  have hback : CreateRotationMatrixAxis 3 (by decide) Real.sin Real.cos u (-θ) =
      (CreateRotationMatrixAxis 3 (by decide) Real.sin Real.cos u θ).transpose := by
    rw [CreateRotationMatrixAxis_three, CreateRotationMatrixAxis_three, ← axisMatrix_neg,
      neg_neg, Real.sin_neg, Real.cos_neg, neg_neg]
  rw [hback]
  exact VectorMultiply_transpose_cancel v _ (axis_mul_transpose u θ hu)

/-- Witness for C10 at the vector `(1,2,3)`, the angle `π/2` and the unit
axis `(3/5, 4/5, 0)`. -/
theorem rotation_then_inverse_witness :
    VectorDot (vec3 (3 / 5 : ℝ) (4 / 5) 0) (vec3 (3 / 5) (4 / 5) 0) = 1 ∧
      VectorMultiply
          (VectorMultiply (vec3 1 2 3)
            (CreateRotationMatrixAxis 3 (by decide) Real.sin Real.cos
              (vec3 (3 / 5 : ℝ) (4 / 5) 0) (Real.pi / 2)))
          (CreateRotationMatrixAxis 3 (by decide) Real.sin Real.cos
            (vec3 (3 / 5 : ℝ) (4 / 5) 0) (-(Real.pi / 2))) = vec3 1 2 3 :=
  ⟨unit_axis_example,
    rotation_then_inverse (vec3 1 2 3) (Real.pi / 2) (vec3 (3 / 5 : ℝ) (4 / 5) 0)
      unit_axis_example⟩

/-! ## Claims on the Euler-angle builder, dot and cross products -/

theorem CreateRotationMatrixXYZ_three (h : 2 < 3) (Sin Cos : T → T) (v : Vec 3 T) :
    CreateRotationMatrixXYZ 3 h Sin Cos v =
      !![Cos (-v 2) * Cos (-v 1) + Sin (-v 2) * Sin (-v 0) * Sin (-v 1),
          Sin (-v 2) * Cos (-v 0),
          Cos (-v 2) * -Sin (-v 1) + Sin (-v 2) * Sin (-v 0) * Cos (-v 1);
        -Sin (-v 2) * Cos (-v 1) + Cos (-v 2) * Sin (-v 0) * Sin (-v 1),
          Cos (-v 2) * Cos (-v 0),
          Sin (-v 2) * Sin (-v 1) + Cos (-v 2) * Sin (-v 0) * Cos (-v 1);
        Cos (-v 0) * Sin (-v 1), -Sin (-v 0), Cos (-v 0) * Cos (-v 1)] := by
  funext i j
  fin_cases i <;> fin_cases j <;>
    simp [CreateRotationMatrixXYZ, setElem_apply, SetIdentity, Fin.ext_iff, Matrix.vecHead,
      Matrix.vecTail, Vec.x, Vec.y, Vec.z]

/-- C11: for every Euler-angle vector `e = (x, y, z)`, the closed-form matrix
`CreateRotationMatrixXYZ(e)` equals
`MatrixMultiply(MatrixMultiply(CreateRotationMatrixZ(z), CreateRotationMatrixX(x)),
CreateRotationMatrixY(y))` in 3 x 3 form over the reals, so that
`VectorMultiply` by it applies the Z rotation first, then X, then Y. -/
theorem CreateRotationMatrixXYZ_eq_product (e : Vec 3 ℝ) :
    CreateRotationMatrixXYZ 3 (by decide) Real.sin Real.cos e =
        MatrixMultiply
          (MatrixMultiply (CreateRotationMatrixZ 3 (by decide) Real.sin Real.cos e.z)
            (CreateRotationMatrixX 3 (by decide) Real.sin Real.cos e.x))
          (CreateRotationMatrixY 3 (by decide) Real.sin Real.cos e.y) ∧
      ∀ v : Vec 3 ℝ,
        VectorMultiply v (CreateRotationMatrixXYZ 3 (by decide) Real.sin Real.cos e) =
          VectorMultiply
            (VectorMultiply
              (VectorMultiply v (CreateRotationMatrixZ 3 (by decide) Real.sin Real.cos e.z))
              (CreateRotationMatrixX 3 (by decide) Real.sin Real.cos e.x))
            (CreateRotationMatrixY 3 (by decide) Real.sin Real.cos e.y) := by
  have key : CreateRotationMatrixXYZ 3 (by decide) Real.sin Real.cos e =
      MatrixMultiply
        (MatrixMultiply (CreateRotationMatrixZ 3 (by decide) Real.sin Real.cos e.z)
          (CreateRotationMatrixX 3 (by decide) Real.sin Real.cos e.x))
        (CreateRotationMatrixY 3 (by decide) Real.sin Real.cos e.y) := by
    rw [MatrixMultiply_eq_mul, MatrixMultiply_eq_mul, CreateRotationMatrixXYZ_three,
      CreateRotationMatrixX_three, CreateRotationMatrixY_three, CreateRotationMatrixZ_three]
    funext i j
    fin_cases i <;> fin_cases j <;>
      simp [Matrix.mul_apply, Fin.sum_univ_three, Matrix.vecHead, Matrix.vecTail, Vec.x,
        Vec.y, Vec.z, Real.sin_neg, Real.cos_neg]
  refine ⟨key, fun v => ?_⟩
  rw [key, MatrixMultiply_eq_mul, MatrixMultiply_eq_mul]
  simp only [VectorMultiply_eq_vecMul, Matrix.vecMul_vecMul]

theorem VectorDot_three (v1 v2 : Vec 3 T) :
    VectorDot v1 v2 = v1 0 * v2 0 + v1 1 * v2 1 + v1 2 * v2 2 := by
  rw [VectorDot_eq_sum, Fin.sum_univ_three]

theorem VectorCross_zero (v1 v2 : Vec 3 T) :
    VectorCross v1 v2 0 = v1 1 * v2 2 - v1 2 * v2 1 := rfl

theorem VectorCross_one (v1 v2 : Vec 3 T) :
    VectorCross v1 v2 1 = v1 2 * v2 0 - v1 0 * v2 2 := rfl

theorem VectorCross_two (v1 v2 : Vec 3 T) :
    VectorCross v1 v2 2 = v1 0 * v2 1 - v1 1 * v2 0 := rfl

/-- C12: for all 3-vectors `v1` and `v2`, `VectorCross(v1, v2)` is orthogonal
to both inputs: its `VectorDot` with `v1` and with `v2` is zero, in exact
arithmetic. -/
theorem VectorCross_orthogonal (v1 v2 : Vec 3 T) :
    VectorDot (VectorCross v1 v2) v1 = 0 ∧ VectorDot (VectorCross v1 v2) v2 = 0 := by
  constructor
  · rw [VectorDot_three, VectorCross_zero, VectorCross_one, VectorCross_two]
    ring
  · rw [VectorDot_three, VectorCross_zero, VectorCross_one, VectorCross_two]
    ring

/-- C13: `VectorDot` returns the sum of the elementwise products and
`VectorCross` returns the right-hand-rule vector
`(v1.y*v2.z - v1.z*v2.y, v1.z*v2.x - v1.x*v2.z, v1.x*v2.y - v1.y*v2.x)`; in
particular `Dot((1,0,0),(0,1,0)) = 0` and `Cross((1,0,0),(0,1,0)) = (0,0,1)`. -/
theorem VectorDot_VectorCross_formulas (N : Nat) (w1 w2 : Vec N T) (v1 v2 : Vec 3 T) :
    VectorDot w1 w2 = ∑ i, w1 i * w2 i ∧
      VectorCross v1 v2 =
        ![v1 1 * v2 2 - v1 2 * v2 1, v1 2 * v2 0 - v1 0 * v2 2, v1 0 * v2 1 - v1 1 * v2 0] ∧
      VectorDot (vec3 (1 : T) 0 0) (vec3 0 1 0) = 0 ∧
      VectorCross (vec3 (1 : T) 0 0) (vec3 0 1 0) = vec3 0 0 1 := by
  refine ⟨VectorDot_eq_sum w1 w2, rfl, ?_, ?_⟩
  · rw [VectorDot_three]
    simp [vec3]
  · funext i
    fin_cases i
    · show VectorCross _ _ 0 = _
      rw [VectorCross_zero]; simp [vec3]
    · show VectorCross _ _ 1 = _
      rw [VectorCross_one]; simp [vec3]
    · show VectorCross _ _ 2 = _
      rw [VectorCross_two]; simp [vec3]

/-! ## Claims on `MatrixMultiply` and `CreateTranslationMatrix` -/

/-- C15: for every `N x M` matrix `m1` and `M x P` matrix `m2`,
`MatrixMultiply` returns the `N x P` matrix with
`out(i, j) = Σ_k m1(i, k)*m2(k, j)` for every `i` and `j`. -/
theorem MatrixMultiply_apply (N M P : Nat) (m1 : Matrix (Fin N) (Fin M) T)
    (m2 : Matrix (Fin M) (Fin P) T) (i : Fin N) (j : Fin P) :
    MatrixMultiply m1 m2 i j = ∑ k, m1 i k * m2 k j := by
  rw [MatrixMultiply_eq_mul, Matrix.mul_apply]

/-- C16: for every `N = n + 1 > 2` and every `(N-1)`-vector `t`,
`CreateTranslationMatrix(t)` equals the identity in rows `0..N-2` and its row
`N-1` is `(t[0], ..., t[N-2], 1)`: the translation is in the last row, and
the last column is zero above the diagonal. -/
theorem CreateTranslationMatrix_rows (n : Nat) (hN : 2 < n + 1) (t : Vec n T) :
    (∀ (r : Fin n) (c : Fin (n + 1)),
        CreateTranslationMatrix hN t r.castSucc c = if r.castSucc = c then 1 else 0) ∧
      (∀ c : Fin n, CreateTranslationMatrix hN t (Fin.last n) c.castSucc = t c) ∧
      CreateTranslationMatrix hN t (Fin.last n) (Fin.last n) = 1 := by
  refine ⟨fun r c => ?_, fun c => ?_, ?_⟩
  · rw [CreateTranslationMatrix_apply, if_neg (ne_of_lt (Fin.castSucc_lt_last r))]
  · rw [CreateTranslationMatrix_apply, if_pos rfl, Fin.snoc_castSucc]
  · rw [CreateTranslationMatrix_apply, if_pos rfl, Fin.snoc_last]

/-- Witness for C16 at the rational translation `(5, 0, 0)` in 4 x 4 form. -/
theorem CreateTranslationMatrix_rows_witness :
    2 < 3 + 1 ∧
      ((∀ (r : Fin 3) (c : Fin (3 + 1)),
          CreateTranslationMatrix (by decide) (vec3 (5 : ℚ) 0 0) r.castSucc c =
            if r.castSucc = c then 1 else 0) ∧
        (∀ c : Fin 3,
          CreateTranslationMatrix (by decide) (vec3 (5 : ℚ) 0 0) (Fin.last 3) c.castSucc =
            vec3 (5 : ℚ) 0 0 c) ∧
        CreateTranslationMatrix (by decide) (vec3 (5 : ℚ) 0 0) (Fin.last 3) (Fin.last 3) = 1) :=
  ⟨by decide, CreateTranslationMatrix_rows 3 (by decide) (vec3 (5 : ℚ) 0 0)⟩

/-! ## Claims on magnitudes -/

theorem GetMagnitudeSqr_pos {N : Nat} (v : Vec N T) (hv : v ≠ 0) : 0 < GetMagnitudeSqr v := by
  rw [GetMagnitudeSqr_eq_sum]
  obtain ⟨i, hi⟩ := Function.ne_iff.mp hv
  exact Finset.sum_pos' (fun j _ => mul_self_nonneg (v j))
    ⟨i, Finset.mem_univ i, mul_self_pos.mpr hi⟩

theorem GetMagnitudeSqr_scale {N : Nat} (v : Vec N T) (k : T) :
    GetMagnitudeSqr (fun i => v i * k) = k * k * GetMagnitudeSqr v := by
  rw [GetMagnitudeSqr_eq_sum, GetMagnitudeSqr_eq_sum, Finset.mul_sum]
  exact Finset.sum_congr rfl fun i _ => by ring

/-- Over the reals, `SetMagnitude(t)` with `t ≥ 0` leaves a non-zero vector
with magnitude `t`. -/
theorem GetMagnitude_SetMagnitude {N : Nat} (v : Vec N ℝ) (t : ℝ) (hv : v ≠ 0) (ht : 0 ≤ t) :
    GetMagnitude Real.sqrt (SetMagnitude Real.sqrt v t) = t := by
  have hq := GetMagnitudeSqr_pos v hv
  have hs : Real.sqrt (GetMagnitudeSqr v) * Real.sqrt (GetMagnitudeSqr v) =
      GetMagnitudeSqr v := Real.mul_self_sqrt hq.le
  unfold SetMagnitude GetMagnitude
  simp only
  rw [GetMagnitudeSqr_scale, div_mul_div_comm, hs, div_mul_cancel₀ _ hq.ne']
  exact Real.sqrt_mul_self ht

/-- C14: for every non-zero vector `v` and every target `t ≥ 0`, over the
reals, `SetMagnitude(t)` multiplies every component by `t / GetMagnitude(v)`
and leaves a vector whose `GetMagnitude` is `t`; `Normalize` is
`SetMagnitude(1)` and leaves a vector of magnitude one. -/
theorem SetMagnitude_Normalize_spec (N : Nat) (v : Vec N ℝ) (t : ℝ) (hv : v ≠ 0)
    (ht : 0 ≤ t) :
    (∀ i, SetMagnitude Real.sqrt v t i = v i * (t / GetMagnitude Real.sqrt v)) ∧
      GetMagnitude Real.sqrt (SetMagnitude Real.sqrt v t) = t ∧
      Normalize Real.sqrt v = SetMagnitude Real.sqrt v 1 ∧
      GetMagnitude Real.sqrt (Normalize Real.sqrt v) = 1 :=
  ⟨fun _ => rfl, GetMagnitude_SetMagnitude v t hv ht, rfl,
    GetMagnitude_SetMagnitude v 1 hv zero_le_one⟩

theorem vec3_one_two_three_ne_zero : vec3 (1 : ℝ) 2 3 ≠ 0 := by
  intro h
  have h0 := congrFun h 0
  simp [vec3] at h0

/-- Witness for C14 at the vector `(1,2,3)` and the target `5`. -/
theorem SetMagnitude_Normalize_spec_witness :
    (vec3 (1 : ℝ) 2 3 ≠ 0 ∧ (0 : ℝ) ≤ 5) ∧
      GetMagnitude Real.sqrt (SetMagnitude Real.sqrt (vec3 (1 : ℝ) 2 3) 5) = 5 ∧
      GetMagnitude Real.sqrt (Normalize Real.sqrt (vec3 (1 : ℝ) 2 3)) = 1 :=
  ⟨⟨vec3_one_two_three_ne_zero, by norm_num⟩,
    (SetMagnitude_Normalize_spec 3 (vec3 1 2 3) 5 vec3_one_two_three_ne_zero
      (by norm_num)).2.1,
    (SetMagnitude_Normalize_spec 3 (vec3 1 2 3) 5 vec3_one_two_three_ne_zero
      (by norm_num)).2.2.2⟩

/-! ## Claims on the scaling and perspective builders -/

/-- C17 (the code at the failing input): in 3 x 3 form, for every 2-vector
`vScale`, the loop of `CreateScalingMatrix` reaches `i = 2` and reads
`vScale[2]`, where the assertion `i < N*M` of `operator[]` fails: no matrix
with trailing entry one is produced. -/
theorem CreateScalingMatrix_three_fails (vScale : Vec 2 T) :
    CreateScalingMatrix (by decide : 2 < 2 + 1) vScale = none := by
  have h3 : List.finRange (2 + 1) = [0, 1, 2] := rfl
  unfold CreateScalingMatrix
  rw [h3]
  simp [Vec.index]

/-- For every size, the loop of `CreateScalingMatrix` ends in the failed
assertion of `operator[]` at `i = N-1`. -/
theorem CreateScalingMatrix_fails {n : Nat} (hN : 2 < n + 1) (vScale : Vec n T) :
    CreateScalingMatrix hN vScale = none := by
  cases hres : CreateScalingMatrix hN vScale with
  | none => rfl
  | some M =>
    exfalso
    have key := foldlM_sound
      (fun (mOut : Matrix (Fin (n + 1)) (Fin (n + 1)) T) (i : Fin (n + 1)) =>
        match Vec.index vScale i.val with
        | none => none
        | some t => some (setElem mOut i i t))
      (List.finRange (n + 1)) (fun pre _ => ∀ i ∈ pre, i.val < n) ?_
      (List.finRange (n + 1)) [] SetIdentity M rfl (fun i hi => absurd hi (List.not_mem_nil i))
      hres
    · exact lt_irrefl n (key (Fin.last n) (List.mem_finRange _))
    · intro pre x rest s s' _ hP hs i hi
      rcases List.mem_append.mp hi with h | h
      · exact hP i h
      · simp only [List.mem_singleton] at h
        subst h
        by_contra hlt
        simp [Vec.index, hlt] at hs

theorem CreatePerspectiveMatrix_four (Tan : T → T) (mOut : Matrix (Fin 4) (Fin 4) T)
    (fFOVY fAspectRatio fNearClip fFarClip : T) :
    CreatePerspectiveMatrix 4 Tan mOut fFOVY fAspectRatio fNearClip fFarClip =
      some !![1 / fAspectRatio * (1 / Tan (fFOVY * (1 / 2))), 0, 0, 0;
              0, 1 / Tan (fFOVY * (1 / 2)), 0, 0;
              0, 0, fFarClip * (1 / (fFarClip - fNearClip)), 1;
              0, 0, -fNearClip * (fFarClip * (1 / (fFarClip - fNearClip))), 0] := by
  unfold CreatePerspectiveMatrix assignAll
  simp only [List.foldlM, setChecked, bind, Option.bind]
  refine congrArg some ?_
  funext i j
  fin_cases i <;> fin_cases j <;> rfl

/-- The 4 x 4 view matrix, cell by cell. -/
theorem CreateViewMatrix_four (Sqrt : T → T) (mOut : Matrix (Fin 4) (Fin 4) T)
    (vPosition vLook vUp : Vec 3 T) :
    CreateViewMatrix 4 (by decide) Sqrt mOut vPosition vLook vUp =
      some !![Normalize Sqrt (VectorCross vUp vLook) 0,
                VectorCross vLook (Normalize Sqrt (VectorCross vUp vLook)) 0, vLook 0, 0;
              Normalize Sqrt (VectorCross vUp vLook) 1,
                VectorCross vLook (Normalize Sqrt (VectorCross vUp vLook)) 1, vLook 1, 0;
              Normalize Sqrt (VectorCross vUp vLook) 2,
                VectorCross vLook (Normalize Sqrt (VectorCross vUp vLook)) 2, vLook 2, 0;
              -VectorDot vPosition (Normalize Sqrt (VectorCross vUp vLook)),
                -VectorDot vPosition
                  (VectorCross vLook (Normalize Sqrt (VectorCross vUp vLook))),
                -VectorDot vPosition vLook, 1] := by
  unfold CreateViewMatrix assignAll
  simp only [List.foldlM, setChecked, bind, Option.bind]
  refine congrArg some ?_
  funext i j
  fin_cases i <;> fin_cases j <;> rfl

/-- Over the reals, `Normalize` leaves a non-zero vector with `VectorDot`
with itself equal to one. -/
theorem VectorDot_Normalize_self {N : Nat} (v : Vec N ℝ) (hv : v ≠ 0) :
    VectorDot (Normalize Real.sqrt v) (Normalize Real.sqrt v) = 1 := by
  have h1 := GetMagnitude_SetMagnitude v 1 hv zero_le_one
  have h2 : VectorDot (Normalize Real.sqrt v) (Normalize Real.sqrt v) =
      GetMagnitudeSqr (Normalize Real.sqrt v) := by
    rw [VectorDot_eq_sum, GetMagnitudeSqr_eq_sum]
  unfold GetMagnitude at h1
  rw [h2]
  have h3 : (0 : ℝ) ≤ 1 := zero_le_one
  have h4 := (Real.sqrt_eq_iff_mul_self_eq_of_pos one_pos).mp h1
  rw [one_mul] at h4
  exact h4.symm

/-- C18 (counterexample): for the unit vectors `look = (0,0,1)` and
`up = (0, 3/5, 4/5)`, entry `(0,0)` of the view matrix is `1`, while the first
component of `Cross(up, look)` is `3/5`. -/
theorem CreateViewMatrix_right_not_cross :
    VectorDot (vec3 (0 : ℝ) 0 1) (vec3 0 0 1) = 1 ∧
      VectorDot (vec3 (0 : ℝ) (3 / 5) (4 / 5)) (vec3 0 (3 / 5) (4 / 5)) = 1 ∧
      ∃ M, CreateViewMatrix 4 (by decide) Real.sqrt 0 (vec3 0 0 0) (vec3 (0 : ℝ) 0 1)
          (vec3 0 (3 / 5) (4 / 5)) = some M ∧
        M 0 0 ≠ VectorCross (vec3 (0 : ℝ) (3 / 5) (4 / 5)) (vec3 0 0 1) 0 := by
  refine ⟨?_, ?_, _, CreateViewMatrix_four _ _ _ _ _, ?_⟩
  · rw [VectorDot_three]; norm_num [vec3]
  · rw [VectorDot_three]; norm_num [vec3]
  · have hc : VectorCross (vec3 (0 : ℝ) (3 / 5) (4 / 5)) (vec3 0 0 1) = vec3 (3 / 5) 0 0 := by
      funext i
      fin_cases i
      · show VectorCross _ _ 0 = _
        rw [VectorCross_zero]; norm_num [vec3]
      · show VectorCross _ _ 1 = _
        rw [VectorCross_one]; norm_num [vec3]
      · show VectorCross _ _ 2 = _
        rw [VectorCross_two]; norm_num [vec3]
    have hm : GetMagnitude Real.sqrt (vec3 (3 / 5 : ℝ) 0 0) = 3 / 5 := by
      unfold GetMagnitude
      rw [GetMagnitudeSqr_eq_sum, Fin.sum_univ_three]
      have h : (vec3 (3 / 5 : ℝ) 0 0) 0 * (vec3 (3 / 5 : ℝ) 0 0) 0 +
          (vec3 (3 / 5 : ℝ) 0 0) 1 * (vec3 (3 / 5 : ℝ) 0 0) 1 +
          (vec3 (3 / 5 : ℝ) 0 0) 2 * (vec3 (3 / 5 : ℝ) 0 0) 2 = 3 / 5 * (3 / 5) := by
        norm_num [vec3]
      rw [h]
      exact Real.sqrt_mul_self (by norm_num)
    show Normalize Real.sqrt (VectorCross (vec3 (0 : ℝ) (3 / 5) (4 / 5)) (vec3 0 0 1)) 0 ≠ _
    rw [hc]
    show vec3 (3 / 5 : ℝ) 0 0 0 * (1 / GetMagnitude Real.sqrt (vec3 (3 / 5 : ℝ) 0 0)) ≠ _
    rw [hm]
    norm_num [vec3]

/-- C18 (amended): for every position `p`, unit vector `look` and unit vector
`up` with `Cross(up, look) ≠ 0`, over the reals, the 4 x 4 matrix of
`CreateViewMatrix(p, look, up)` has `right`, which is `Cross(up, look)` after
`Normalize` (every component times `1/|Cross(up, look)|`, a unit vector), as
rows 0..2 of column 0, `Cross(look, right)` as rows 0..2 of column 1, `look`
as rows 0..2 of column 2, zeros in rows 0..2 of column 3, and last row
`(-Dot(p,right), -Dot(p,Cross(look,right)), -Dot(p,look), 1)`. -/
theorem CreateViewMatrix_entries (mOut : Matrix (Fin 4) (Fin 4) ℝ) (p look up : Vec 3 ℝ)
    (_hlook : VectorDot look look = 1) (_hup : VectorDot up up = 1)
    (hcross : VectorCross up look ≠ 0) :
    ∃ M right, CreateViewMatrix 4 (by decide) Real.sqrt mOut p look up = some M ∧
      right = Normalize Real.sqrt (VectorCross up look) ∧
      (∀ i, right i =
        VectorCross up look i * (1 / GetMagnitude Real.sqrt (VectorCross up look))) ∧
      VectorDot right right = 1 ∧
      (∀ i : Fin 3, M i.castSucc 0 = right i) ∧
      (∀ i : Fin 3, M i.castSucc 1 = VectorCross look right i) ∧
      (∀ i : Fin 3, M i.castSucc 2 = look i) ∧
      (∀ i : Fin 3, M i.castSucc 3 = 0) ∧
      M 3 0 = -VectorDot p right ∧
      M 3 1 = -VectorDot p (VectorCross look right) ∧
      M 3 2 = -VectorDot p look ∧
      M 3 3 = 1 := by
  refine ⟨_, _, CreateViewMatrix_four _ _ _ _ _, rfl, fun _ => rfl,
    VectorDot_Normalize_self _ hcross, ?_, ?_, ?_, ?_, rfl, rfl, rfl, rfl⟩
  · intro i; fin_cases i <;> rfl
  · intro i; fin_cases i <;> rfl
  · intro i; fin_cases i <;> rfl
  · intro i; fin_cases i <;> rfl

theorem cross_up_look_example :
    VectorCross (vec3 (0 : ℝ) 1 0) (vec3 0 0 1) ≠ 0 := by
  intro h
  have h0 := congrFun h 0
  rw [VectorCross_zero] at h0
  norm_num [vec3] at h0

/-- Witness for C18 (amended) at `p = (1,2,3)`, `look = (0,0,1)`,
`up = (0,1,0)`. -/
theorem CreateViewMatrix_entries_witness :
    (VectorDot (vec3 (0 : ℝ) 0 1) (vec3 0 0 1) = 1 ∧
        VectorDot (vec3 (0 : ℝ) 1 0) (vec3 0 1 0) = 1 ∧
        VectorCross (vec3 (0 : ℝ) 1 0) (vec3 0 0 1) ≠ 0) ∧
      ∃ M right,
        CreateViewMatrix 4 (by decide) Real.sqrt 0 (vec3 1 2 3) (vec3 (0 : ℝ) 0 1)
            (vec3 0 1 0) = some M ∧
          VectorDot right right = 1 ∧ (∀ i : Fin 3, M i.castSucc 0 = right i) ∧ M 3 3 = 1 :=
  ⟨⟨by rw [VectorDot_three]; norm_num [vec3], by rw [VectorDot_three]; norm_num [vec3],
      cross_up_look_example⟩,
    let ⟨M, right, hM, _, _, hunit, hcol, _, _, _, _, _, _, h33⟩ :=
      CreateViewMatrix_entries 0 (vec3 1 2 3) (vec3 (0 : ℝ) 0 1) (vec3 0 1 0)
        (by rw [VectorDot_three]; norm_num [vec3]) (by rw [VectorDot_three]; norm_num [vec3])
        cross_up_look_example
    ⟨M, right, hM, hunit, hcol, h33⟩⟩

/-! ## Algebra of `VectorDot` and `VectorCross` on 3-vectors -/

theorem vec3_ext {u v : Vec 3 T} (h0 : u 0 = v 0) (h1 : u 1 = v 1) (h2 : u 2 = v 2) :
    u = v := by
  funext i
  fin_cases i
  · exact h0
  · exact h1
  · exact h2

theorem VectorDot_comm3 (u v : Vec 3 T) : VectorDot u v = VectorDot v u := by
  rw [VectorDot_three, VectorDot_three]; ring

theorem VectorDot_scale_left (u v : Vec 3 T) (k : T) :
    VectorDot (fun i => u i * k) v = k * VectorDot u v := by
  rw [VectorDot_three, VectorDot_three]; ring

theorem VectorDot_scale_right (u v : Vec 3 T) (k : T) :
    VectorDot u (fun i => v i * k) = k * VectorDot u v := by
  rw [VectorDot_three, VectorDot_three]; ring

theorem VectorCross_scale_left (u v : Vec 3 T) (k : T) :
    VectorCross (fun i => u i * k) v = fun i => VectorCross u v i * k := by
  apply vec3_ext
  · simp only [VectorCross_zero]; ring
  · simp only [VectorCross_one]; ring
  · simp only [VectorCross_two]; ring

theorem VectorCross_scale_right (u v : Vec 3 T) (k : T) :
    VectorCross u (fun i => v i * k) = fun i => VectorCross u v i * k := by
  apply vec3_ext
  · simp only [VectorCross_zero]; ring
  · simp only [VectorCross_one]; ring
  · simp only [VectorCross_two]; ring

theorem VectorDot_VectorCross_left (u v : Vec 3 T) : VectorDot (VectorCross u v) u = 0 := by
  rw [VectorDot_three, VectorCross_zero, VectorCross_one, VectorCross_two]; ring

theorem VectorDot_VectorCross_right (u v : Vec 3 T) : VectorDot (VectorCross u v) v = 0 := by
  rw [VectorDot_three, VectorCross_zero, VectorCross_one, VectorCross_two]; ring

/-- Lagrange identity: `|z × x|² = |z|²|x|² - (z·x)²`. -/
theorem VectorDot_VectorCross_self (z x : Vec 3 T) :
    VectorDot (VectorCross z x) (VectorCross z x) =
      VectorDot z z * VectorDot x x - VectorDot z x * VectorDot z x := by
  simp only [VectorDot_three, VectorCross_zero, VectorCross_one, VectorCross_two]; ring

/-- Triple product expansion: `x × (z × x) = (x·x) z - (x·z) x`. -/
theorem VectorCross_VectorCross (x z : Vec 3 T) :
    VectorCross x (VectorCross z x) = fun i => VectorDot x x * z i - VectorDot x z * x i := by
  apply vec3_ext
  · simp only [VectorDot_three, VectorCross_zero, VectorCross_one, VectorCross_two]; ring
  · simp only [VectorDot_three, VectorCross_zero, VectorCross_one, VectorCross_two]; ring
  · simp only [VectorDot_three, VectorCross_zero, VectorCross_one, VectorCross_two]; ring

/-- Two linearly independent real 3-vectors: the first is non-zero and their
cross product is non-zero. -/
theorem cross_ne_zero_of_linearIndependent (X Y : Vec 3 ℝ)
    (h : LinearIndependent ℝ ![X, Y]) : X ≠ 0 ∧ VectorCross X Y ≠ 0 := by
  rw [LinearIndependent.pair_iff] at h
  have hX : X ≠ 0 := by
    intro hx
    have h1 := (h 1 0 (by rw [hx]; simp)).1
    exact one_ne_zero h1
  refine ⟨hX, fun hc => hX ?_⟩
  have h0 := congrFun hc 0
  have h1 := congrFun hc 1
  have h2 := congrFun hc 2
  rw [VectorCross_zero] at h0
  rw [VectorCross_one] at h1
  rw [VectorCross_two] at h2
  simp only [Pi.zero_apply] at h0 h1 h2
  have key : ∀ k, Y k • X + (-X k) • Y = 0 → X k = 0 := fun k hk =>
    neg_eq_zero.mp (h (Y k) (-X k) hk).2
  apply vec3_ext
  · apply key 0
    apply vec3_ext <;> simp only [Pi.add_apply, Pi.smul_apply, smul_eq_mul, Pi.zero_apply]
    · ring
    · linear_combination -h2
    · linear_combination h1
  · apply key 1
    apply vec3_ext <;> simp only [Pi.add_apply, Pi.smul_apply, smul_eq_mul, Pi.zero_apply]
    · linear_combination h2
    · ring
    · linear_combination -h0
  · apply key 2
    apply vec3_ext <;> simp only [Pi.add_apply, Pi.smul_apply, smul_eq_mul, Pi.zero_apply]
    · linear_combination -h1
    · linear_combination h0
    · ring

/-! ## Claims on `Orthonormalize` -/

theorem GetMagnitudeSqr_eq_VectorDot {N : Nat} (v : Vec N T) :
    GetMagnitudeSqr v = VectorDot v v := by
  rw [GetMagnitudeSqr_eq_sum, VectorDot_eq_sum]

/-- The columns that `Orthonormalize` writes. -/
theorem Orthonormalize_columns (Sqrt : T → T) (m : Matrix (Fin 3) (Fin 3) T) :
    GetColumn (Orthonormalize Sqrt m) 0 = Normalize Sqrt (GetXVector m (by decide)) ∧
      GetColumn (Orthonormalize Sqrt m) 1 =
        Normalize Sqrt
          (VectorCross
            (VectorCross (Normalize Sqrt (GetXVector m (by decide))) (GetYVector m (by decide)))
            (Normalize Sqrt (GetXVector m (by decide)))) ∧
      GetColumn (Orthonormalize Sqrt m) 2 =
        Normalize Sqrt
          (VectorCross (Normalize Sqrt (GetXVector m (by decide)))
            (GetYVector m (by decide))) :=
  ⟨rfl, rfl, rfl⟩

/-- The vectors computed by `Orthonormalize` from `X` and `Y` with `X ≠ 0`
and `X × Y ≠ 0` are orthonormal and right-handed, over the reals. -/
theorem orthonormal_core (X Y c0 Z Y' c1 c2 : Vec 3 ℝ) (hX : X ≠ 0)
    (hXY : VectorCross X Y ≠ 0) (h0 : c0 = Normalize Real.sqrt X)
    (hZdef : Z = VectorCross c0 Y) (hYdef : Y' = VectorCross Z c0)
    (h1 : c1 = Normalize Real.sqrt Y') (h2 : c2 = Normalize Real.sqrt Z) :
    VectorDot c0 c0 = 1 ∧ VectorDot c1 c1 = 1 ∧ VectorDot c2 c2 = 1 ∧
      VectorDot c0 c1 = 0 ∧ VectorDot c0 c2 = 0 ∧ VectorDot c1 c2 = 0 ∧
      c2 = VectorCross c0 c1 := by
  have hq := GetMagnitudeSqr_pos X hX
  have ha : (1 / GetMagnitude Real.sqrt X) ≠ 0 :=
    one_div_ne_zero (Real.sqrt_pos.mpr hq).ne'
  have hc0 : VectorDot c0 c0 = 1 := by rw [h0]; exact VectorDot_Normalize_self X hX
  have hZeq : Z = fun i => VectorCross X Y i * (1 / GetMagnitude Real.sqrt X) := by
    rw [hZdef, h0]
    exact VectorCross_scale_left X Y _
  have hZ : Z ≠ 0 := by
    intro hz
    apply hXY
    funext i
    have hi := congrFun (hZeq.symm.trans hz) i
    exact (mul_eq_zero.mp hi).resolve_right ha
  have hZc0 : VectorDot Z c0 = 0 := by rw [hZdef]; exact VectorDot_VectorCross_left c0 Y
  have hYsq : VectorDot Y' Y' = VectorDot Z Z := by
    rw [hYdef, VectorDot_VectorCross_self, hc0, hZc0]; ring
  have hZpos : 0 < VectorDot Z Z := by
    rw [← GetMagnitudeSqr_eq_VectorDot]; exact GetMagnitudeSqr_pos Z hZ
  have hY' : Y' ≠ 0 := by
    intro hy
    rw [hy] at hYsq
    have h00 : VectorDot (0 : Vec 3 ℝ) 0 = 0 := by rw [VectorDot_three]; simp
    rw [h00] at hYsq
    rw [← hYsq] at hZpos
    exact lt_irrefl _ hZpos
  have hmag : GetMagnitude Real.sqrt Y' = GetMagnitude Real.sqrt Z := by
    unfold GetMagnitude
    rw [GetMagnitudeSqr_eq_VectorDot, GetMagnitudeSqr_eq_VectorDot, hYsq]
  have hc1 : c1 = fun i => Y' i * (1 / GetMagnitude Real.sqrt Z) := by
    rw [h1, ← hmag]; rfl
  have hc2 : c2 = fun i => Z i * (1 / GetMagnitude Real.sqrt Z) := by
    rw [h2]; rfl
  have hY'c0 : VectorDot Y' c0 = 0 := by rw [hYdef]; exact VectorDot_VectorCross_right Z c0
  have hY'Z : VectorDot Y' Z = 0 := by rw [hYdef]; exact VectorDot_VectorCross_left Z c0
  refine ⟨hc0, ?_, ?_, ?_, ?_, ?_, ?_⟩
  · rw [h1]; exact VectorDot_Normalize_self Y' hY'
  · rw [h2]; exact VectorDot_Normalize_self Z hZ
  · rw [hc1, VectorDot_scale_right, VectorDot_comm3, hY'c0, mul_zero]
  · rw [hc2, VectorDot_scale_right, VectorDot_comm3, hZc0, mul_zero]
  · rw [hc1, hc2, VectorDot_scale_right, VectorDot_scale_left, hY'Z, mul_zero, mul_zero]
  · rw [hc1, VectorCross_scale_right, hYdef, VectorCross_VectorCross, hc0,
      VectorDot_comm3 c0 Z, hZc0, hc2]
    funext i
    ring

theorem dot_table (c : Fin 3 → Vec 3 ℝ) (h00 : VectorDot (c 0) (c 0) = 1)
    (h11 : VectorDot (c 1) (c 1) = 1) (h22 : VectorDot (c 2) (c 2) = 1)
    (h01 : VectorDot (c 0) (c 1) = 0) (h02 : VectorDot (c 0) (c 2) = 0)
    (h12 : VectorDot (c 1) (c 2) = 0) (i j : Fin 3) :
    VectorDot (c i) (c j) = if i = j then 1 else 0 := by
  have h10 : VectorDot (c 1) (c 0) = 0 := by rw [VectorDot_comm3]; exact h01
  have h20 : VectorDot (c 2) (c 0) = 0 := by rw [VectorDot_comm3]; exact h02
  have h21 : VectorDot (c 2) (c 1) = 0 := by rw [VectorDot_comm3]; exact h12
  fin_cases i <;> fin_cases j
  · exact h00
  · exact h01
  · exact h02
  · exact h10
  · exact h11
  · exact h12
  · exact h20
  · exact h21
  · exact h22

/-- C20: for every real 3 x 3 matrix whose first two columns `X` and `Y` are
linearly independent, `Orthonormalize` leaves a matrix whose columns `c0`,
`c1`, `c2` form a right-handed orthonormal basis: `Dot(ci, cj)` is one for
`i = j` and zero otherwise, `c0 = X / |X|` and `c2 = Cross(c0, c1)`. -/
theorem Orthonormalize_orthonormal (m : Matrix (Fin 3) (Fin 3) ℝ)
    (hli : LinearIndependent ℝ ![GetXVector m (by decide), GetYVector m (by decide)]) :
    (∀ i j, VectorDot (GetColumn (Orthonormalize Real.sqrt m) i)
        (GetColumn (Orthonormalize Real.sqrt m) j) = if i = j then 1 else 0) ∧
      (∀ k, GetColumn (Orthonormalize Real.sqrt m) 0 k =
        GetXVector m (by decide) k / GetMagnitude Real.sqrt (GetXVector m (by decide))) ∧
      GetColumn (Orthonormalize Real.sqrt m) 2 =
        VectorCross (GetColumn (Orthonormalize Real.sqrt m) 0)
          (GetColumn (Orthonormalize Real.sqrt m) 1) := by
  obtain ⟨hX, hXY⟩ := cross_ne_zero_of_linearIndependent _ _ hli
  obtain ⟨e0, e1, e2⟩ := Orthonormalize_columns Real.sqrt m
  obtain ⟨h00, h11, h22, h01, h02, h12, hright⟩ :=
    orthonormal_core _ _ _ _ _ _ _ hX hXY e0 rfl rfl e1 e2
  refine ⟨dot_table (fun i => GetColumn (Orthonormalize Real.sqrt m) i) h00 h11 h22 h01 h02
    h12, fun k => ?_, hright⟩
  rw [e0]
  show GetXVector m (by decide) k * (1 / GetMagnitude Real.sqrt (GetXVector m (by decide))) = _
  rw [mul_one_div]

theorem orthonormalize_example_independent :
    LinearIndependent ℝ
      ![GetXVector (!![1, 1, 0; 0, 1, 0; 0, 0, 5] : Matrix (Fin 3) (Fin 3) ℝ) (by decide),
        GetYVector (!![1, 1, 0; 0, 1, 0; 0, 0, 5] : Matrix (Fin 3) (Fin 3) ℝ) (by decide)] := by
  rw [LinearIndependent.pair_iff]
  intro s t hst
  have h0 := congrFun hst 0
  have h1 := congrFun hst 1
  simp [GetXVector, GetYVector] at h0 h1
  subst h1
  simpa using h0

/-- Witness for C20 at the matrix with columns `(1,0,0)`, `(1,1,0)`,
`(0,0,5)`. -/
theorem Orthonormalize_orthonormal_witness :
    LinearIndependent ℝ
        ![GetXVector (!![1, 1, 0; 0, 1, 0; 0, 0, 5] : Matrix (Fin 3) (Fin 3) ℝ) (by decide),
          GetYVector (!![1, 1, 0; 0, 1, 0; 0, 0, 5] : Matrix (Fin 3) (Fin 3) ℝ)
            (by decide)] ∧
      ∀ i j,
        VectorDot
            (GetColumn
              (Orthonormalize Real.sqrt (!![1, 1, 0; 0, 1, 0; 0, 0, 5] :
                Matrix (Fin 3) (Fin 3) ℝ)) i)
            (GetColumn
              (Orthonormalize Real.sqrt (!![1, 1, 0; 0, 1, 0; 0, 0, 5] :
                Matrix (Fin 3) (Fin 3) ℝ)) j) = if i = j then 1 else 0 :=
  ⟨orthonormalize_example_independent,
    (Orthonormalize_orthonormal _ orthonormalize_example_independent).1⟩

/-! ## Claims on the comparison operators -/

theorem checkAll_eq_true {ι : Type} (bad : ι → Bool) (l : List ι) :
    checkAll bad l = true ↔ ∀ i ∈ l, bad i = false := by
  induction l with
  | nil => simp [checkAll]
  | cons x l ih =>
    unfold checkAll
    by_cases hx : bad x = true
    · simp [hx]
    · simp only [hx, Bool.false_eq_true, if_false, ih, List.mem_cons, forall_eq_or_imp]
      simp only [Bool.not_eq_true] at hx
      simp [hx]

theorem checkAll_finRange {n : Nat} (bad : Fin n → Bool) :
    checkAll bad (List.finRange n) = true ↔ ∀ i, bad i = false := by
  rw [checkAll_eq_true]
  exact ⟨fun h i => h i (List.mem_finRange i), fun h i _ => h i⟩

theorem operatorGt_iff {N M : Nat} (A B : Storage N M (Scalar T)) :
    operatorGt A B = true ↔ ∀ i, Scalar.le (A i) (B i) = false := by
  unfold operatorGt
  rw [checkAll_finRange]

theorem operatorLt_iff {N M : Nat} (A B : Storage N M (Scalar T)) :
    operatorLt A B = true ↔ ∀ i, Scalar.ge (A i) (B i) = false := by
  unfold operatorLt
  rw [checkAll_finRange]

theorem operatorGe_iff {N M : Nat} (A B : Storage N M (Scalar T)) :
    operatorGe A B = true ↔ ∀ i, Scalar.lt (A i) (B i) = false := by
  unfold operatorGe
  rw [checkAll_finRange]

theorem operatorLe_iff {N M : Nat} (A B : Storage N M (Scalar T)) :
    operatorLe A B = true ↔ ∀ i, Scalar.gt (A i) (B i) = false := by
  unfold operatorLe
  rw [checkAll_finRange]

/-- C21 (counterexample): for the 2-vectors `A = (NaN, 2)` and `B = (0, 1)`
over the rationals with NaN, `A > B` and `A >= B` are true although
`A[0] > B[0]` and `A[0] >= B[0]` are false, and `B < A` and `B <= A` are true
although `B[0] < A[0]` and `B[0] <= A[0]` are false. -/
theorem comparisons_true_on_nan :
    (@operatorGt ℚ _ 2 1 ![Scalar.nan, Scalar.num 2] ![Scalar.num 0, Scalar.num 1] = true ∧
        Scalar.gt (Scalar.nan : Scalar ℚ) (Scalar.num 0) = false) ∧
      (@operatorGe ℚ _ 2 1 ![Scalar.nan, Scalar.num 2] ![Scalar.num 0, Scalar.num 1] = true ∧
        Scalar.ge (Scalar.nan : Scalar ℚ) (Scalar.num 0) = false) ∧
      (@operatorLt ℚ _ 2 1 ![Scalar.num 0, Scalar.num 1] ![Scalar.nan, Scalar.num 2] = true ∧
        Scalar.lt (Scalar.num 0 : Scalar ℚ) Scalar.nan = false) ∧
      (@operatorLe ℚ _ 2 1 ![Scalar.num 0, Scalar.num 1] ![Scalar.nan, Scalar.num 2] = true ∧
        Scalar.le (Scalar.num 0 : Scalar ℚ) Scalar.nan = false) := by
  refine ⟨⟨?_, rfl⟩, ⟨?_, rfl⟩, ⟨?_, rfl⟩, ⟨?_, rfl⟩⟩
  · rw [operatorGt_iff]
    intro i
    fin_cases i
    · rfl
    · show Scalar.le (Scalar.num (2 : ℚ)) (Scalar.num 1) = false
      simp [Scalar.le]
  · rw [operatorGe_iff]
    intro i
    fin_cases i
    · rfl
    · show Scalar.lt (Scalar.num (2 : ℚ)) (Scalar.num 1) = false
      simp [Scalar.lt]
  · rw [operatorLt_iff]
    intro i
    fin_cases i
    · rfl
    · show Scalar.ge (Scalar.num (1 : ℚ)) (Scalar.num 2) = false
      simp [Scalar.ge]
  · rw [operatorLe_iff]
    intro i
    fin_cases i
    · rfl
    · show Scalar.gt (Scalar.num (1 : ℚ)) (Scalar.num 2) = false
      simp [Scalar.gt]

/-- C21 (amended): for all same-shape matrices `A` and `B` none of whose
components is NaN, each comparison is true exactly when the scalar relation
holds at every linear index `i < N*M`: `A > B` iff `A[i] > B[i]` for every
`i`, and likewise for `<`, `>=`, `<=` and `==`. When components may be NaN,
`A > B` is true exactly when the test `A[i] <= B[i]` is false at every index,
and likewise `<` with `>=`, `>=` with `<` and `<=` with `>`, so that a NaN
component counts as satisfying the relation. -/
theorem comparisons_all_components (N M : Nat) (a b : Storage N M T)
    (A B : Storage N M (Scalar T)) :
    ((operatorGt (fun i => Scalar.num (a i)) (fun i => Scalar.num (b i)) = true ↔
          ∀ i, a i > b i) ∧
        (operatorLt (fun i => Scalar.num (a i)) (fun i => Scalar.num (b i)) = true ↔
          ∀ i, a i < b i) ∧
        (operatorGe (fun i => Scalar.num (a i)) (fun i => Scalar.num (b i)) = true ↔
          ∀ i, a i ≥ b i) ∧
        (operatorLe (fun i => Scalar.num (a i)) (fun i => Scalar.num (b i)) = true ↔
          ∀ i, a i ≤ b i) ∧
        (operatorEq a b = true ↔ ∀ i, a i = b i)) ∧
      ((operatorGt A B = true ↔ ∀ i, Scalar.le (A i) (B i) = false) ∧
        (operatorLt A B = true ↔ ∀ i, Scalar.ge (A i) (B i) = false) ∧
        (operatorGe A B = true ↔ ∀ i, Scalar.lt (A i) (B i) = false) ∧
        (operatorLe A B = true ↔ ∀ i, Scalar.gt (A i) (B i) = false)) := by
  refine ⟨⟨?_, ?_, ?_, ?_, ?_⟩, operatorGt_iff A B, operatorLt_iff A B, operatorGe_iff A B,
    operatorLe_iff A B⟩
  · rw [operatorGt_iff]
    exact forall_congr' fun i => by simp [Scalar.le]
  · rw [operatorLt_iff]
    exact forall_congr' fun i => by simp [Scalar.ge]
  · rw [operatorGe_iff]
    exact forall_congr' fun i => by simp [Scalar.lt]
  · rw [operatorLe_iff]
    exact forall_congr' fun i => by simp [Scalar.gt]
  · unfold operatorEq
    rw [checkAll_finRange]
    exact forall_congr' fun i => by simp

theorem operatorNe_iff {N M : Nat} (A B : Storage N M T) :
    operatorNe A B = true ↔ ∀ i, A i ≠ B i := by
  unfold operatorNe
  rw [checkAll_finRange]
  exact forall_congr' fun i => by simp

theorem operatorEq_iff {N M : Nat} (A B : Storage N M T) :
    operatorEq A B = true ↔ ∀ i, A i = B i := by
  unfold operatorEq
  rw [checkAll_finRange]
  exact forall_congr' fun i => by simp

/-- C22: for all same-shape matrices `A` and `B`, `A != B` is true exactly
when every component of `A` differs from the matching component of `B`, so
it is not the negation of `A == B`: for every shape with at least two
elements there are `A` and `B` with both `A == B` and `A != B` false, and
`A = (1,2)`, `B = (1,3)` is such a pair. -/
theorem operatorNe_all_components (N M : Nat) (h2 : 2 ≤ N * M) (A B : Storage N M T) :
    (operatorNe A B = true ↔ ∀ i, A i ≠ B i) ∧
      (∃ A' B' : Storage N M T, operatorEq A' B' = false ∧ operatorNe A' B' = false) ∧
      (@operatorEq T _ 2 1 (![1, 2] : Fin 2 → T) (![1, 3] : Fin 2 → T) = false ∧
        @operatorNe T _ 2 1 (![1, 2] : Fin 2 → T) (![1, 3] : Fin 2 → T) = false) := by
  refine ⟨operatorNe_iff A B, ⟨fun _ => 1, fun i => if i.val = 0 then 1 else 3, ?_, ?_⟩, ?_, ?_⟩
  · rw [← Bool.not_eq_true, operatorEq_iff]
    intro h
    have h1 := h ⟨1, by omega⟩
    norm_num at h1
  · rw [← Bool.not_eq_true, operatorNe_iff]
    intro h
    exact h ⟨0, by omega⟩ (by simp)
  · rw [← Bool.not_eq_true, operatorEq_iff]
    intro h
    have h1 := h ⟨1, by decide⟩
    norm_num at h1
  · rw [← Bool.not_eq_true, operatorNe_iff]
    intro h
    exact h ⟨0, by decide⟩ rfl

/-- Witness for C22 at the shape 2 x 1 over the rationals. -/
theorem operatorNe_all_components_witness :
    2 ≤ 2 * 1 ∧
      ((@operatorNe ℚ _ 2 1 (![1, 2] : Fin 2 → ℚ) (![1, 3] : Fin 2 → ℚ) = true ↔
          ∀ i : Fin (2 * 1), (![1, 2] : Fin 2 → ℚ) i ≠ (![1, 3] : Fin 2 → ℚ) i) ∧
        (∃ A' B' : Storage 2 1 ℚ, operatorEq A' B' = false ∧ operatorNe A' B' = false) ∧
        (@operatorEq ℚ _ 2 1 (![1, 2] : Fin 2 → ℚ) (![1, 3] : Fin 2 → ℚ) = false ∧
          @operatorNe ℚ _ 2 1 (![1, 2] : Fin 2 → ℚ) (![1, 3] : Fin 2 → ℚ) = false)) :=
  ⟨by decide, operatorNe_all_components 2 1 (by decide) (![1, 2] : Fin 2 → ℚ)
    (![1, 3] : Fin 2 → ℚ)⟩

/-! ## Claims on the componentwise arithmetic -/

theorem foldl_update_set {ι : Type} [DecidableEq ι] (f : ι → T) (l : List ι) (s : ι → T)
    (k : ι) :
    l.foldl (fun s i => Function.update s i (f i)) s k = if k ∈ l then f k else s k := by
  induction l generalizing s with
  | nil => simp
  | cons x l ih =>
    rw [List.foldl_cons, ih]
    by_cases hkl : k ∈ l
    · simp [hkl]
    · by_cases hkx : k = x
      · subst hkx
        simp [hkl]
      · simp [hkl, hkx, Function.update_noteq hkx]

/-- A loop that assigns `f i` to every cell leaves `f`, whatever the local
held before. -/
theorem fillLoop_eq {n : Nat} (f mTemp : Fin n → T) : fillLoop f mTemp = f := by
  funext k
  unfold fillLoop
  rw [foldl_update_set, if_pos (List.mem_finRange k)]

theorem flatten_zero_two (X : Matrix (Fin 2) (Fin 2) T) :
    flatten X ⟨0, by decide⟩ = X 0 0 := rfl

/-- C23: for all same-shape matrices `A` and `B`, square ones included, and
every linear index `i`, the binary operators are componentwise:
`(A + B)[i] = A[i] + B[i]`, `(A - B)[i] = A[i] - B[i]`,
`(A * B)[i] = A[i] * B[i]`, `(A / B)[i] = A[i] / B[i]` and `(-A)[i] = -A[i]`;
on 2 x 2 matrices of ones `A * B` is not the product of `MatrixMultiply`. -/
theorem arithmetic_componentwise (N M : Nat) (A B mTemp : Storage N M T) (i : Fin (N * M))
    (mTemp2 : Storage 2 2 T) :
    operatorAdd A B mTemp i = A i + B i ∧
      operatorSub A B mTemp i = A i - B i ∧
      operatorMul A B mTemp i = A i * B i ∧
      operatorDiv A B mTemp i = A i / B i ∧
      operatorNeg A mTemp i = -A i ∧
      operatorMul (flatten (fun _ _ => 1 : Matrix (Fin 2) (Fin 2) T))
          (flatten (fun _ _ => 1 : Matrix (Fin 2) (Fin 2) T)) mTemp2 ≠
        flatten (MatrixMultiply (fun _ _ => 1 : Matrix (Fin 2) (Fin 2) T)
          (fun _ _ => 1 : Matrix (Fin 2) (Fin 2) T)) := by
  refine ⟨congrFun (fillLoop_eq _ _) i, congrFun (fillLoop_eq _ _) i,
    congrFun (fillLoop_eq _ _) i, congrFun (fillLoop_eq _ _) i, congrFun (fillLoop_eq _ _) i,
    fun h => ?_⟩
  unfold operatorMul at h
  rw [fillLoop_eq] at h
  have h0 := congrFun h ⟨0, by decide⟩
  rw [MatrixMultiply_eq_mul] at h0
  simp only [flatten_zero_two, Matrix.mul_apply, Fin.sum_univ_two] at h0
  norm_num at h0

/-! ## Claims on row-major access, `SetIdentity` and `MatrixIsIdentity` -/

theorem accessIndex_lt {N M r c : Nat} (hr : r < N) (hc : c < M) :
    accessIndex M r c < N * M := by
  unfold accessIndex
  calc r * M + c < r * M + M := Nat.add_lt_add_left hc _
    _ = (r + 1) * M := (Nat.succ_mul r M).symm
    _ ≤ N * M := Nat.mul_le_mul_right M hr

theorem accessIndex_div {M r c : Nat} (hc : c < M) : accessIndex M r c / M = r := by
  unfold accessIndex
  rw [Nat.mul_comm, Nat.mul_add_div (Nat.lt_of_le_of_lt (Nat.zero_le c) hc),
    Nat.div_eq_of_lt hc, Nat.add_zero]

theorem accessIndex_mod {M r c : Nat} (hc : c < M) : accessIndex M r c % M = c := by
  unfold accessIndex
  rw [Nat.mul_comm, Nat.mul_add_mod, Nat.mod_eq_of_lt hc]

/-- The storage of a matrix given by its cells holds the cell `(r, c)` at the
linear index `r*M+c`. -/
theorem flatten_accessIndex {N M : Nat} (m : Matrix (Fin N) (Fin M) T) (r : Fin N) (c : Fin M)
    (h : accessIndex M r.val c.val < N * M) :
    flatten m ⟨accessIndex M r.val c.val, h⟩ = m r c := by
  unfold flatten
  congr 1
  · exact Fin.ext (accessIndex_div c.isLt)
  · exact Fin.ext (accessIndex_mod c.isLt)

/-- C29: for every non-vector `N x M` matrix, every row `r < N` and column
`c < M`, the 2-D access `(r, c)` addresses the linear element `r*M + c`, that
index is below `N*M`, the access reads that element, and two in-range pairs
with the same linear index are the same pair. -/
theorem access_row_major (N M : Nat) (_hM : M ≠ 1) (r c : Nat) (hr : r < N) (hc : c < M)
    (p : Storage N M T) :
    accessIndex M r c = r * M + c ∧
      accessIndex M r c < N * M ∧
      (∃ h : r * M + c < N * M, Storage.access p r c = some (p ⟨r * M + c, h⟩)) ∧
      ∀ r' c', r' < N → c' < M → accessIndex M r c = accessIndex M r' c' →
        r = r' ∧ c = c' := by
  refine ⟨rfl, accessIndex_lt hr hc, ⟨accessIndex_lt hr hc, ?_⟩, ?_⟩
  · unfold Storage.access
    rw [if_pos ⟨hr, hc⟩, dif_pos (accessIndex_lt hr hc)]
    rfl
  · intro r' c' _ hc' h
    have d1 : accessIndex M r c / M = r := accessIndex_div hc
    have d2 : accessIndex M r' c' / M = r' := accessIndex_div hc'
    have m1 : accessIndex M r c % M = c := accessIndex_mod hc
    have m2 : accessIndex M r' c' % M = c' := accessIndex_mod hc'
    rw [h] at d1 m1
    exact ⟨d1.symm.trans d2, m1.symm.trans m2⟩

/-- Witness for C29 at the cell `(1, 2)` of a rational 2 x 3 matrix. -/
theorem access_row_major_witness :
    (3 ≠ 1 ∧ 1 < 2 ∧ 2 < 3) ∧
      accessIndex 3 1 2 = 1 * 3 + 2 ∧
      accessIndex 3 1 2 < 2 * 3 ∧
      (∃ h : 1 * 3 + 2 < 2 * 3,
        Storage.access (fun _ => 0 : Storage 2 3 ℚ) 1 2 =
          some ((fun _ => 0 : Storage 2 3 ℚ) ⟨1 * 3 + 2, h⟩)) ∧
      ∀ r' c', r' < 2 → c' < 3 → accessIndex 3 1 2 = accessIndex 3 r' c' →
        1 = r' ∧ 2 = c' :=
  ⟨by decide, access_row_major 2 3 (by decide) 1 2 (by decide) (by decide) _⟩

theorem linearGet_cell {N : Nat} (m : Matrix (Fin N) (Fin N) T) (i j : Fin N) :
    linearGet m (i.val * N + j.val) = some (m i j) := by
  have h : accessIndex N i.val j.val < N * N := accessIndex_lt i.isLt j.isLt
  have h' : i.val * N + j.val < N * N := h
  unfold linearGet Storage.index
  rw [dif_pos h']
  exact congrArg some (flatten_accessIndex m i j h)

theorem identityRow_spec {N : Nat} (m : Matrix (Fin N) (Fin N) T) (i : Fin N)
    (l : List (Fin N)) :
    identityRow N m i l = some (decide (∀ j ∈ l, m i j = if i = j then 1 else 0)) := by
  induction l with
  | nil => simp [identityRow]
  | cons j l ih =>
    unfold identityRow
    rw [linearGet_cell]
    simp only [ih, List.mem_cons, forall_eq_or_imp]
    by_cases hij : i = j
    · subst hij
      by_cases h1 : m i i = 1
      · simp [h1]
      · simp [h1]
    · by_cases h0 : m i j = 0
      · simp [hij, h0]
      · simp [hij, h0]

theorem identityRows_spec {N : Nat} (m : Matrix (Fin N) (Fin N) T) (l : List (Fin N)) :
    identityRows N m l =
      some (decide (∀ i ∈ l, ∀ j, m i j = if i = j then 1 else 0)) := by
  induction l with
  | nil => simp [identityRows]
  | cons i l ih =>
    unfold identityRows
    rw [identityRow_spec]
    by_cases hrow : ∀ j, m i j = if i = j then 1 else 0
    · have hd : decide (∀ j ∈ List.finRange N, m i j = if i = j then 1 else 0) = true :=
        decide_eq_true fun j _ => hrow j
      rw [hd]
      show identityRows N m l = _
      rw [ih]
      congr 1
      by_cases hall : ∀ a ∈ l, ∀ j, m a j = if a = j then 1 else 0
      · rw [decide_eq_true hall, decide_eq_true]
        intro a ha j
        rcases List.mem_cons.mp ha with h | h
        · rw [h]; exact hrow j
        · exact hall a h j
      · rw [decide_eq_false hall, decide_eq_false]
        exact fun h => hall fun a ha => h a (List.mem_cons_of_mem _ ha)
    · have hd : decide (∀ j ∈ List.finRange N, m i j = if i = j then 1 else 0) = false :=
        decide_eq_false fun h => hrow fun j => h j (List.mem_finRange j)
      rw [hd]
      show some false = _
      rw [decide_eq_false]
      exact fun h => hrow (h i (List.mem_cons_self _ _))

/-- With `M` equal to the column count `N`, `MatrixIsIdentity` decides
whether every cell matches the identity matrix. -/
theorem MatrixIsIdentity_eq {N : Nat} (m : Matrix (Fin N) (Fin N) T) :
    MatrixIsIdentity N m = some (decide (∀ i j, m i j = if i = j then 1 else 0)) := by
  unfold MatrixIsIdentity
  rw [identityRows_spec]
  congr 2
  exact propext ⟨fun h i j => h i (List.mem_finRange i) j, fun h i _ j => h i j⟩

theorem foldl_setElem_set {N M : Nat} (G : Fin M → T) (i : Fin N) (l : List (Fin M))
    (s : Matrix (Fin N) (Fin M) T) (r : Fin N) (c : Fin M) :
    l.foldl (fun s j => setElem s i j (G j)) s r c =
      if r = i ∧ c ∈ l then G c else s r c := by
  induction l generalizing s with
  | nil => simp
  | cons x l ih =>
    rw [List.foldl_cons, ih]
    simp only [setElem_apply, List.mem_cons]
    by_cases hr : r = i
    · by_cases hcl : c ∈ l
      · simp [hr, hcl]
      · by_cases hc : c = x
        · simp [hr, hc]
        · simp [hr, hc, hcl]
    · simp [hr]

theorem foldl_rows_set {N M : Nat} (G : Fin N → Fin M → T) (l : List (Fin N))
    (s : Matrix (Fin N) (Fin M) T) (r : Fin N) (c : Fin M) :
    l.foldl (fun s i => fun r c => if r = i then G i c else s r c) s r c =
      if r ∈ l then G r c else s r c := by
  induction l generalizing s with
  | nil => simp
  | cons x l ih =>
    rw [List.foldl_cons, ih]
    simp only [List.mem_cons]
    by_cases hrl : r ∈ l
    · simp [hrl]
    · by_cases hr : r = x
      · subst hr
        simp [hrl]
      · simp [hr, hrl]

/-- The loops of `SetIdentity` leave the identity matrix, whatever the matrix
held before. -/
theorem SetIdentity_loop_eq {N : Nat} (m : Matrix (Fin N) (Fin N) T) :
    SetIdentity.loop m = SetIdentity := by
  unfold SetIdentity.loop
  have hrow : (fun (m : Matrix (Fin N) (Fin N) T) (i : Fin N) =>
      (List.finRange N).foldl (fun m j =>
        if i = j then setElem m i j 1 else setElem m i j 0) m) =
      fun m i => fun r c => if r = i then (if i = c then (1 : T) else 0) else m r c := by
    funext m i r c
    have hinner : (fun (m : Matrix (Fin N) (Fin N) T) (j : Fin N) =>
        if i = j then setElem m i j 1 else setElem m i j 0) =
        fun m j => setElem m i j (if i = j then (1 : T) else 0) := by
      funext m j
      split_ifs <;> rfl
    rw [hinner, foldl_setElem_set (fun j => if i = j then (1 : T) else 0) i]
    simp [List.mem_finRange]
  rw [hrow]
  funext r c
  refine (foldl_rows_set (fun i c => if i = c then (1 : T) else 0) (List.finRange N) m
    r c).trans ?_
  rw [if_pos (List.mem_finRange r)]
  rfl

/-- C24: on every square `N x N` matrix the loops of `SetIdentity` leave entry
`(i,j)` equal to one when `i = j` and zero otherwise. `MatrixIsIdentity` reads
`m[i*M+j]` with a stride `M` that its template does not declare: with the
stride `N` it returns `true` exactly on the matrices with ones on the diagonal
and zeros elsewhere, but the body gives no such result by itself, since on
2 x 2 matrices the stride `3` returns `false` on the identity, the stride `1`
returns `true` on `[[1,0],[1,7]]`, and the stride `4` reads outside the
storage. -/
theorem MatrixIsIdentity_stride (N : Nat) (m : Matrix (Fin N) (Fin N) T) :
    (∀ i j, SetIdentity.loop m i j = if i = j then 1 else 0) ∧
      (MatrixIsIdentity N m = some true ↔ ∀ i j, m i j = if i = j then 1 else 0) ∧
      MatrixIsIdentity N (SetIdentity.loop m) = some true ∧
      MatrixIsIdentity 3 (SetIdentity : Matrix (Fin 2) (Fin 2) T) = some false ∧
      MatrixIsIdentity 1 (!![1, 0; 1, 7] : Matrix (Fin 2) (Fin 2) T) = some true ∧
      MatrixIsIdentity 4 (SetIdentity : Matrix (Fin 2) (Fin 2) T) = none := by
  have hid : ∀ i j, (SetIdentity : Matrix (Fin N) (Fin N) T) i j = if i = j then 1 else 0 :=
    fun _ _ => rfl
  refine ⟨fun i j => by rw [SetIdentity_loop_eq]; rfl, ?_, ?_, ?_, ?_, ?_⟩
  · rw [MatrixIsIdentity_eq]
    simp
  · rw [SetIdentity_loop_eq, MatrixIsIdentity_eq]
    simp [hid]
  · simp [MatrixIsIdentity, identityRows, identityRow, linearGet, Storage.index, flatten,
      SetIdentity, List.finRange]
  · simp [MatrixIsIdentity, identityRows, identityRow, linearGet, Storage.index, flatten,
      List.finRange]
  · simp [MatrixIsIdentity, identityRows, identityRow, linearGet, Storage.index, flatten,
      SetIdentity, List.finRange]

/-! ## Claims on `VectorReflect` -/

/-- C26: for all `N`-vectors `incident` and `normal`, `VectorReflect` returns
`out` with `out[i] = incident[i] - normal[i] * (2 * Dot(incident, normal))`
for every `i`. -/
theorem VectorReflect_apply (N : Nat) (vIncident vNormal : Vec N T) (i : Fin N) :
    VectorReflect vIncident vNormal i =
      vIncident i - vNormal i * (2 * VectorDot vIncident vNormal) := by
  show vIncident i - vNormal i * (VectorDot vIncident vNormal * 2) = _
  rw [mul_comm (VectorDot vIncident vNormal) 2]

/-! ## Claims on `Transpose` -/

theorem swapCells_apply {N : Nat} (m : Matrix (Fin N) (Fin N) T) (i j a b : Fin N) :
    swapCells m i j a b =
      if a = j ∧ b = i then m i j else if a = i ∧ b = j then m j i else m a b := rfl

/-- The inner loop of `Transpose` for row `i` over distinct columns other
than `i` exchanges the cells `(i, j)` and `(j, i)` for the visited `j`. -/
theorem foldl_swapCells_row {N : Nat} (i : Fin N) (l : List (Fin N)) (hl : l.Nodup)
    (hi : i ∉ l) (m : Matrix (Fin N) (Fin N) T) (a b : Fin N) :
    l.foldl (fun m j => swapCells m i j) m a b =
      if (a = i ∧ b ∈ l) ∨ (b = i ∧ a ∈ l) then m b a else m a b := by
  induction l generalizing m with
  | nil => simp
  | cons x l ih =>
    have hx : x ∉ l := (List.nodup_cons.mp hl).1
    have hix : i ≠ x := fun h => hi (h ▸ List.mem_cons_self _ _)
    have hil : i ∉ l := fun h => hi (List.mem_cons_of_mem _ h)
    rw [List.foldl_cons, ih (List.nodup_cons.mp hl).2 hil]
    simp only [swapCells_apply, List.mem_cons]
    by_cases hai : a = i
    · subst hai
      by_cases hbl : b ∈ l
      · have hbx : b ≠ x := fun h => hx (h ▸ hbl)
        have hba : b ≠ a := fun h => hil (h ▸ hbl)
        simp [hbl, hbx, hba, hix]
      · by_cases hbx : b = x
        · subst hbx
          simp [hbl, hil, hix, Ne.symm hix]
        · by_cases hba : b = a
          · subst hba
            simp [hil, hix]
          · simp [hbl, hbx, hba, hil, hix, Ne.symm hix]
    · by_cases hbi : b = i
      · subst hbi
        by_cases hal : a ∈ l
        · have hax : a ≠ x := fun h => hx (h ▸ hal)
          simp [hal, hax, hai, hix, hil]
        · by_cases hax : a = x
          · subst hax
            simp [hal, hil, hai]
          · simp [hal, hax, hai, hil, hix]
      · simp [hai, hbi]

/-- The outer loop of `Transpose` over distinct rows exchanges the cells
`(a, b)` and `(b, a)` exactly when the smaller index is a visited row. -/
theorem foldl_swapCells_rows {N : Nat} (l : List (Fin N)) (hl : l.Nodup)
    (m : Matrix (Fin N) (Fin N) T) (a b : Fin N) :
    l.foldl (fun m i =>
        ((List.finRange N).filter (fun j => i < j)).foldl (fun m j => swapCells m i j) m) m a b =
      if (a ∈ l ∧ a < b) ∨ (b ∈ l ∧ b < a) then m b a else m a b := by
  have hrow : ∀ (i : Fin N) (m : Matrix (Fin N) (Fin N) T) (a b : Fin N),
      ((List.finRange N).filter (fun j => i < j)).foldl (fun m j => swapCells m i j) m a b =
        if (a = i ∧ i < b) ∨ (b = i ∧ i < a) then m b a else m a b := by
    intro i m a b
    rw [foldl_swapCells_row i _ ((List.nodup_finRange N).filter _)
      (fun h => lt_irrefl i (by simpa using (List.mem_filter.mp h).2))]
    simp [List.mem_filter, List.mem_finRange]
  induction l generalizing m with
  | nil => simp
  | cons i l ih =>
    have hi : i ∉ l := (List.nodup_cons.mp hl).1
    rw [List.foldl_cons, ih (List.nodup_cons.mp hl).2]
    simp only [hrow, List.mem_cons]
    by_cases hab : a < b
    · have hba : ¬ b < a := not_lt.mpr (le_of_lt hab)
      have hiba : ∀ k : Fin N, ¬ (b = k ∧ k < a) := fun k h => hba (h.1 ▸ h.2)
      by_cases hal : a ∈ l
      · have hai : a ≠ i := fun h => hi (h ▸ hal)
        simp [hab, hba, hal, hai, hiba]
      · by_cases hai : a = i
        · subst hai
          simp [hab, hba, hal, hiba]
        · simp [hab, hba, hal, hai, hiba]
    · have hiab : ∀ k : Fin N, ¬ (a = k ∧ k < b) := fun k h => hab (h.1 ▸ h.2)
      by_cases hba : b < a
      · by_cases hbl : b ∈ l
        · have hbi : b ≠ i := fun h => hi (h ▸ hbl)
          simp [hab, hba, hbl, hbi, hiab]
        · by_cases hbi : b = i
          · subst hbi
            simp [hab, hba, hbl, hiab]
          · simp [hab, hba, hbl, hbi, hiab]
      · have hiba : ∀ k : Fin N, ¬ (b = k ∧ k < a) := fun k h => hba (h.1 ▸ h.2)
        simp [hab, hba, hiab, hiba]

/-- C25: for every square `N x N` matrix `m`, after `Transpose` the element
at `(i, j)` equals the original element at `(j, i)` for all `i`, `j`; the
diagonal entries are unchanged. -/
theorem Transpose_apply (N : Nat) (m : Matrix (Fin N) (Fin N) T) (i j : Fin N) :
    Transpose m i j = m j i := by
  have key := foldl_swapCells_rows (List.finRange N) (List.nodup_finRange N) m i j
  have hT : Transpose m = (List.finRange N).foldl (fun m i =>
      ((List.finRange N).filter (fun j => i < j)).foldl (fun m j => swapCells m i j) m) m := rfl
  rw [hT, key]
  by_cases h : i < j ∨ j < i
  · simp [List.mem_finRange, h]
  · have hij : i = j := le_antisymm (not_lt.mp fun hlt => h (Or.inr hlt))
      (not_lt.mp fun hlt => h (Or.inl hlt))
    simp [List.mem_finRange, hij]

/-! ## Claims on the pivot search -/

/-- Invariant rule for a loop over `L` where each pass may use its place in
`L`. -/
theorem foldl_invariant_split {σ α : Type} (f : σ → α → σ) (L : List α)
    (P : List α → σ → Prop)
    (hstep : ∀ pre x rest s, pre ++ x :: rest = L → P pre s → P (pre ++ [x]) (f s x)) :
    ∀ (l pre : List α) (s : σ), pre ++ l = L → P pre s → P L (l.foldl f s)
  | [], pre, s, hL, h => by
    rw [← hL]
    simpa using h
  | x :: l, pre, s, hL, h =>
    foldl_invariant_split f L P hstep l (pre ++ [x]) (f s x) (by simpa using hL)
      (hstep pre x l s hL h)

/-- The pivot search keeps the first row that attains the maximum: every
row from `j` up to the returned row has a smaller absolute value. -/
theorem findPivot_lowest {N : Nat} (col : Vec N T) (j : Fin N) (r : Fin N) (hjr : j ≤ r)
    (hr : r < (findPivot col j).2) : |col r| < (findPivot col j).1 := by
  have hsorted : ((List.finRange N).filter (fun iRow => j ≤ iRow)).Pairwise (· < ·) :=
    (List.pairwise_lt_finRange N).filter _
  have key := foldl_invariant_split (pivotStep col)
    ((List.finRange N).filter (fun iRow => j ≤ iRow))
    (fun pre st => (st.2 = j ∨ st.2 ∈ pre) ∧ (∀ r ∈ pre, |col r| ≤ st.1) ∧
      ∀ r ∈ pre, r < st.2 → |col r| < st.1) ?_
    ((List.finRange N).filter (fun iRow => j ≤ iRow)) [] (col j, j) rfl
    ⟨Or.inl rfl, by simp, by simp⟩
  · exact key.2.2 r (by simp [List.mem_filter, List.mem_finRange, hjr]) hr
  · rintro pre x rest ⟨tMax, i⟩ hL ⟨h1, h2, h3⟩
    have hxL : x ∈ (List.finRange N).filter (fun iRow => j ≤ iRow) := by
      rw [← hL]; simp
    have hjx : j ≤ x := by simpa using (List.mem_filter.mp hxL).2
    have hpre : ∀ a ∈ pre, a < x := by
      rw [← hL, List.pairwise_append] at hsorted
      exact fun a ha => hsorted.2.2 a ha x (List.mem_cons_self _ _)
    simp only [pivotStep, TMath.Abs_eq]
    simp only at h1 h2 h3
    split_ifs with hgt
    · refine ⟨Or.inr (by simp), fun r hr => ?_, fun r hr hlt => ?_⟩
      · rcases List.mem_append.mp hr with h | h
        · exact le_trans (h2 r h) (le_of_lt hgt)
        · simp only [List.mem_singleton] at h
          rw [h]
      · rcases List.mem_append.mp hr with h | h
        · exact lt_of_le_of_lt (h2 r h) hgt
        · simp only [List.mem_singleton] at h
          exact absurd hlt (by rw [h]; exact lt_irrefl _)
    · refine ⟨?_, fun r hr => ?_, fun r hr hlt => ?_⟩
      · rcases h1 with h1 | h1
        · exact Or.inl h1
        · exact Or.inr (List.mem_append_left _ h1)
      · rcases List.mem_append.mp hr with h | h
        · exact h2 r h
        · simp only [List.mem_singleton] at h
          rw [h]
          exact not_lt.mp hgt
      · rcases List.mem_append.mp hr with h | h
        · exact h3 r h hlt
        · simp only [List.mem_singleton] at h
          exfalso
          rw [h] at hlt
          rcases h1 with h1 | h1
          · rw [h1] at hlt
            exact absurd hjx (not_le.mpr hlt)
          · exact absurd (hpre i h1) (not_lt.mpr (le_of_lt hlt))

/-- C30: in the elimination step `j` of `MatrixInvert` the pivot search over
rows `j..N-1` of column `j` of the working matrix ends with `tMax` equal to
the largest absolute value among those entries, whatever the sign of entry
`(j, j)`, and with `i` the lowest row in `[j, N)` that attains it. -/
theorem findPivot_max_lowest (N : Nat) (mResult : Matrix (Fin N) (Fin N) T) (j : Fin N) :
    j ≤ (findPivot (GetColumn mResult j) j).2 ∧
      (findPivot (GetColumn mResult j) j).1 =
        |mResult (findPivot (GetColumn mResult j) j).2 j| ∧
      (∀ r, j ≤ r → |mResult r j| ≤ (findPivot (GetColumn mResult j) j).1) ∧
      (∀ r, j ≤ r → |mResult r j| = (findPivot (GetColumn mResult j) j).1 →
        (findPivot (GetColumn mResult j) j).2 ≤ r) := by
  obtain ⟨h1, h2, h3⟩ := findPivot_spec (GetColumn mResult j) j
  refine ⟨h1, le_antisymm h2 (h3 _ h1), h3, fun r hjr heq => ?_⟩
  by_contra hlt
  have hlow := findPivot_lowest (GetColumn mResult j) j r hjr (not_le.mp hlt)
  exact absurd heq (ne_of_lt hlow)

/-! ## Claims on out-of-range accesses -/

/-- C27 (the code at failing inputs): on a 3 x 2 matrix `GetRow` and `SetRow`
run their loop to `i = 2` and fail the assertion of the access operator, and
`GetColumn`, `SetColumn` stop after two of the three rows; on a 2 x 3 matrix
`GetColumn` and `SetColumn` fail the assertion at `i = 2`, and `GetRow`,
`SetRow` stop after two of the three columns. -/
theorem row_column_transfer_nonsquare (m32 : Matrix (Fin 3) (Fin 2) T)
    (m23 : Matrix (Fin 2) (Fin 3) T) (v3 : Vec 3 T) (v2 : Vec 2 T) :
    Checked.GetRow m32 0 v3 = none ∧
      Checked.GetRow m23 0 v2 = some ![m23 0 0, m23 0 1] ∧
      Checked.GetColumn m23 0 v2 = none ∧
      Checked.GetColumn m32 0 v3 = some ![m32 0 0, m32 1 0, v3 2] ∧
      Checked.SetRow m32 0 v3 = none ∧
      Checked.SetRow m23 0 v2 = some (setElem (setElem m23 0 0 (v2 0)) 0 1 (v2 1)) ∧
      Checked.SetColumn m23 0 v3 = none ∧
      Checked.SetColumn m32 0 v2 = some (setElem (setElem m32 0 0 (v2 0)) 1 0 (v2 1)) := by
  have r3 : List.range 3 = [0, 1, 2] := rfl
  have r2 : List.range 2 = [0, 1] := rfl
  refine ⟨?_, ?_, ?_, ?_, ?_, ?_, ?_, ?_⟩
  · simp [Checked.GetRow, r3, getChecked, Vec.assign]
  · simp only [Checked.GetRow, r2, getChecked, Vec.assign, List.foldlM, bind, Option.bind]
    refine congrArg some ?_
    funext i
    fin_cases i <;> rfl
  · simp [Checked.GetColumn, r3, getChecked, Vec.assign]
  · simp only [Checked.GetColumn, r2, getChecked, Vec.assign, List.foldlM, bind, Option.bind]
    refine congrArg some ?_
    funext i
    fin_cases i <;> rfl
  · simp [Checked.SetRow, r3, setChecked, Vec.index]
  · simp only [Checked.SetRow, r2, setChecked, Vec.index, List.foldlM, bind, Option.bind]
    rfl
  · simp [Checked.SetColumn, r3, setChecked, Vec.index]
  · simp only [Checked.SetColumn, r2, setChecked, Vec.index, List.foldlM, bind, Option.bind]
    rfl

/-- C28 (the code at the failing input): in 3 x 3 form both
`CreateViewMatrix`, whose static check `N > 2` admits `N = 3`, and
`CreatePerspectiveMatrix`, which has no static check, reach the assignment to
cell `(0, 3)`, where the assertion `iColumn < M` of the access operator
fails. -/
theorem view_perspective_three_fail (Sqrt Tan : T → T) (mOut : Matrix (Fin 3) (Fin 3) T)
    (vPosition vLook vUp : Vec 3 T) (fFOVY fAspectRatio fNearClip fFarClip : T) :
    CreateViewMatrix 3 (by decide) Sqrt mOut vPosition vLook vUp = none ∧
      CreatePerspectiveMatrix 3 Tan mOut fFOVY fAspectRatio fNearClip fFarClip = none := by
  constructor
  · unfold CreateViewMatrix assignAll
    simp [List.foldlM, setChecked]
  · unfold CreatePerspectiveMatrix assignAll
    simp [List.foldlM, setChecked]

/-! ## Claims on the elementary row operations -/

/-- C31: on every square `N x N` matrix and for all valid row indices, the row
reference `GetRowRef(r)` reads the storage cells `r*N, ..., r*N+N-1`, that is
row `r`; `SwapRows(a, b)` exchanges rows `a` and `b`, `ScaleRow(r, s)`
multiplies row `r` by `s`, and `AddScaledRow(src, s, dst)` replaces row `dst`
by row `dst` plus `s` times row `src`, both rows read before the write; each
of the three leaves every other row unchanged. -/
theorem row_operations_frame (N : Nat) (m : Matrix (Fin N) (Fin N) T) (a b : Fin N) (s : T) :
    (∀ c : Fin N, ∃ h : a.val * N + c.val < N * N,
        GetRowRef m a c = flatten m ⟨a.val * N + c.val, h⟩) ∧
      (∀ r c, SwapRows m a b r c = if r = a then m b c else if r = b then m a c else m r c) ∧
      (∀ r c, ScaleRow m a s r c = if r = a then s * m a c else m r c) ∧
      (∀ r c, AddScaledRow m a s b r c = if r = b then m b c + s * m a c else m r c) := by
  refine ⟨fun c => ⟨accessIndex_lt a.isLt c.isLt, ?_⟩, fun r c => ?_, fun r c => ?_,
    fun r c => ?_⟩
  · exact (flatten_accessIndex m a c (accessIndex_lt a.isLt c.isLt)).symm
  · simp only [SwapRows, SetRow, GetRowRef]
    by_cases hrb : r = b
    · subst hrb
      by_cases hra : r = a
      · subst hra
        simp only [if_true]
      · simp only [if_true, if_neg hra]
    · simp only [if_neg hrb]
  · simp only [ScaleRow, SetRow, GetRowRef]
    split_ifs
    · exact mul_comm _ _
    · rfl
  · simp only [AddScaledRow, SetRow, GetRowRef]
    split_ifs
    · ring
    · rfl

/-! ## Further claims on `MatrixInvert` -/

/-- C32: for every `N x N` matrix `m` with non-zero determinant, over an exact
field, `MatrixInvert(m)` returns `true` with a matrix `inv`,
`MatrixInvert(inv)` returns `true` with `m` again, and `inv` is a two-sided
inverse: `MatrixMultiply(inv, m)` and `MatrixMultiply(m, inv)` are both the
identity. -/
theorem MatrixInvert_involution (N : Nat) (m mOut mOut2 : Matrix (Fin N) (Fin N) T)
    (hdet : m.det ≠ 0) :
    (MatrixInvert m mOut).1 = true ∧
      MatrixInvert (MatrixInvert m mOut).2 mOut2 = (true, m) ∧
      MatrixMultiply (MatrixInvert m mOut).2 m = SetIdentity ∧
      MatrixMultiply m (MatrixInvert m mOut).2 = SetIdentity := by
  have hu : IsUnit m.det := isUnit_iff_ne_zero.mpr hdet
  have hdet2 : (m⁻¹).det ≠ 0 := by
    intro h0
    have h1 : (m⁻¹).det * m.det = 1 := by
      rw [← Matrix.det_mul, Matrix.nonsing_inv_mul m hu, Matrix.det_one]
    rw [h0, zero_mul] at h1
    exact zero_ne_one h1
  rw [MatrixInvert_of_det_ne_zero m mOut hdet]
  refine ⟨rfl, ?_, ?_, ?_⟩
  · rw [MatrixInvert_of_det_ne_zero _ mOut2 hdet2, Matrix.nonsing_inv_nonsing_inv m hu]
  · rw [MatrixMultiply_eq_mul, SetIdentity_eq_one]
    exact Matrix.nonsing_inv_mul m hu
  · rw [MatrixMultiply_eq_mul, SetIdentity_eq_one]
    exact Matrix.mul_nonsing_inv m hu

/-- Witness for C32 at the rational matrix `[[2,1],[1,1]]` of determinant one. -/
theorem MatrixInvert_involution_witness :
    (!![2, 1; 1, 1] : Matrix (Fin 2) (Fin 2) ℚ).det ≠ 0 ∧
      ((MatrixInvert (!![2, 1; 1, 1] : Matrix (Fin 2) (Fin 2) ℚ) 0).1 = true ∧
        MatrixInvert (MatrixInvert (!![2, 1; 1, 1] : Matrix (Fin 2) (Fin 2) ℚ) 0).2 0 =
          (true, !![2, 1; 1, 1]) ∧
        MatrixMultiply (MatrixInvert (!![2, 1; 1, 1] : Matrix (Fin 2) (Fin 2) ℚ) 0).2
          !![2, 1; 1, 1] = SetIdentity ∧
        MatrixMultiply (!![2, 1; 1, 1] : Matrix (Fin 2) (Fin 2) ℚ)
          (MatrixInvert (!![2, 1; 1, 1] : Matrix (Fin 2) (Fin 2) ℚ) 0).2 = SetIdentity) :=
  ⟨by norm_num [Matrix.det_fin_two],
    MatrixInvert_involution 2 _ 0 0 (by norm_num [Matrix.det_fin_two])⟩

theorem MatrixInvertCall_eq {N : Nat} (m mOut : Matrix (Fin N) (Fin N) T) :
    MatrixInvertCall (m, mOut) = ((MatrixInvert m mOut).1, (m, (MatrixInvert m mOut).2)) := by
  unfold MatrixInvertCall MatrixInvert
  cases invertLoop m <;> rfl

/-- C33: when `MatrixInvert(m, mOut)` returns `false`, the output matrix is
exactly the `mOut` that was passed, so that the caller's pair `(m, mOut)` is
as before the call; and whatever the outcome, the caller's `m` after the call
is the `m` before it. -/
theorem MatrixInvert_false_frame (N : Nat) (m mOut : Matrix (Fin N) (Fin N) T)
    (h : (MatrixInvert m mOut).1 = false) :
    (MatrixInvert m mOut).2 = mOut ∧
      MatrixInvertCall (m, mOut) = (false, (m, mOut)) ∧
      ∀ m1 mOut1 : Matrix (Fin N) (Fin N) T, (MatrixInvertCall (m1, mOut1)).2.1 = m1 := by
  have h2 : (MatrixInvert m mOut).2 = mOut := by
    unfold MatrixInvert at h ⊢
    cases hst : invertLoop m with
    | none => rfl
    | some st =>
      rw [hst] at h
      exact absurd h (by simp)
  refine ⟨h2, ?_, fun m1 mOut1 => ?_⟩
  · rw [MatrixInvertCall_eq, h, h2]
  · rw [MatrixInvertCall_eq]

/-- Witness for C33 at the singular rational matrix `[[1,2],[2,4]]` and the
output matrix `[[7,8],[9,10]]`. -/
theorem MatrixInvert_false_frame_witness :
    (MatrixInvert (!![1, 2; 2, 4] : Matrix (Fin 2) (Fin 2) ℚ) !![7, 8; 9, 10]).1 = false ∧
      ((MatrixInvert (!![1, 2; 2, 4] : Matrix (Fin 2) (Fin 2) ℚ) !![7, 8; 9, 10]).2 =
          !![7, 8; 9, 10] ∧
        MatrixInvertCall ((!![1, 2; 2, 4] : Matrix (Fin 2) (Fin 2) ℚ), !![7, 8; 9, 10]) =
          (false, (!![1, 2; 2, 4], !![7, 8; 9, 10])) ∧
        ∀ m1 mOut1 : Matrix (Fin 2) (Fin 2) ℚ, (MatrixInvertCall (m1, mOut1)).2.1 = m1) :=
  have h : (MatrixInvert (!![1, 2; 2, 4] : Matrix (Fin 2) (Fin 2) ℚ) !![7, 8; 9, 10]).1 =
      false := by
    rw [MatrixInvert_of_det_eq_zero _ _ (by norm_num [Matrix.det_fin_two])]
  ⟨h, MatrixInvert_false_frame 2 _ _ h⟩

/-! ## Further claims on `VectorMultiply` -/

/-- C34: for every `N`-vector `v` and all `N x N` matrices `A` and `B`, over an
exact field, `VectorMultiply(v, MatrixMultiply(A, B))` equals
`VectorMultiply(VectorMultiply(v, A), B)`. -/
theorem VectorMultiply_MatrixMultiply (N : Nat) (v : Vec N T) (A B : Matrix (Fin N) (Fin N) T) :
    VectorMultiply v (MatrixMultiply A B) = VectorMultiply (VectorMultiply v A) B := by
  rw [MatrixMultiply_eq_mul, VectorMultiply_eq_vecMul, VectorMultiply_eq_vecMul,
    VectorMultiply_eq_vecMul, Matrix.vecMul_vecMul]

theorem multiplyLoop_eq_homogeneousResult {N : Nat} (v : Vec N T)
    (m : Matrix (Fin (N + 1)) (Fin (N + 1)) T) :
    multiplyLoop (VectorAddDimention v) m = homogeneousResult v m := by
  funext i
  rw [multiplyLoop_apply, VectorAddDimention_eq_snoc]
  rfl

/-- The homogeneous `VectorMultiply` is the perspective divide of the value
accumulated by its loop: on the branch `vResult[N] == 1` the division is by
one. -/
theorem VectorMultiplyHomogeneous_eq_divide {N : Nat} (v : Vec N T)
    (m : Matrix (Fin (N + 1)) (Fin (N + 1)) T) :
    VectorMultiplyHomogeneous v m = perspectiveDivide (homogeneousResult v m) := by
  funext i
  unfold VectorMultiplyHomogeneous perspectiveDivide
  simp only [multiplyLoop_eq_homogeneousResult]
  split_ifs with h1
  · rw [h1, div_one]
  · exact mul_one_div _ _

/-- C35: for every `N`-vector `v` and `(N+1) x (N+1)` matrix `m` whose
homogeneous result `r` (the value accumulated by the loop) has `r[N] ≠ 0`, the
homogeneous `VectorMultiply` returns `r[i]/r[N]` for every `i < N`, whether
the branch for `r[N] == 1` is taken or not: it agrees with the transform that
always divides, and its output times `r[N]` gives back `r[i]`. -/
theorem VectorMultiplyHomogeneous_divide (N : Nat) (v : Vec N T)
    (m : Matrix (Fin (N + 1)) (Fin (N + 1)) T)
    (hr : homogeneousResult v m (Fin.last N) ≠ 0) :
    multiplyLoop (VectorAddDimention v) m = homogeneousResult v m ∧
      VectorMultiplyHomogeneous v m = perspectiveDivide (homogeneousResult v m) ∧
      ∀ i : Fin N,
        VectorMultiplyHomogeneous v m i =
          homogeneousResult v m i.castSucc / homogeneousResult v m (Fin.last N) ∧
        VectorMultiplyHomogeneous v m i * homogeneousResult v m (Fin.last N) =
          homogeneousResult v m i.castSucc := by
  have key := VectorMultiplyHomogeneous_eq_divide v m
  refine ⟨multiplyLoop_eq_homogeneousResult v m, key, fun i => ⟨congrFun key i, ?_⟩⟩
  rw [key]
  exact div_mul_cancel₀ _ hr

theorem homogeneousResult_four (v : Vec 3 T) (m : Matrix (Fin 4) (Fin 4) T) (i : Fin 4) :
    homogeneousResult v m i = m 0 i * v 0 + m 1 i * v 1 + m 2 i * v 2 + m 3 i := by
  unfold homogeneousResult
  rw [Fin.sum_univ_four]
  have h0 : (Fin.snoc v 1 : Fin 4 → T) 0 = v 0 := @Fin.snoc_castSucc 3 (fun _ => T) 1 v 0
  have h1 : (Fin.snoc v 1 : Fin 4 → T) 1 = v 1 := @Fin.snoc_castSucc 3 (fun _ => T) 1 v 1
  have h2 : (Fin.snoc v 1 : Fin 4 → T) 2 = v 2 := @Fin.snoc_castSucc 3 (fun _ => T) 1 v 2
  have h3 : (Fin.snoc v 1 : Fin 4 → T) 3 = 1 := @Fin.snoc_last 3 (fun _ => T) 1 v
  rw [h0, h1, h2, h3, mul_one]

/-- Witness for C35 at the rational vector `(1, 2, 3)` and the diagonal matrix
with diagonal `(1, 1, 1, 2)`, whose homogeneous result ends in `2`. -/
theorem VectorMultiplyHomogeneous_divide_witness :
    homogeneousResult (vec3 (1 : ℚ) 2 3) (Matrix.diagonal ![1, 1, 1, 2]) (Fin.last 3) ≠ 0 ∧
      (multiplyLoop (VectorAddDimention (vec3 (1 : ℚ) 2 3)) (Matrix.diagonal ![1, 1, 1, 2]) =
          homogeneousResult (vec3 (1 : ℚ) 2 3) (Matrix.diagonal ![1, 1, 1, 2]) ∧
        VectorMultiplyHomogeneous (vec3 (1 : ℚ) 2 3) (Matrix.diagonal ![1, 1, 1, 2]) =
          perspectiveDivide
            (homogeneousResult (vec3 (1 : ℚ) 2 3) (Matrix.diagonal ![1, 1, 1, 2])) ∧
        ∀ i : Fin 3,
          VectorMultiplyHomogeneous (vec3 (1 : ℚ) 2 3) (Matrix.diagonal ![1, 1, 1, 2]) i =
            homogeneousResult (vec3 (1 : ℚ) 2 3) (Matrix.diagonal ![1, 1, 1, 2]) i.castSucc /
              homogeneousResult (vec3 (1 : ℚ) 2 3) (Matrix.diagonal ![1, 1, 1, 2])
                (Fin.last 3) ∧
          VectorMultiplyHomogeneous (vec3 (1 : ℚ) 2 3) (Matrix.diagonal ![1, 1, 1, 2]) i *
              homogeneousResult (vec3 (1 : ℚ) 2 3) (Matrix.diagonal ![1, 1, 1, 2])
                (Fin.last 3) =
            homogeneousResult (vec3 (1 : ℚ) 2 3) (Matrix.diagonal ![1, 1, 1, 2])
              i.castSucc) :=
  have h : homogeneousResult (vec3 (1 : ℚ) 2 3) (Matrix.diagonal ![1, 1, 1, 2])
      (Fin.last 3) ≠ 0 := by
    rw [homogeneousResult_four]
    norm_num [Matrix.diagonal, vec3, Fin.last, Fin.ext_iff]
    rfl
  ⟨h, VectorMultiplyHomogeneous_divide 3 _ _ h⟩

/-! ## The arbitrary-axis builder on the coordinate axes -/

/-- C36 (amended): in exact arithmetic, over the reals with the real sine and
cosine, for every angle `θ` and in 3 x 3 form,
`CreateRotationMatrixAxis((1,0,0), θ)` equals `CreateRotationMatrixX(θ)`,
`CreateRotationMatrixAxis((0,1,0), θ)` equals `CreateRotationMatrixY(θ)` and
`CreateRotationMatrixAxis((0,0,1), θ)` equals `CreateRotationMatrixZ(θ)`,
entry by entry. -/
theorem CreateRotationMatrixAxis_coordinate_axes (θ : ℝ) :
    CreateRotationMatrixAxis 3 (by decide) Real.sin Real.cos (vec3 1 0 0) θ =
        CreateRotationMatrixX 3 (by decide) Real.sin Real.cos θ ∧
      CreateRotationMatrixAxis 3 (by decide) Real.sin Real.cos (vec3 0 1 0) θ =
        CreateRotationMatrixY 3 (by decide) Real.sin Real.cos θ ∧
      CreateRotationMatrixAxis 3 (by decide) Real.sin Real.cos (vec3 0 0 1) θ =
        CreateRotationMatrixZ 3 (by decide) Real.sin Real.cos θ := by
  rw [CreateRotationMatrixAxis_three, CreateRotationMatrixAxis_three,
    CreateRotationMatrixAxis_three, CreateRotationMatrixX_three, CreateRotationMatrixY_three,
    CreateRotationMatrixZ_three, Real.sin_neg, Real.cos_neg]
  refine ⟨?_, ?_, ?_⟩ <;>
  · funext i j
    fin_cases i <;> fin_cases j <;> simp [axisMatrix, vec3]

/-- C36 (counterexample): in `float` arithmetic at the angle `1.58f`
(`13254001 * 2^-23`), where `TMath::Cos(-1.58f)` is `-9882275 * 2^-30` and
`TMath::Sin(-1.58f)` is `-16776505 * 2^-24`, entry `(0,0)` of
`CreateRotationMatrixAxis((1,0,0), θ)` is `tCos + (1 - tCos)*1 = 1 - 2^-24`,
while `CreateRotationMatrixX(θ)` keeps the one of `SetIdentity`; the same
holds when the cosine is one unit in the last place away on either side. -/
theorem CreateRotationMatrixAxis_float_differs :
    (CreateRotationMatrixAxis 3 (by decide) (fun _ => (⟨-16776505 * 2 ^ 125⟩ : Binary32))
          (fun _ => (⟨-9882275 * 2 ^ 119⟩ : Binary32)) (vec3 1 0 0) ⟨13254001 * 2 ^ 126⟩ 0 0 =
        ⟨2 ^ 149 - 2 ^ 125⟩ ∧
      CreateRotationMatrixX 3 (by decide) (fun _ => (⟨-16776505 * 2 ^ 125⟩ : Binary32))
          (fun _ => (⟨-9882275 * 2 ^ 119⟩ : Binary32)) ⟨13254001 * 2 ^ 126⟩ 0 0 = ⟨2 ^ 149⟩ ∧
      CreateRotationMatrixAxis 3 (by decide) (fun _ => (⟨-16776505 * 2 ^ 125⟩ : Binary32))
          (fun _ => (⟨-9882275 * 2 ^ 119⟩ : Binary32)) (vec3 1 0 0) ⟨13254001 * 2 ^ 126⟩ ≠
        CreateRotationMatrixX 3 (by decide) (fun _ => (⟨-16776505 * 2 ^ 125⟩ : Binary32))
          (fun _ => (⟨-9882275 * 2 ^ 119⟩ : Binary32)) ⟨13254001 * 2 ^ 126⟩) ∧
      ∀ (Sin Cos : Binary32 → Binary32) (θ : Binary32),
        Cos (-θ) = ⟨-9882276 * 2 ^ 119⟩ ∨ Cos (-θ) = ⟨-9882275 * 2 ^ 119⟩ ∨
            Cos (-θ) = ⟨-9882274 * 2 ^ 119⟩ →
          CreateRotationMatrixAxis 3 (by decide) Sin Cos (vec3 1 0 0) θ 0 0 =
              ⟨2 ^ 149 - 2 ^ 125⟩ ∧
            CreateRotationMatrixX 3 (by decide) Sin Cos θ 0 0 = ⟨2 ^ 149⟩ := by
  have haxis : ∀ (Sin Cos : Binary32 → Binary32) (θ : Binary32),
      CreateRotationMatrixAxis 3 (by decide) Sin Cos (vec3 1 0 0) θ 0 0 =
        Cos (-θ) + (1 - Cos (-θ)) * TMath.Sqr (1 : Binary32) := fun _ _ _ => rfl
  have hx : ∀ (Sin Cos : Binary32 → Binary32) (θ : Binary32),
      CreateRotationMatrixX 3 (by decide) Sin Cos θ 0 0 = ⟨2 ^ 149⟩ := fun _ _ _ => rfl
  have e1 : (⟨-9882276 * 2 ^ 119⟩ : Binary32) +
      (1 - ⟨-9882276 * 2 ^ 119⟩) * TMath.Sqr (1 : Binary32) = ⟨2 ^ 149 - 2 ^ 125⟩ := by
    decide!
  have e2 : (⟨-9882275 * 2 ^ 119⟩ : Binary32) +
      (1 - ⟨-9882275 * 2 ^ 119⟩) * TMath.Sqr (1 : Binary32) = ⟨2 ^ 149 - 2 ^ 125⟩ := by
    decide!
  have e3 : (⟨-9882274 * 2 ^ 119⟩ : Binary32) +
      (1 - ⟨-9882274 * 2 ^ 119⟩) * TMath.Sqr (1 : Binary32) = ⟨2 ^ 149 - 2 ^ 125⟩ := by
    decide!
  have hne : (⟨2 ^ 149 - 2 ^ 125⟩ : Binary32) ≠ ⟨2 ^ 149⟩ := by decide!
  refine ⟨⟨?_, hx _ _ _, ?_⟩, ?_⟩
  · rw [haxis]
    exact e2
  · intro h
    have h00 := congrFun (congrFun h 0) 0
    rw [haxis, hx] at h00
    exact hne (e2.symm.trans h00)
  · intro Sin Cos θ h
    refine ⟨?_, hx _ _ _⟩
    rw [haxis]
    rcases h with h | h | h
    · rw [h]; exact e1
    · rw [h]; exact e2
    · rw [h]; exact e3

/-! ## The view and perspective matrices applied to points -/

/-- The cancellation behind the view matrix: whatever `Normalize` returns for
the first basis vector, the loop of the homogeneous `VectorMultiply`
accumulates `(0, 0, 0, 1)` for `position`, and the output is `(0, 0, 0)`. -/
theorem CreateViewMatrix_cancel (Sqrt : T → T) (mOut : Matrix (Fin 4) (Fin 4) T)
    (vPosition vLook vUp : Vec 3 T) :
    ∃ mView, CreateViewMatrix 4 (by decide) Sqrt mOut vPosition vLook vUp = some mView ∧
      multiplyLoop (VectorAddDimention vPosition) mView = ![0, 0, 0, 1] ∧
      VectorMultiplyHomogeneous vPosition mView = vec3 0 0 0 := by
  rw [CreateViewMatrix_four]
  refine ⟨_, rfl, ?_⟩
  rw [multiplyLoop_eq_homogeneousResult]
  have hres : homogeneousResult vPosition
      !![Normalize Sqrt (VectorCross vUp vLook) 0,
                VectorCross vLook (Normalize Sqrt (VectorCross vUp vLook)) 0, vLook 0, 0;
              Normalize Sqrt (VectorCross vUp vLook) 1,
                VectorCross vLook (Normalize Sqrt (VectorCross vUp vLook)) 1, vLook 1, 0;
              Normalize Sqrt (VectorCross vUp vLook) 2,
                VectorCross vLook (Normalize Sqrt (VectorCross vUp vLook)) 2, vLook 2, 0;
              -VectorDot vPosition (Normalize Sqrt (VectorCross vUp vLook)),
                -VectorDot vPosition
                  (VectorCross vLook (Normalize Sqrt (VectorCross vUp vLook))),
                -VectorDot vPosition vLook, 1] = ![0, 0, 0, 1] := by
    funext i
    rw [homogeneousResult_four]
    fin_cases i
    · simp [VectorDot_three]
      ring
    · simp [VectorDot_three]
      ring
    · simp [VectorDot_three]
      ring
    · simp
  refine ⟨hres, ?_⟩
  rw [VectorMultiplyHomogeneous_eq_divide, hres]
  funext i
  fin_cases i <;> simp [perspectiveDivide, vec3, Fin.last]
  rfl

/-- With a non-zero magnitude the explicit division of `Normalize` is the
plain one, and the two forms of the view builder agree. -/
theorem CreateViewMatrix_checked_eq (N : Nat) (hN : 2 < N) (Sqrt : T → T)
    (mOut : Matrix (Fin N) (Fin N) T) (vPosition vLook vUp : Vec 3 T)
    (h : GetMagnitude Sqrt (VectorCross vUp vLook) ≠ 0) :
    Checked.CreateViewMatrix N hN Sqrt mOut vPosition vLook vUp =
      CreateViewMatrix N hN Sqrt mOut vPosition vLook vUp := by
  unfold Checked.CreateViewMatrix Checked.Normalize Checked.SetMagnitude CreateViewMatrix
  simp only [if_neg h]
  rfl

/-- Over the reals a non-zero vector has a non-zero magnitude. -/
theorem GetMagnitude_ne_zero {N : Nat} (v : Vec N ℝ) (hv : v ≠ 0) :
    GetMagnitude Real.sqrt v ≠ 0 := by
  unfold GetMagnitude
  exact (Real.sqrt_pos.mpr (GetMagnitudeSqr_pos v hv)).ne'

/-- C37 (counterexample): for `look = up = (0, 0, 1)` and the position
`(1, 2, 3)`, over the reals, `Cross(up, look)` is the zero vector, its
magnitude is zero, and `CreateViewMatrix` divides by it in `Normalize`: no
view matrix results, and so no image of the position. -/
theorem CreateViewMatrix_parallel_look_up :
    VectorCross (vec3 (0 : ℝ) 0 1) (vec3 0 0 1) = 0 ∧
      GetMagnitude Real.sqrt (VectorCross (vec3 (0 : ℝ) 0 1) (vec3 0 0 1)) = 0 ∧
      Checked.CreateViewMatrix 4 (by decide) Real.sqrt 0 (vec3 1 2 3) (vec3 (0 : ℝ) 0 1)
        (vec3 0 0 1) = none ∧
      ¬ ∃ mView, Checked.CreateViewMatrix 4 (by decide) Real.sqrt 0 (vec3 1 2 3)
          (vec3 (0 : ℝ) 0 1) (vec3 0 0 1) = some mView ∧
        VectorMultiplyHomogeneous (vec3 1 2 3) mView = vec3 0 0 0 := by
  have hc : VectorCross (vec3 (0 : ℝ) 0 1) (vec3 0 0 1) = 0 := by
    funext i
    fin_cases i
    · show VectorCross _ _ 0 = _
      rw [VectorCross_zero]; norm_num [vec3]
    · show VectorCross _ _ 1 = _
      rw [VectorCross_one]; norm_num [vec3]
    · show VectorCross _ _ 2 = _
      rw [VectorCross_two]; norm_num [vec3]
  have hm : GetMagnitude Real.sqrt (VectorCross (vec3 (0 : ℝ) 0 1) (vec3 0 0 1)) = 0 := by
    rw [hc]
    unfold GetMagnitude
    rw [GetMagnitudeSqr_eq_sum]
    simp
  have hnone : Checked.CreateViewMatrix 4 (by decide) Real.sqrt 0 (vec3 1 2 3)
      (vec3 (0 : ℝ) 0 1) (vec3 0 0 1) = none := by
    unfold Checked.CreateViewMatrix Checked.Normalize Checked.SetMagnitude
    simp only [if_pos hm]
  refine ⟨hc, hm, hnone, ?_⟩
  rintro ⟨mView, h, -⟩
  rw [hnone] at h
  exact Option.noConfusion h

/-- C37 (amended): for all 3-vectors `position`, `look` and `up` with
`Cross(up, look) ≠ 0`, over the reals, `CreateViewMatrix` divides by a
non-zero magnitude and builds a 4 x 4 matrix, the loop of the homogeneous
`VectorMultiply` accumulates `(0, 0, 0, 1)` for `position` under it, and the
homogeneous `VectorMultiply` maps `position` to `(0, 0, 0)`. -/
theorem CreateViewMatrix_position_to_origin (mOut : Matrix (Fin 4) (Fin 4) ℝ)
    (vPosition vLook vUp : Vec 3 ℝ) (hcross : VectorCross vUp vLook ≠ 0) :
    GetMagnitude Real.sqrt (VectorCross vUp vLook) ≠ 0 ∧
      ∃ mView,
        Checked.CreateViewMatrix 4 (by decide) Real.sqrt mOut vPosition vLook vUp =
          some mView ∧
        CreateViewMatrix 4 (by decide) Real.sqrt mOut vPosition vLook vUp = some mView ∧
        multiplyLoop (VectorAddDimention vPosition) mView = ![0, 0, 0, 1] ∧
        VectorMultiplyHomogeneous vPosition mView = vec3 0 0 0 := by
  have hmag := GetMagnitude_ne_zero _ hcross
  obtain ⟨mView, h1, h2, h3⟩ := CreateViewMatrix_cancel Real.sqrt mOut vPosition vLook vUp
  refine ⟨hmag, mView, ?_, h1, h2, h3⟩
  rw [CreateViewMatrix_checked_eq 4 (by decide) Real.sqrt mOut vPosition vLook vUp hmag]
  exact h1

/-- Witness for C37 (amended) at `position = (1,2,3)`, `look = (0,0,1)`,
`up = (0,1,0)` and a zero output matrix. -/
theorem CreateViewMatrix_position_to_origin_witness :
    VectorCross (vec3 (0 : ℝ) 1 0) (vec3 0 0 1) ≠ 0 ∧
      (GetMagnitude Real.sqrt (VectorCross (vec3 (0 : ℝ) 1 0) (vec3 0 0 1)) ≠ 0 ∧
        ∃ mView,
          Checked.CreateViewMatrix 4 (by decide) Real.sqrt 0 (vec3 1 2 3) (vec3 (0 : ℝ) 0 1)
            (vec3 0 1 0) = some mView ∧
          CreateViewMatrix 4 (by decide) Real.sqrt 0 (vec3 1 2 3) (vec3 (0 : ℝ) 0 1)
            (vec3 0 1 0) = some mView ∧
          multiplyLoop (VectorAddDimention (vec3 (1 : ℝ) 2 3)) mView = ![0, 0, 0, 1] ∧
          VectorMultiplyHomogeneous (vec3 (1 : ℝ) 2 3) mView = vec3 0 0 0) :=
  ⟨cross_up_look_example,
    CreateViewMatrix_position_to_origin 0 (vec3 1 2 3) (vec3 0 0 1) (vec3 0 1 0)
      cross_up_look_example⟩

/-- C38: for all `fovY`, `aspectRatio`, `x`, `y` and clip distances with
`nearClip ≠ 0`, `farClip ≠ 0` and `farClip ≠ nearClip`, over an exact field and
for any tangent function, `CreatePerspectiveMatrix` builds a 4 x 4 matrix
under which the loop of the homogeneous `VectorMultiply` accumulates a
non-zero last component for `(x, y, nearClip)` and for `(x, y, farClip)`, and
the homogeneous `VectorMultiply` maps `(x, y, nearClip)` to depth `0` and
`(x, y, farClip)` to depth `1` (third component). -/
theorem CreatePerspectiveMatrix_depth (Tan : T → T) (mOut : Matrix (Fin 4) (Fin 4) T)
    (fovY aspectRatio nearClip farClip x y : T) (hn : nearClip ≠ 0) (hf : farClip ≠ 0)
    (hfn : farClip ≠ nearClip) :
    ∃ mProj, CreatePerspectiveMatrix 4 Tan mOut fovY aspectRatio nearClip farClip = some mProj ∧
      multiplyLoop (VectorAddDimention (vec3 x y nearClip)) mProj (Fin.last 3) ≠ 0 ∧
      multiplyLoop (VectorAddDimention (vec3 x y farClip)) mProj (Fin.last 3) ≠ 0 ∧
      VectorMultiplyHomogeneous (vec3 x y nearClip) mProj 2 = 0 ∧
      VectorMultiplyHomogeneous (vec3 x y farClip) mProj 2 = 1 := by
  rw [CreatePerspectiveMatrix_four]
  refine ⟨_, rfl, ?_⟩
  simp only [multiplyLoop_eq_homogeneousResult]
  have hsub : farClip - nearClip ≠ 0 := sub_ne_zero.mpr hfn
  have hlast : ∀ z : T, homogeneousResult (vec3 x y z)
      !![1 / aspectRatio * (1 / Tan (fovY * (1 / 2))), 0, 0, 0;
              0, 1 / Tan (fovY * (1 / 2)), 0, 0;
              0, 0, farClip * (1 / (farClip - nearClip)), 1;
              0, 0, -nearClip * (farClip * (1 / (farClip - nearClip))), 0] (Fin.last 3) = z := by
    intro z
    rw [homogeneousResult_four]
    simp [vec3, Fin.last]
  have hdepth : ∀ z : T, homogeneousResult (vec3 x y z)
      !![1 / aspectRatio * (1 / Tan (fovY * (1 / 2))), 0, 0, 0;
              0, 1 / Tan (fovY * (1 / 2)), 0, 0;
              0, 0, farClip * (1 / (farClip - nearClip)), 1;
              0, 0, -nearClip * (farClip * (1 / (farClip - nearClip))), 0] 2 =
        farClip * (z - nearClip) / (farClip - nearClip) := by
    intro z
    rw [homogeneousResult_four]
    simp [vec3]
    field_simp
    ring
  refine ⟨by rw [hlast]; exact hn, by rw [hlast]; exact hf, ?_, ?_⟩
  · rw [VectorMultiplyHomogeneous_eq_divide]
    show homogeneousResult _ _ 2 / homogeneousResult _ _ (Fin.last 3) = 0
    rw [hdepth, sub_self, mul_zero, zero_div, zero_div]
  · rw [VectorMultiplyHomogeneous_eq_divide]
    show homogeneousResult _ _ 2 / homogeneousResult _ _ (Fin.last 3) = 1
    rw [hdepth, hlast]
    field_simp

/-- Witness for C38 over the reals at `fovY = 1`, `aspectRatio = 4/3`,
`nearClip = 1`, `farClip = 100` and the point coordinates `x = 2`, `y = 3`. -/
theorem CreatePerspectiveMatrix_depth_witness :
    ((1 : ℝ) ≠ 0 ∧ (100 : ℝ) ≠ 0 ∧ (100 : ℝ) ≠ 1) ∧
      ∃ mProj, CreatePerspectiveMatrix 4 Real.tan 0 1 (4 / 3) 1 100 = some mProj ∧
        multiplyLoop (VectorAddDimention (vec3 (2 : ℝ) 3 1)) mProj (Fin.last 3) ≠ 0 ∧
        multiplyLoop (VectorAddDimention (vec3 (2 : ℝ) 3 100)) mProj (Fin.last 3) ≠ 0 ∧
        VectorMultiplyHomogeneous (vec3 (2 : ℝ) 3 1) mProj 2 = 0 ∧
        VectorMultiplyHomogeneous (vec3 (2 : ℝ) 3 100) mProj 2 = 1 :=
  ⟨⟨by norm_num, by norm_num, by norm_num⟩,
    CreatePerspectiveMatrix_depth Real.tan 0 1 (4 / 3) 1 100 2 3 (by norm_num) (by norm_num)
      (by norm_num)⟩

/-! ## Further claims on `VectorReflect` -/

theorem VectorDot_VectorReflect {N : Nat} (v n : Vec N T) (hn : VectorDot n n = 1) :
    VectorDot (VectorReflect v n) n = -VectorDot v n := by
  have h1 : VectorDot (VectorReflect v n) n =
      VectorDot v n - VectorDot v n * 2 * VectorDot n n := by
    simp only [VectorDot_eq_sum, VectorReflect]
    rw [Finset.mul_sum, ← Finset.sum_sub_distrib]
    exact Finset.sum_congr rfl fun i _ => by ring
  rw [h1, hn]
  ring

theorem sum_reflect {N : Nat} (v n : Vec N T) (D : T) :
    ∑ i, (v i - n i * (D * 2)) * (v i - n i * (D * 2)) =
      ∑ i, v i * v i - 4 * D * ∑ i, v i * n i + 4 * D * D * ∑ i, n i * n i := by
  rw [Finset.mul_sum, Finset.mul_sum, ← Finset.sum_sub_distrib, ← Finset.sum_add_distrib]
  exact Finset.sum_congr rfl fun i _ => by ring

/-- C39: for every `N`-vector `v` and every normal `n` with
`VectorDot(n, n) = 1`, over an exact field, reflecting twice returns `v`, and
the reflection has the squared magnitude of `v`. -/
theorem VectorReflect_involution (N : Nat) (v n : Vec N T) (hn : VectorDot n n = 1) :
    VectorReflect (VectorReflect v n) n = v ∧
      GetMagnitudeSqr (VectorReflect v n) = GetMagnitudeSqr v := by
  constructor
  · funext i
    have hd := VectorDot_VectorReflect v n hn
    show VectorReflect v n i - n i * (VectorDot (VectorReflect v n) n * 2) = v i
    rw [hd]
    show v i - n i * (VectorDot v n * 2) - n i * (-VectorDot v n * 2) = v i
    ring
  · rw [GetMagnitudeSqr_eq_sum, GetMagnitudeSqr_eq_sum]
    show ∑ i, (v i - n i * (VectorDot v n * 2)) * (v i - n i * (VectorDot v n * 2)) = _
    rw [sum_reflect, ← VectorDot_eq_sum v n, ← VectorDot_eq_sum n n, hn]
    ring

/-- Witness for C39 at the real vector `(1, 2, 3)` and the unit normal
`(3/5, 4/5, 0)`. -/
theorem VectorReflect_involution_witness :
    VectorDot (vec3 (3 / 5 : ℝ) (4 / 5) 0) (vec3 (3 / 5) (4 / 5) 0) = 1 ∧
      (VectorReflect (VectorReflect (vec3 (1 : ℝ) 2 3) (vec3 (3 / 5) (4 / 5) 0))
          (vec3 (3 / 5) (4 / 5) 0) = vec3 1 2 3 ∧
        GetMagnitudeSqr (VectorReflect (vec3 (1 : ℝ) 2 3) (vec3 (3 / 5) (4 / 5) 0)) =
          GetMagnitudeSqr (vec3 (1 : ℝ) 2 3)) :=
  ⟨unit_axis_example, VectorReflect_involution 3 _ _ unit_axis_example⟩

end Snake3D
